import Mathlib

/-!
# go-crypt: PKCS#7 padding, chunked RSA PKCS#1 v1.5 and the AES wrappers

A shallow embedding of `padding.go`, `rsa.go` and `aes.go`.

Conventions of the embedding
* A Go `byte` is a `Fin 256`; a `[]byte` is a `List Byte` (its length is the
  slice length; capacity and storage sharing are represented only in the
  section on the storage of slices).
* A Go `int` is an `Int`.  Slice lengths are far below `2 ^ 63`, so the sums
  and differences of lengths computed by the code do not wrap; memory is
  unbounded (an allocation never fails for lack of space).
* A function returning `([]byte, error)` is a function into `Except Fault`:
  `.ok v` is the return `v, nil`; `.error (.err e)` is the return `nil, e`
  (every error return of the sources returns a nil slice, or `0`, with it);
  `.error (.panic p)` is a run-time panic.
-/

namespace Crypt

/-- A Go `byte`. -/
abbrev Byte := Fin 256

/-- A Go `[]byte`. -/
abbrev Bytes := List Byte

/-- The run-time panics the embedded code could raise. -/
inductive GoPanic where
  | divideByZero
  | makesliceLenOutOfRange
  | indexOutOfRange
  | sliceBoundsOutOfRange
  | nilPointerDereference
  | inputNotFullBlocks
  | outputSmallerThanInput
  deriving DecidableEq

/-- The Go `error` values: the package-level `errors.New` values of the
sources, and the errors of the standard library, told apart by a tag. -/
inductive Error where
  | errPaddingIsWrong
  | errRsaPublicKeySize
  | errAesSrcSizeMustBeMultipleOfBlockSize
  | errAesIvLenMustBeBlockSize
  | library (tag : Nat)
  | errNprimesMustBeAtLeast2
  deriving DecidableEq

/-- What ends a call other than a normal return. -/
inductive Fault where
  | err (e : Error)
  | panic (p : GoPanic)
  deriving DecidableEq

deriving instance DecidableEq for Except

/-- The Go conversion `byte(n)` of an `int`: the low eight bits. -/
def toByte (n : Int) : Byte := Fin.ofNat (n % 256).toNat

/-- The Go remainder `a % b` on `int`: truncated, panics on a zero divisor. -/
def goMod (a b : Int) : Except Fault Int :=
  if b = 0 then .error (.panic .divideByZero) else .ok (Int.tmod a b)

/-- The Go `make([]byte, n)`: `n` zero bytes, panics on a negative length. -/
def makeBytes (n : Int) : Except Fault Bytes :=
  if n < 0 then .error (.panic .makesliceLenOutOfRange)
  else .ok (List.replicate n.toNat 0)

/-- The Go `copy(dst, src)`: the first `min (len dst) (len src)` bytes of
`dst` are overwritten by those of `src`. -/
def copyBytes (dst src : Bytes) : Bytes :=
  src.take dst.length ++ dst.drop src.length

/-- The Go index expression `s[i]`, with its bounds check. -/
def getIndex (s : Bytes) (i : Int) : Except Fault Byte :=
  if i < 0 then .error (.panic .indexOutOfRange)
  else match s[i.toNat]? with
    | some b => .ok b
    | none => .error (.panic .indexOutOfRange)

/-- The Go assignment `s[i] = v`, with its bounds check. -/
def setIndex (s : Bytes) (i : Int) (v : Byte) : Except Fault Bytes :=
  if 0 ≤ i ∧ i < s.length then .ok (s.set i.toNat v)
  else .error (.panic .indexOutOfRange)

/-- The Go slice expression `s[lo:hi]`, with its bounds check (against the
length: the capacity of a slice is not represented). -/
def slice (s : Bytes) (lo hi : Int) : Except Fault Bytes :=
  if 0 ≤ lo ∧ lo ≤ hi ∧ hi ≤ s.length then
    .ok ((s.drop lo.toNat).take (hi - lo).toNat)
  else .error (.panic .sliceBoundsOutOfRange)

/-! ## padding.go -/

/-- The struct `Pkcs7Padding`. -/
structure Pkcs7Padding where
  blockSize : Int
  deriving DecidableEq

/-- The constructor `NewPkcs7Padding`. -/
def NewPkcs7Padding (blockSize : Int) : Pkcs7Padding :=
  { blockSize := blockSize }

/-- The loop `for i := 0; i < paddingSize; i++ { result[len(buf)+i] =
byte(paddingSize) }` of `Pad`, over the values `is` that `i` takes. -/
def padLoop (lenBuf paddingSize : Int) : List Nat → Bytes → Except Fault Bytes
  | [], result => .ok result
  | i :: is, result =>
    match setIndex result (lenBuf + i) (toByte paddingSize) with
    | .ok result1 => padLoop lenBuf paddingSize is result1
    | .error f => .error f

/-- The method `Pkcs7Padding.Pad`. -/
def Pkcs7Padding.Pad (p : Pkcs7Padding) (buf : Bytes) : Except Fault Bytes :=
  match goMod buf.length p.blockSize with
  | .error f => .error f
  | .ok r =>
    let paddingSize : Int := p.blockSize - r
    match makeBytes (buf.length + paddingSize) with
    | .error f => .error f
    | .ok result =>
      padLoop buf.length paddingSize (List.range paddingSize.toNat)
        (copyBytes result buf)

/-- The loop `for i := 2; i <= paddingSize; i++ { if buf[length-i] != value
{ return 0, errPaddingIsWrong } }` of `paddingSizeOfUnpad`, over the values
`is` that `i` takes. -/
def unpadLoop (buf : Bytes) (length : Int) (value : Byte) :
    List Nat → Except Fault Unit
  | [] => .ok ()
  | i :: is =>
    match getIndex buf (length - i) with
    | .error f => .error f
    | .ok b =>
      if b ≠ value then .error (.err .errPaddingIsWrong)
      else unpadLoop buf length value is

/-- The method `Pkcs7Padding.paddingSizeOfUnpad`. -/
def Pkcs7Padding.paddingSizeOfUnpad (_p : Pkcs7Padding) (buf : Bytes) :
    Except Fault Int :=
  let length : Int := buf.length
  if length ≤ 0 then .error (.err .errPaddingIsWrong)
  else
    match getIndex buf (length - 1) with
    | .error f => .error f
    | .ok value =>
      let paddingSize : Int := value.val
      if paddingSize > length then .error (.err .errPaddingIsWrong)
      else
        match unpadLoop buf length value
            (List.range' 2 (paddingSize.toNat - 1)) with
        | .error f => .error f
        | .ok _ => .ok paddingSize

/-- The method `Pkcs7Padding.Unpad`. -/
def Pkcs7Padding.Unpad (p : Pkcs7Padding) (buf : Bytes) : Except Fault Bytes :=
  match p.paddingSizeOfUnpad buf with
  | .error f => .error f
  | .ok paddingSize => slice buf 0 (buf.length - paddingSize)

/-- The struct `Pkcs5Padding`. -/
structure Pkcs5Padding where
  pkcs7 : Pkcs7Padding
  deriving DecidableEq

/-- The constructor `NewPkcs5Padding`. -/
def NewPkcs5Padding : Pkcs5Padding :=
  { pkcs7 := NewPkcs7Padding 8 }

/-- The method `Pkcs5Padding.Pad`. -/
def Pkcs5Padding.Pad (p : Pkcs5Padding) (buf : Bytes) : Except Fault Bytes :=
  p.pkcs7.Pad buf

/-- The method `Pkcs5Padding.Unpad`. -/
def Pkcs5Padding.Unpad (p : Pkcs5Padding) (buf : Bytes) : Except Fault Bytes :=
  p.pkcs7.Unpad buf

/-- The buffer has at least `v` bytes and its last `v` bytes all have the value
`v`: the condition under which `Unpad` accepts a buffer whose last byte is `v`. -/
def EndsInPadding (buf : Bytes) (v : Byte) : Prop :=
  v.val ≤ buf.length ∧ ∀ b ∈ buf.drop (buf.length - v.val), b = v

instance (buf : Bytes) (v : Byte) : Decidable (EndsInPadding buf v) := by
  unfold EndsInPadding
  infer_instance

/-! ## rsa.go

The standard-library calls `rsa.EncryptPKCS1v15(rand.Reader, pub, chunk)` and
`rsa.DecryptPKCS1v15(rand.Reader, pri, chunk)` are parameters of the embedding:
functions of the state of the random source, the key and the chunk, which
return the block or an error together with the next state of the source. -/

/-- The halving loop behind `bitLen`: `fuel` bounds the number of halvings. -/
def bitLenAux : Nat → Nat → Nat
  | 0, _ => 0
  | fuel + 1, n => if n = 0 then 0 else bitLenAux fuel (n / 2) + 1

/-- The library method `big.Int.BitLen` on a non-negative value: the number of
binary digits, 0 for 0. -/
def BitLen (n : Nat) : Nat := bitLenAux n n

/-- The library struct `rsa.PublicKey`; `N` is never negative here (it comes
from `SetBytes` or from a product of primes). -/
structure PublicKey where
  N : Nat
  E : Int
  deriving DecidableEq

/-- The library struct `rsa.PrivateKey` (the precomputed values left out). -/
structure PrivateKey where
  PublicKey : PublicKey
  D : Int
  Primes : List Nat
  deriving DecidableEq

/-- The library method `rsa.PublicKey.Size`: the modulus size in bytes, which
is the length of every block `rsa.EncryptPKCS1v15` returns; that primitive
rejects a message longer than `Size - 11` bytes. -/
def PublicKey.Size (pub : PublicKey) : Int := ((BitLen pub.N : Int) + 7) / 8

/-- A block primitive under key `κ` with random-source state `σ`. -/
abbrev BlockPrimitive (κ σ : Type) := σ → κ → Bytes → Except Error Bytes × σ

/-- The shared shape of the two loops of `rsa.go`:
`for encSize, leftSize, thisSize := 0, len(data), 0; leftSize > 0; { ... }`,
run from the state `(encSize, leftSize, outputs)`, followed by
`return bytes.Join(outputs, nil), nil`.  `block` is the library call of the
loop body.  `none` means that `fuel` iterations did not end the loop. -/
def chunkLoop {σ : Type} (block : σ → Bytes → Except Error Bytes × σ) (data : Bytes)
    (eachSize : Int) :
    Nat → Int → Int → List Bytes → σ → Option (Except Fault Bytes) × σ
  | 0, _, leftSize, outputs, rand =>
    if leftSize > 0 then (none, rand) else (some (.ok outputs.flatten), rand)
  | fuel + 1, encSize, leftSize, outputs, rand =>
    if leftSize > 0 then
      let thisSize : Int := if leftSize > eachSize then eachSize else leftSize
      match slice data encSize (encSize + thisSize) with
      | .error f => (some (.error f), rand)
      | .ok chunk =>
        match block rand chunk with
        | (.error e, rand1) => (some (.error (.err e)), rand1)
        | (.ok out, rand1) =>
          chunkLoop block data eachSize fuel (encSize + thisSize) (leftSize - thisSize)
            (outputs ++ [out]) rand1
    else (some (.ok outputs.flatten), rand)

/-- The function `publicEncryptPkcs1v15`.  The loop is given `len(data)`
iterations of fuel: each iteration consumes at least one byte. -/
def publicEncryptPkcs1v15 {σ : Type} (EncryptPKCS1v15 : BlockPrimitive PublicKey σ)
    (pub : PublicKey) (data : Bytes) (rand : σ) : Option (Except Fault Bytes) × σ :=
  let eachSize : Int := (BitLen pub.N : Int) / 8 - 11
  if eachSize ≤ 0 then (some (.error (.err .errRsaPublicKeySize)), rand)
  else
    chunkLoop (fun r chunk => EncryptPKCS1v15 r pub chunk) data eachSize
      data.length 0 data.length [] rand

/-- The function `privateDecryptPkcs1v15`, with the same fuel. -/
def privateDecryptPkcs1v15 {σ : Type} (DecryptPKCS1v15 : BlockPrimitive PrivateKey σ)
    (pri : PrivateKey) (data : Bytes) (rand : σ) : Option (Except Fault Bytes) × σ :=
  let eachSize : Int := (BitLen pri.PublicKey.N : Int) / 8
  if eachSize ≤ 0 then (some (.error (.err .errRsaPublicKeySize)), rand)
  else
    chunkLoop (fun r chunk => DecryptPKCS1v15 r pri chunk) data eachSize
      data.length 0 data.length [] rand

/-- The struct `RsaPublic`. -/
structure RsaPublic where
  pubKey : PublicKey
  deriving DecidableEq

/-- The library method `big.Int.SetBytes`: the big-endian value of the bytes. -/
def SetBytes (n : Bytes) : Nat := n.foldl (fun acc b => acc * 256 + b.val) 0

/-- The constructor `NewRsaPublic`. -/
def NewRsaPublic (n : Bytes) (e : Int) : RsaPublic :=
  { pubKey := { N := SetBytes n, E := e } }

/-- The method `RsaPublic.PublicEncryptPkcs1v15`. -/
def RsaPublic.PublicEncryptPkcs1v15 {σ : Type} (EncryptPKCS1v15 : BlockPrimitive PublicKey σ)
    (pub : RsaPublic) (data : Bytes) (rand : σ) : Option (Except Fault Bytes) × σ :=
  publicEncryptPkcs1v15 EncryptPKCS1v15 pub.pubKey data rand

/-- The struct `RsaPrivate`: `priKey` is a pointer, `none` when nil; `err` is
`none` when nil. -/
structure RsaPrivate where
  priKey : Option PrivateKey
  err : Option Error
  deriving DecidableEq

/-- The method `RsaPrivate.HasError`. -/
def RsaPrivate.HasError (p : RsaPrivate) : Option Error × Bool :=
  (p.err, p.err != none)

/-- The method `RsaPrivate.PublicEncryptPkcs1v15`. -/
def RsaPrivate.PublicEncryptPkcs1v15 {σ : Type}
    (EncryptPKCS1v15 : BlockPrimitive PublicKey σ) (p : RsaPrivate) (data : Bytes) (rand : σ) :
    Option (Except Fault Bytes) × σ :=
  match p.err with
  | some e => (some (.error (.err e)), rand)
  | none =>
    match p.priKey with
    | none => (some (.error (.panic .nilPointerDereference)), rand)
    | some key => publicEncryptPkcs1v15 EncryptPKCS1v15 key.PublicKey data rand

/-- The method `RsaPrivate.PrivateDecryptPkcs1v15`. -/
def RsaPrivate.PrivateDecryptPkcs1v15 {σ : Type}
    (DecryptPKCS1v15 : BlockPrimitive PrivateKey σ) (p : RsaPrivate) (data : Bytes) (rand : σ) :
    Option (Except Fault Bytes) × σ :=
  match p.err with
  | some e => (some (.error (.err e)), rand)
  | none =>
    match p.priKey with
    | none => (some (.error (.panic .nilPointerDereference)), rand)
    | some key => privateDecryptPkcs1v15 DecryptPKCS1v15 key data rand

/-! ### Observation of the calls of a block primitive -/

/-- A block primitive that also records, in order, the chunks it is given. -/
def traced {κ σ : Type} (block : BlockPrimitive κ σ) : BlockPrimitive κ (σ × List Bytes) :=
  fun st key chunk => ((block st.1 key chunk).1, ((block st.1 key chunk).2, st.2 ++ [chunk]))

/-! ### The segmentation in the words of the spec -/

/-- The segments of `data`: `ceil (len data / eachSize)` contiguous pieces, the
`i`-th starting at offset `i * eachSize` and holding at most `eachSize` bytes. -/
def segments (eachSize : Nat) (data : Bytes) : List Bytes :=
  (List.range ((data.length + eachSize - 1) / eachSize)).map
    (fun i => (data.drop (i * eachSize)).take eachSize)

/-- The block operation applied to the segments in order, the random source
threaded through; the first failure ends it. -/
def applyInOrder {σ : Type} (block : σ → Bytes → Except Error Bytes × σ) :
    List Bytes → σ → Except Error (List Bytes) × σ
  | [], rand => (.ok [], rand)
  | seg :: segs, rand =>
    match block rand seg with
    | (.error e, rand1) => (.error e, rand1)
    | (.ok out, rand1) =>
      match applyInOrder block segs rand1 with
      | (.error e, rand2) => (.error e, rand2)
      | (.ok outs, rand2) => (.ok (out :: outs), rand2)

/-- What the loop of `rsa.go` returns, as a function of the outcome of the
block operation on the segments: the first error, or the join of the blocks
collected before the loop and in it. -/
def loopResult {σ : Type} (outputs : List Bytes) :
    Except Error (List Bytes) × σ → Option (Except Fault Bytes) × σ
  | (.error e, rand) => (some (.error (.err e)), rand)
  | (.ok outs, rand) => (some (.ok (outputs ++ outs).flatten), rand)

/-! ### Key generation

The library calls `rand.Prime(random, bits)` and `big.Int.GCD(x, y, a, b)` are
parameters of the embedding.  `priv.Precompute()` only fills the precomputed
values, which the embedded `PrivateKey` leaves out. -/

/-- The library function `rand.Prime` as a parameter: from the state of the
random source and a bit size, a number or an error, and the next state. -/
abbrev PrimeSource (σ : Type) := σ → Int → Except Error Nat × σ

/-- The library method `big.Int.GCD` as a parameter: from `a` and `b`, the
values `(g, x, y)` it stores in `z`, `x` and `y`. -/
abbrev GCDFunction := Int → Int → Int × Int × Int

/-- The loop `for i := 0; i < nprimes; i++ { primes[i], err = rand.Prime(random,
todo/(nprimes-i)); ...; todo -= primes[i].BitLen() }` of
`generateMultiPrimeKey`, over the values `is` that `i` takes; `primes` holds
the slots filled so far.  The divisor `nprimes - i` is at least 1 in the loop,
so the division cannot panic. -/
def drawPrimes {σ : Type} (Prime : PrimeSource σ) (nprimes : Int) :
    List Nat → Int → List Nat → σ → Except Error (List Nat) × σ
  | [], _, primes, rand => (.ok primes, rand)
  | i :: is, todo, primes, rand =>
    match Prime rand (Int.tdiv todo (nprimes - i)) with
    | (.error e, rand1) => (.error e, rand1)
    | (.ok prime, rand1) =>
      drawPrimes Prime nprimes is (todo - BitLen prime) (primes ++ [prime]) rand1

/-- The retry loop `NextSetOfPrimes: for { ... }` of `generateMultiPrimeKey`,
up to the `break`; `fuel` bounds the number of sets of primes drawn and `none`
means that none of them was accepted.  The double loop "make sure that primes
is pairwise unequal" is the test `primes.Nodup`. -/
def nextSetOfPrimes {σ : Type} (Prime : PrimeSource σ) (GCD : GCDFunction)
    (nprimes bits e : Int) : Nat → σ → Option (Except Error PrivateKey) × σ
  | 0, rand => (none, rand)
  | fuel + 1, rand =>
    let todo : Int := if nprimes ≥ 7 then bits + Int.tdiv (nprimes - 2) 5 else bits
    match drawPrimes Prime nprimes (List.range nprimes.toNat) todo [] rand with
    | (.error err, rand1) => (some (.error err), rand1)
    | (.ok primes, rand1) =>
      if ¬ primes.Nodup then nextSetOfPrimes Prime GCD nprimes bits e fuel rand1
      else
        let n : Nat := primes.foldl (fun n prime => n * prime) 1
        let totient : Int := primes.foldl (fun t prime => t * ((prime : Int) - 1)) 1
        if (BitLen n : Int) ≠ bits then nextSetOfPrimes Prime GCD nprimes bits e fuel rand1
        else
          if (GCD e totient).1 = 1 then
            let d : Int := (GCD e totient).2.1
            (some (.ok { PublicKey := { N := n, E := e },
                         D := if d < 0 then d + totient else d,
                         Primes := primes }), rand1)
          else nextSetOfPrimes Prime GCD nprimes bits e fuel rand1

/-- The function `generateMultiPrimeKey`. -/
def generateMultiPrimeKey {σ : Type} (Prime : PrimeSource σ) (GCD : GCDFunction)
    (nprimes bits e : Int) (fuel : Nat) (rand : σ) : Option (Except Error PrivateKey) × σ :=
  if nprimes < 2 then (some (.error .errNprimesMustBeAtLeast2), rand)
  else nextSetOfPrimes Prime GCD nprimes bits e fuel rand

/-- The constructor `NewRsaPrivate`; `none` means that key generation did not
end within `fuel` sets of primes. -/
def NewRsaPrivate {σ : Type} (Prime : PrimeSource σ) (GCD : GCDFunction) (bits e : Int)
    (fuel : Nat) (rand : σ) : Option RsaPrivate × σ :=
  if Int.tmod bits 8 ≠ 0 then
    (some { priKey := none, err := some .errRsaPublicKeySize }, rand)
  else
    match generateMultiPrimeKey Prime GCD 2 bits e fuel rand with
    | (none, rand1) => (none, rand1)
    | (some (.error err), rand1) => (some { priKey := none, err := some err }, rand1)
    | (some (.ok key), rand1) => (some { priKey := some key, err := none }, rand1)

/-- The loop behind `bigIntBytes`: one byte for each division by 256. -/
def bigIntBytesAux : Nat → Nat → Bytes → Bytes
  | 0, _, acc => acc
  | fuel + 1, n, acc =>
    if n = 0 then acc else bigIntBytesAux fuel (n / 256) (Fin.ofNat (n % 256) :: acc)

/-- The library method `big.Int.Bytes` on a non-negative value: the big-endian
bytes, without leading zero bytes. -/
def bigIntBytes (n : Nat) : Bytes := bigIntBytesAux n n []

/-- The method `RsaPrivate.GetNBytes`; `none` is the nil slice. -/
def RsaPrivate.GetNBytes (p : RsaPrivate) : Except Fault (Option Bytes) :=
  match p.err with
  | some _ => .ok none
  | none =>
    match p.priKey with
    | none => .error (.panic .nilPointerDereference)
    | some key => .ok (some (bigIntBytes key.PublicKey.N))

/-! ## aes.go

The library objects are parameters of the embedding: a `cipher.BlockMode` and a
`cipher.Stream` are a state and the transformation their method applies to a
source buffer, which returns the output and the next state; `aes.NewCipher`
and the six mode constructors of `crypto/cipher` are the fields of a
`CipherLibrary`.  A method that changes the state of the library object
returns the instance holding the new state. -/

/-- The interface `Padding`. -/
structure Padding where
  Pad : Bytes → Except Fault Bytes
  Unpad : Bytes → Except Fault Bytes

/-- A `Pkcs7Padding` as a value of the interface `Padding`. -/
def Pkcs7Padding.toPadding (p : Pkcs7Padding) : Padding :=
  { Pad := p.Pad, Unpad := p.Unpad }

/-- A `Pkcs5Padding` as a value of the interface `Padding`. -/
def Pkcs5Padding.toPadding (p : Pkcs5Padding) : Padding :=
  { Pad := p.Pad, Unpad := p.Unpad }

/-- The constant `aes.BlockSize`, also `AesIvSize`. -/
def AesIvSize : Int := 16

/-- A library `cipher.BlockMode`. -/
structure BlockMode (μ : Type) where
  blockSize : Int
  state : μ
  crypt : μ → Bytes → Bytes × μ

/-- The library method `BlockMode.BlockSize`. -/
def BlockMode.BlockSize {μ : Type} (m : BlockMode μ) : Int := m.blockSize

/-- The library method `BlockMode.CryptBlocks(dst, src)`: it panics when `src`
is not a whole number of blocks or `dst` is shorter than `src`, and otherwise
writes the output over the start of `dst`. -/
def BlockMode.CryptBlocks {μ : Type} (m : BlockMode μ) (dst src : Bytes) :
    Except Fault (Bytes × BlockMode μ) :=
  if m.blockSize = 0 ∨ Int.tmod src.length m.blockSize ≠ 0 then
    .error (.panic .inputNotFullBlocks)
  else if dst.length < src.length then .error (.panic .outputSmallerThanInput)
  else
    .ok (copyBytes dst (m.crypt m.state src).1, { m with state := (m.crypt m.state src).2 })

/-- A library `cipher.Stream`. -/
structure Stream (ς : Type) where
  state : ς
  xor : ς → Bytes → Bytes × ς

/-- The library method `Stream.XORKeyStream(dst, src)`: it panics when `dst` is
shorter than `src`, and otherwise writes the output over the start of `dst`. -/
def Stream.XORKeyStream {ς : Type} (st : Stream ς) (dst src : Bytes) :
    Except Fault (Bytes × Stream ς) :=
  if dst.length < src.length then .error (.panic .outputSmallerThanInput)
  else .ok (copyBytes dst (st.xor st.state src).1, { st with state := (st.xor st.state src).2 })

/-- The library constructors that `aes.go` calls; `β` is `cipher.Block`. -/
structure CipherLibrary (β μ ς : Type) where
  NewCipher : Bytes → Except Error β
  NewCBCEncrypter : β → Bytes → BlockMode μ
  NewCBCDecrypter : β → Bytes → BlockMode μ
  NewCFBEncrypter : β → Bytes → Stream ς
  NewCFBDecrypter : β → Bytes → Stream ς
  NewOFB : β → Bytes → Stream ς
  NewCTR : β → Bytes → Stream ς

/-- The function `checkKeyIv`. -/
def checkKeyIv {β μ ς : Type} (lib : CipherLibrary β μ ς) (key iv : Bytes) : Except Error β :=
  if (iv.length : Int) ≠ AesIvSize then .error .errAesIvLenMustBeBlockSize
  else lib.NewCipher key

/-- The struct `AesBlockModeEncrypter`; `none` is nil. -/
structure AesBlockModeEncrypter (μ : Type) where
  blockMode : Option (BlockMode μ)
  padding : Option Padding
  err : Option Error

/-- The function `newAesBlockModeEncrypter`. -/
def newAesBlockModeEncrypter {μ : Type} (blockMode : Option (BlockMode μ))
    (padding : Option Padding) (err : Option Error) : AesBlockModeEncrypter μ :=
  { blockMode := blockMode, padding := padding, err := err }

/-- The method `AesBlockModeEncrypter.HasError`. -/
def AesBlockModeEncrypter.HasError {μ : Type} (e : AesBlockModeEncrypter μ) :
    Option Error × Bool :=
  (e.err, e.err.isSome)

/-- The method `AesBlockModeEncrypter.Encrypt`. -/
def AesBlockModeEncrypter.Encrypt {μ : Type} (e : AesBlockModeEncrypter μ) (src : Bytes) :
    Except Fault Bytes × AesBlockModeEncrypter μ :=
  match e.err with
  | some err => (.error (.err err), e)
  | none =>
    match e.padding with
    | none => (.error (.panic .nilPointerDereference), e)
    | some padding =>
      match padding.Pad src with
      | .error f => (.error f, e)
      | .ok buf =>
        match e.blockMode with
        | none => (.error (.panic .nilPointerDereference), e)
        | some m =>
          match m.CryptBlocks buf buf with
          | .error f => (.error f, e)
          | .ok (buf1, m1) => (.ok buf1, { e with blockMode := some m1 })

/-- The struct `AesBlockModeDecrypter`; `none` is nil. -/
structure AesBlockModeDecrypter (μ : Type) where
  blockMode : Option (BlockMode μ)
  padding : Option Padding
  err : Option Error

/-- The function `newAesBlockModeDecrypter`. -/
def newAesBlockModeDecrypter {μ : Type} (blockMode : Option (BlockMode μ))
    (padding : Option Padding) (err : Option Error) : AesBlockModeDecrypter μ :=
  { blockMode := blockMode, padding := padding, err := err }

/-- The method `AesBlockModeDecrypter.HasError`. -/
def AesBlockModeDecrypter.HasError {μ : Type} (d : AesBlockModeDecrypter μ) :
    Option Error × Bool :=
  (d.err, d.err.isSome)

/-- The method `AesBlockModeDecrypter.Decrypt`. -/
def AesBlockModeDecrypter.Decrypt {μ : Type} (d : AesBlockModeDecrypter μ) (src : Bytes) :
    Except Fault Bytes × AesBlockModeDecrypter μ :=
  match d.err with
  | some err => (.error (.err err), d)
  | none =>
    match d.blockMode with
    | none => (.error (.panic .nilPointerDereference), d)
    | some m =>
      match goMod src.length m.BlockSize with
      | .error f => (.error f, d)
      | .ok r =>
        if r ≠ 0 then (.error (.err .errAesSrcSizeMustBeMultipleOfBlockSize), d)
        else
          match makeBytes src.length with
          | .error f => (.error f, d)
          | .ok dst =>
            match m.CryptBlocks dst src with
            | .error f => (.error f, d)
            | .ok (dst1, m1) =>
              match d.padding with
              | none => (.error (.panic .nilPointerDereference), { d with blockMode := some m1 })
              | some padding => (padding.Unpad dst1, { d with blockMode := some m1 })

/-- The struct `AesStream`; `none` is nil. -/
structure AesStream (ς : Type) where
  stream : Option (Stream ς)
  err : Option Error

/-- The function `newAesStream`. -/
def newAesStream {ς : Type} (stream : Option (Stream ς)) (err : Option Error) : AesStream ς :=
  { stream := stream, err := err }

/-- The method `AesStream.HasError`. -/
def AesStream.HasError {ς : Type} (s : AesStream ς) : Option Error × Bool :=
  (s.err, s.err.isSome)

/-- The method `AesStream.Crypt`. -/
def AesStream.Crypt {ς : Type} (s : AesStream ς) (src : Bytes) :
    Except Fault Bytes × AesStream ς :=
  match s.err with
  | some err => (.error (.err err), s)
  | none =>
    match makeBytes src.length with
    | .error f => (.error f, s)
    | .ok dst =>
      match s.stream with
      | none => (.error (.panic .nilPointerDereference), s)
      | some st =>
        match st.XORKeyStream dst src with
        | .error f => (.error f, s)
        | .ok (dst1, st1) => (.ok dst1, { s with stream := some st1 })

/-- The constructor `NewAesCbcEncrypter`. -/
def NewAesCbcEncrypter {β μ ς : Type} (lib : CipherLibrary β μ ς) (key iv : Bytes)
    (padding : Padding) : AesBlockModeEncrypter μ :=
  match checkKeyIv lib key iv with
  | .error err => newAesBlockModeEncrypter none none (some err)
  | .ok block => newAesBlockModeEncrypter (some (lib.NewCBCEncrypter block iv)) (some padding) none

/-- The constructor `NewAesCbcDecrypter`. -/
def NewAesCbcDecrypter {β μ ς : Type} (lib : CipherLibrary β μ ς) (key iv : Bytes)
    (padding : Padding) : AesBlockModeDecrypter μ :=
  match checkKeyIv lib key iv with
  | .error err => newAesBlockModeDecrypter none none (some err)
  | .ok block => newAesBlockModeDecrypter (some (lib.NewCBCDecrypter block iv)) (some padding) none

/-- The constructor `NewAesCfbEncrypter`. -/
def NewAesCfbEncrypter {β μ ς : Type} (lib : CipherLibrary β μ ς) (key iv : Bytes) :
    AesStream ς :=
  match checkKeyIv lib key iv with
  | .error err => newAesStream none (some err)
  | .ok block => newAesStream (some (lib.NewCFBEncrypter block iv)) none

/-- The constructor `NewAesCfbDecrypter`. -/
def NewAesCfbDecrypter {β μ ς : Type} (lib : CipherLibrary β μ ς) (key iv : Bytes) :
    AesStream ς :=
  match checkKeyIv lib key iv with
  | .error err => newAesStream none (some err)
  | .ok block => newAesStream (some (lib.NewCFBDecrypter block iv)) none

/-- The constructor `NewAesOfb`. -/
def NewAesOfb {β μ ς : Type} (lib : CipherLibrary β μ ς) (key iv : Bytes) : AesStream ς :=
  match checkKeyIv lib key iv with
  | .error err => newAesStream none (some err)
  | .ok block => newAesStream (some (lib.NewOFB block iv)) none

/-- The constructor `NewAesCtr`. -/
def NewAesCtr {β μ ς : Type} (lib : CipherLibrary β μ ς) (key iv : Bytes) : AesStream ς :=
  match checkKeyIv lib key iv with
  | .error err => newAesStream none (some err)
  | .ok block => newAesStream (some (lib.NewCTR block iv)) none

/-! ## Storage of slices

A second embedding of `Pkcs7Padding.Pad`, statement by statement as the first,
in which a slice is a view of a backing array held in a heap; it serves the
claims on what `Pad` writes to. -/

/-- The byte arrays allocated so far; an array is named by its position. -/
abbrev Heap := List (List Byte)

/-- A Go slice value: its backing array, and its offset, length and capacity
within that array. -/
structure Slice where
  array : Nat
  off : Nat
  len : Nat
  cap : Nat
  deriving DecidableEq

/-- The content of an array of the heap. -/
def Heap.array (h : Heap) (a : Nat) : List Byte := h.getD a []

/-- The bytes that a slice denotes. -/
def Heap.read (h : Heap) (s : Slice) : Bytes := ((h.array s.array).drop s.off).take s.len

/-- The Go `make([]byte, n)`: a slice over a new array of `n` zero bytes. -/
def Heap.make (h : Heap) (n : Int) : Except Fault (Slice × Heap) :=
  if n < 0 then .error (.panic .makesliceLenOutOfRange)
  else
    .ok ({ array := h.length, off := 0, len := n.toNat, cap := n.toNat },
         h ++ [List.replicate n.toNat 0])

/-- The bytes `bs` written over array `a` from position `pos` on. -/
def Heap.write (h : Heap) (a pos : Nat) (bs : Bytes) : Heap :=
  h.set a ((h.array a).take pos ++ bs ++ (h.array a).drop (pos + bs.length))

/-- The Go `copy(dst, src)`: the first `min (len dst) (len src)` bytes of `src`
written over the start of `dst`. -/
def Heap.copy (h : Heap) (dst src : Slice) : Heap :=
  h.write dst.array dst.off ((h.read src).take dst.len)

/-- The Go assignment `s[i] = v`, with its bounds check. -/
def Heap.setIndex (h : Heap) (s : Slice) (i : Int) (v : Byte) : Except Fault Heap :=
  if 0 ≤ i ∧ i < s.len then
    .ok (h.set s.array ((h.array s.array).set (s.off + i.toNat) v))
  else .error (.panic .indexOutOfRange)

/-- The loop of `Pad` on the heap, over the values `is` that `i` takes. -/
def padLoopHeap (result : Slice) (lenBuf paddingSize : Int) :
    List Nat → Heap → Except Fault Heap
  | [], h => .ok h
  | i :: is, h =>
    match h.setIndex result (lenBuf + i) (toByte paddingSize) with
    | .ok h1 => padLoopHeap result lenBuf paddingSize is h1
    | .error f => .error f

/-- The method `Pkcs7Padding.Pad` on the heap: the returned slice and the heap
after the call. -/
def Pkcs7Padding.PadHeap (p : Pkcs7Padding) (h : Heap) (buf : Slice) :
    Except Fault (Slice × Heap) :=
  match goMod buf.len p.blockSize with
  | .error f => .error f
  | .ok r =>
    let paddingSize : Int := p.blockSize - r
    match h.make (buf.len + paddingSize) with
    | .error f => .error f
    | .ok (result, h1) =>
      match padLoopHeap result buf.len paddingSize (List.range paddingSize.toNat)
          (h1.copy result buf) with
      | .error f => .error f
      | .ok h2 => .ok (result, h2)

/-! ### Toy block primitives, for evaluation

`toyEncrypt k` frames a message of at most `k - 1` bytes (and at most 255) in
a block of exactly `k` bytes: its length, the message, zero filler;
`toyDecrypt` reads the frame back.  Neither uses the random source. -/

/-- A stand-in for `rsa.EncryptPKCS1v15` with blocks of `k` bytes. -/
def toyEncrypt (k : Nat) : BlockPrimitive PublicKey Unit :=
  fun rand _ msg =>
    if msg.length + 1 ≤ k ∧ msg.length < 256 then
      (.ok (Fin.ofNat msg.length :: msg ++ List.replicate (k - 1 - msg.length) 0), rand)
    else (.error (.library 1), rand)

/-- A stand-in for `rsa.DecryptPKCS1v15`, inverse of `toyEncrypt`. -/
def toyDecrypt : BlockPrimitive PrivateKey Unit :=
  fun rand _ block =>
    match block with
    | [] => (.error (.library 2), rand)
    | n :: rest => if n.val ≤ rest.length then (.ok (rest.take n.val), rand)
      else (.error (.library 2), rand)

/-- A 96-bit modulus: 12 bytes, so segments of one byte. -/
def toyKey96 : PublicKey := { N := 2 ^ 95, E := 65537 }

/-- An 88-bit modulus: 11 bytes, too small for the 11 bytes of overhead. -/
def toyKey88 : PublicKey := { N := 2 ^ 87, E := 65537 }

/-- A private key whose modulus is zero: 0 bytes. -/
def toyKey0 : PrivateKey := { PublicKey := { N := 0, E := 3 }, D := 0, Primes := [] }

/-- A private key with a 1024-bit modulus, as in `rsa_test.go`: 128 bytes, so
segments of 117 bytes. -/
def toyKey1024 : PrivateKey := { PublicKey := { N := 2 ^ 1023, E := 65537 }, D := 0, Primes := [] }

/-- A block operation that fails, with a library error, on every chunk that
holds the byte `bad`, and returns the other chunks as they are. -/
def toyFailOn {κ : Type} (bad : Byte) : BlockPrimitive κ Unit :=
  fun rand _ chunk =>
    if bad ∈ chunk then (.error (.library 3), rand) else (.ok chunk, rand)

/-- A private key with an 8-bit modulus: 1 byte, so decryption segments of one
byte. -/
def toyKey8 : PrivateKey := { PublicKey := { N := 2 ^ 7, E := 3 }, D := 0, Primes := [] }

/-- A private key with a 16-bit modulus: 2 bytes, so decryption segments of two
bytes. -/
def toyKey16 : PrivateKey := { PublicKey := { N := 2 ^ 15, E := 3 }, D := 0, Primes := [] }

/-- A stand-in for `rand.Prime`: the state is the list of the numbers still to
hand out, whatever the size asked for. -/
def toyPrimes : PrimeSource (List Nat) :=
  fun rand _ =>
    match rand with
    | [] => (.error (.library 4), [])
    | prime :: rest => (.ok prime, rest)

/-- The extended Euclidean algorithm on `(r0, r1)`, with cofactors. -/
def euclidAux : Nat → Int → Int → Int → Int → Int → Int → Int × Int × Int
  | 0, r0, _, s0, _, t0, _ => (r0, s0, t0)
  | fuel + 1, r0, r1, s0, s1, t0, t1 =>
    if r1 = 0 then (r0, s0, t0)
    else euclidAux fuel r1 (r0 - r0 / r1 * r1) s1 (s0 - r0 / r1 * s1) t1 (t0 - r0 / r1 * t1)

/-- A stand-in for `big.Int.GCD` on positive operands. -/
def euclidGCD : GCDFunction :=
  fun a b => euclidAux (a.natAbs + b.natAbs) a b 1 0 0 1

/-- A stand-in for the cipher library: `NewCipher` accepts keys of 16, 24 or 32
bytes; the CBC encrypter adds 1 to every byte and the decrypter subtracts 1;
the streams add 1 to every byte; none keeps a state. -/
def toyCipherLibrary : CipherLibrary Unit Unit Unit where
  NewCipher := fun key =>
    if key.length = 16 ∨ key.length = 24 ∨ key.length = 32 then .ok () else .error (.library 5)
  NewCBCEncrypter := fun _ _ =>
    { blockSize := 16, state := (), crypt := fun st src => (src.map (fun x => x + 1), st) }
  NewCBCDecrypter := fun _ _ =>
    { blockSize := 16, state := (), crypt := fun st src => (src.map (fun x => x - 1), st) }
  NewCFBEncrypter := fun _ _ =>
    { state := (), xor := fun st src => (src.map (fun x => x + 1), st) }
  NewCFBDecrypter := fun _ _ =>
    { state := (), xor := fun st src => (src.map (fun x => x - 1), st) }
  NewOFB := fun _ _ =>
    { state := (), xor := fun st src => (src.map (fun x => x + 1), st) }
  NewCTR := fun _ _ =>
    { state := (), xor := fun st src => (src.map (fun x => x + 1), st) }

/-- The plaintext of `aes_test.go`: "I love this girl! Does she?", 27 bytes. -/
def toyPlaintext : Bytes :=
  [73, 32, 108, 111, 118, 101, 32, 116, 104, 105, 115, 32, 103, 105, 114, 108, 33, 32,
   68, 111, 101, 115, 32, 115, 104, 101, 63]

/-- A stand-in for `rand.Prime` that hands out odd primes only, as the library
does: 251 and 241 in turn; the state counts the calls. -/
def toyOddPrimes : PrimeSource Nat :=
  fun rand _ => (.ok (if rand % 2 = 0 then 251 else 241), rand + 1)

/-! ### Evaluation on the vectors of `padding_test.go` and of the spec -/

example : (NewPkcs7Padding 5).Pad [1, 2, 3] = .ok [1, 2, 3, 2, 2] := by decide
example : (NewPkcs7Padding 5).Unpad [1, 2, 3, 2, 2] = .ok [1, 2, 3] := by decide
example : (NewPkcs7Padding 5).Unpad [] = .error (.err .errPaddingIsWrong) := by decide
example : (NewPkcs7Padding 5).Unpad [6] = .error (.err .errPaddingIsWrong) := by decide
example : (NewPkcs7Padding 5).Unpad [1, 2, 3, 2, 3] = .error (.err .errPaddingIsWrong) := by
  decide
example : (NewPkcs7Padding 5).Pad [1, 2, 3, 4, 5] = .ok [1, 2, 3, 4, 5, 5, 5, 5, 5, 5] := by
  decide

set_option maxRecDepth 20000

example : (NewPkcs7Padding 5).PadHeap [[1, 2, 3, 0, 0, 0]] ⟨0, 0, 3, 6⟩
    = .ok (⟨1, 0, 5, 5⟩, [[1, 2, 3, 0, 0, 0], [1, 2, 3, 2, 2]]) := by decide

example : BitLen 0 = 0 ∧ BitLen 255 = 8 ∧ BitLen 256 = 9 ∧ BitLen (2 ^ 95) = 96 := by decide
example : segments 2 [1, 2, 3, 4, 5] = [[1, 2], [3, 4], [5]] := by decide
example : segments 2 [1, 2, 3, 4] = [[1, 2], [3, 4]] := by decide
example : segments 2 [] = [] := by decide
example : (publicEncryptPkcs1v15 (traced (toyEncrypt 12)) toyKey96 [7, 8] ((), [])).2.2
    = [[7], [8]] := by decide
example : (publicEncryptPkcs1v15 (toyEncrypt 12) toyKey96 [7, 8] ()).1
    = some (.ok [1, 7, 0, 0, 0, 0, 0, 0, 0, 0, 0, 0, 1, 8, 0, 0, 0, 0, 0, 0, 0, 0, 0, 0]) := by
  decide
example : (privateDecryptPkcs1v15 toyDecrypt ⟨toyKey96, 0, []⟩
    [1, 7, 0, 0, 0, 0, 0, 0, 0, 0, 0, 0, 1, 8, 0, 0, 0, 0, 0, 0, 0, 0, 0, 0] ()).1
    = some (.ok [7, 8]) := by
  decide

/-! ## Lemmas on the slice primitives -/

theorem getIndex_ofNat (s : Bytes) (i : Int) (n : Nat) (b : Byte)
    (hi : i = (n : Int)) (hb : s[n]? = some b) : getIndex s i = .ok b := by
  subst hi
  have h0 : ¬ ((n : Int) < 0) := by omega
  simp [getIndex, h0, hb]

theorem slice_take (s : Bytes) (hi : Int) (n : Nat) (h : hi = (n : Int))
    (hn : n ≤ s.length) : slice s 0 hi = .ok (s.take n) := by
  subst h
  have h1 : (0 : Int) ≤ 0 ∧ (0 : Int) ≤ (n : Int) ∧ (n : Int) ≤ (s.length : Int) := by
    omega
  simp [slice, h1]

theorem copyBytes_make (buf : Bytes) (k : Nat) :
    copyBytes (List.replicate (buf.length + k) 0) buf = buf ++ List.replicate k 0 := by
  simp [copyBytes]

/-! ## Lemmas on `Pad` -/

theorem padLoop_range (lenBuf : Nat) (paddingSize : Int) :
    ∀ (n s : Nat) (filled rest : Bytes), filled.length = lenBuf + s → rest.length = n →
      padLoop lenBuf paddingSize (List.range' s n) (filled ++ rest)
        = .ok (filled ++ List.replicate n (toByte paddingSize)) := by
  intro n
  induction n with
  | zero =>
    intro s filled rest _ hr
    have : rest = [] := List.length_eq_zero.mp hr
    simp [padLoop, this]
  | succ n ih =>
    intro s filled rest hf hr
    obtain ⟨r, rest1, rfl⟩ : ∃ r rest1, rest = r :: rest1 := by
      cases rest with
      | nil => simp at hr
      | cons r rest1 => exact ⟨r, rest1, rfl⟩
    have hlen : rest1.length = n := by simpa using hr
    have hidx : (0 : Int) ≤ (lenBuf : Int) + (s : Int) ∧
        (lenBuf : Int) + (s : Int) < ((filled ++ r :: rest1).length : Int) := by
      simp only [List.length_append, List.length_cons]
      omega
    have htoNat : ((lenBuf : Int) + (s : Int)).toNat = filled.length := by omega
    have hset : setIndex (filled ++ r :: rest1) ((lenBuf : Int) + (s : Int))
        (toByte paddingSize) = .ok ((filled ++ [toByte paddingSize]) ++ rest1) := by
      unfold setIndex
      rw [if_pos hidx, htoNat]
      simp
    have hstep := ih (s + 1) (filled ++ [toByte paddingSize]) rest1
      (by simp [hf]; omega) hlen
    rw [List.range'_succ]
    simp only [padLoop, hset, hstep]
    simp [List.replicate_succ]

/-- The padding size computed by `Pad` for a positive block size. -/
theorem paddingSize_bounds (b : Int) (n : Nat) (hb : 1 ≤ b) :
    Int.tmod n b = (n : Int) % b ∧ 1 ≤ b - (n : Int) % b ∧ b - (n : Int) % b ≤ b := by
  have h0 : (0 : Int) ≤ (n : Int) := by omega
  have h1 : Int.tmod n b = (n : Int) % b := Int.tmod_eq_emod h0 (by omega)
  have h2 : 0 ≤ (n : Int) % b := Int.emod_nonneg _ (by omega)
  have h3 : (n : Int) % b < b := Int.emod_lt_of_pos _ (by omega)
  exact ⟨h1, by omega, by omega⟩

/-- For a positive block size `Pad` returns the input followed by
`paddingSize` bytes `byte(paddingSize)`. -/
theorem Pad_eq (b : Int) (x : Bytes) (hb : 1 ≤ b) :
    (NewPkcs7Padding b).Pad x
      = .ok (x ++ List.replicate (b - (x.length : Int) % b).toNat
          (toByte (b - (x.length : Int) % b))) := by
  obtain ⟨h1, h2, h3⟩ := paddingSize_bounds b x.length hb
  have hb0 : b ≠ 0 := by omega
  have hneg : ¬ ((x.length : Int) + (b - (x.length : Int) % b) < 0) := by omega
  have htoNat : ((x.length : Int) + (b - (x.length : Int) % b)).toNat
      = x.length + (b - (x.length : Int) % b).toNat := by omega
  have hloop := padLoop_range x.length (b - (x.length : Int) % b)
    (b - (x.length : Int) % b).toNat 0 x
    (List.replicate (b - (x.length : Int) % b).toNat 0) (by simp) (by simp)
  simp only [Pkcs7Padding.Pad, NewPkcs7Padding, goMod, hb0, if_false, h1, makeBytes, hneg,
    htoNat, copyBytes_make, List.range_eq_range', hloop]

/-! ## Lemmas on `Unpad` -/

theorem unpadLoop_spec (buf : Bytes) (value : Byte) :
    ∀ is : List Nat, (∀ i ∈ is, 1 ≤ i ∧ i ≤ buf.length) →
      (unpadLoop buf buf.length value is = .ok () ∧
          ∀ i ∈ is, buf[buf.length - i]? = some value) ∨
      (unpadLoop buf buf.length value is = .error (.err .errPaddingIsWrong) ∧
          ∃ i ∈ is, ∃ b, buf[buf.length - i]? = some b ∧ b ≠ value) := by
  intro is
  induction is with
  | nil => intro _; left; simp [unpadLoop]
  | cons i is ih =>
    intro hall
    have hi := hall i (List.mem_cons_self i is)
    have hlt : buf.length - i < buf.length := by omega
    have hget : buf[buf.length - i]? = some (buf[buf.length - i]) :=
      List.getElem?_eq_getElem hlt
    have hidx : getIndex buf ((buf.length : Int) - (i : Int)) = .ok (buf[buf.length - i]) :=
      getIndex_ofNat buf _ (buf.length - i) _ (by omega) hget
    by_cases hb : buf[buf.length - i] = value
    · rcases ih (fun j hj => hall j (List.mem_cons_of_mem i hj)) with ⟨h1, h2⟩ | ⟨h1, h2⟩
      · left
        refine ⟨by simp [unpadLoop, hidx, hb, h1], ?_⟩
        intro j hj
        rcases List.mem_cons.mp hj with rfl | hj
        · rw [hget, hb]
        · exact h2 j hj
      · right
        refine ⟨by simp [unpadLoop, hidx, hb, h1], ?_⟩
        obtain ⟨j, hj, b, hjb, hne⟩ := h2
        exact ⟨j, List.mem_cons_of_mem i hj, b, hjb, hne⟩
    · right
      refine ⟨by simp [unpadLoop, hidx, hb], i, List.mem_cons_self i is, _, hget, hb⟩

theorem paddingSizeOfUnpad_nil (p : Pkcs7Padding) :
    p.paddingSizeOfUnpad [] = .error (.err .errPaddingIsWrong) := by
  simp [Pkcs7Padding.paddingSizeOfUnpad]

theorem paddingSizeOfUnpad_last (p : Pkcs7Padding) (buf : Bytes) (v : Byte)
    (hv : buf.getLast? = some v) :
    p.paddingSizeOfUnpad buf
      = if EndsInPadding buf v then .ok (v.val : Int) else .error (.err .errPaddingIsWrong) := by
  have hne : buf ≠ [] := by
    rintro rfl
    simp at hv
  have hpos : 0 < buf.length := List.length_pos.mpr hne
  have hlast : buf[buf.length - 1]? = some v := by
    rw [← List.getLast?_eq_getElem?]; exact hv
  have hidx : getIndex buf ((buf.length : Int) - 1) = .ok v :=
    getIndex_ofNat buf _ (buf.length - 1) v (by omega) hlast
  have hlen : ¬ ((buf.length : Int) ≤ 0) := by omega
  by_cases hgt : (v.val : Int) > (buf.length : Int)
  · have hnot : ¬ EndsInPadding buf v := fun h => by
      have := h.1
      omega
    simp [Pkcs7Padding.paddingSizeOfUnpad, hlen, hidx, hgt, hnot]
  · have hle : v.val ≤ buf.length := by omega
    have hrange : ∀ i ∈ List.range' 2 (((v.val : Nat) : Int).toNat - 1),
        1 ≤ i ∧ i ≤ buf.length := by
      intro i hi
      rw [List.mem_range'_1] at hi
      omega
    rcases unpadLoop_spec buf v _ hrange with ⟨h1, h2⟩ | ⟨h1, h2⟩
    · have hyes : EndsInPadding buf v := by
        refine ⟨hle, ?_⟩
        intro b hb
        obtain ⟨j, hj⟩ := List.mem_iff_getElem?.mp hb
        rw [List.getElem?_drop] at hj
        have hjlt : buf.length - v.val + j < buf.length := by
          by_contra hcon
          rw [List.getElem?_eq_none (by omega)] at hj
          exact Option.noConfusion hj
        by_cases hone : buf.length - v.val + j = buf.length - 1
        · rw [hone, hlast] at hj
          exact (Option.some.inj hj).symm
        · have hmem : buf.length - (buf.length - v.val + j)
              ∈ List.range' 2 (((v.val : Nat) : Int).toNat - 1) := by
            rw [List.mem_range'_1]
            omega
          have := h2 _ hmem
          have hidx2 : buf.length - (buf.length - (buf.length - v.val + j))
              = buf.length - v.val + j := by omega
          rw [hidx2, hj] at this
          exact Option.some.inj this
      rw [Int.toNat_ofNat] at h1
      simp [Pkcs7Padding.paddingSizeOfUnpad, hlen, hidx, hgt, h1, hyes]
    · have hnot : ¬ EndsInPadding buf v := by
        rintro ⟨_, hall⟩
        obtain ⟨i, hi, b, hib, hbne⟩ := h2
        rw [List.mem_range'_1] at hi
        apply hbne
        apply hall
        apply List.mem_iff_getElem?.mpr
        refine ⟨v.val - i, ?_⟩
        rw [List.getElem?_drop]
        have : buf.length - v.val + (v.val - i) = buf.length - i := by omega
        rw [this]
        exact hib
      rw [Int.toNat_ofNat] at h1
      simp [Pkcs7Padding.paddingSizeOfUnpad, hlen, hidx, hgt, h1, hnot]

/-- The result of `Unpad` on a buffer whose last byte is `v`. -/
theorem Unpad_last (p : Pkcs7Padding) (buf : Bytes) (v : Byte)
    (hv : buf.getLast? = some v) :
    p.Unpad buf
      = if EndsInPadding buf v then .ok (buf.take (buf.length - v.val))
        else .error (.err .errPaddingIsWrong) := by
  unfold Pkcs7Padding.Unpad
  rw [paddingSizeOfUnpad_last p buf v hv]
  by_cases h : EndsInPadding buf v
  · have hle := h.1
    simp only [h, if_true]
    exact slice_take buf _ (buf.length - v.val) (by omega) (by omega)
  · simp [h]

theorem Unpad_nil (p : Pkcs7Padding) :
    p.Unpad [] = .error (.err .errPaddingIsWrong) := by
  simp [Pkcs7Padding.Unpad, paddingSizeOfUnpad_nil]

theorem toByte_val (n : Int) : ((toByte n).val : Int) = n % 256 := by
  have h : (toByte n).val = (n % 256).toNat % 256 := rfl
  rw [h]
  omega

/-- The round trip through `Pad` and `Unpad`, in terms of the padding size. -/
theorem Unpad_Pad (b : Int) (x : Bytes) (hb : 1 ≤ b) :
    ∃ y, (NewPkcs7Padding b).Pad x = .ok y ∧
      (NewPkcs7Padding b).Unpad y
        = .ok (y.take (y.length - (toByte (b - (x.length : Int) % b)).val)) ∧
      y.length = x.length + (b - (x.length : Int) % b).toNat := by
  obtain ⟨_, h2, h3⟩ := paddingSize_bounds b x.length hb
  refine ⟨_, Pad_eq b x hb, ?_, by simp⟩
  generalize hk : b - (x.length : Int) % b = k at *
  have hval := toByte_val k
  obtain ⟨n, rfl⟩ : ∃ n : Nat, k = (n : Int) := ⟨k.toNat, by omega⟩
  have hn : 1 ≤ n := by omega
  have hlast : (x ++ List.replicate ((n : Int)).toNat (toByte (n : Int))).getLast?
      = some (toByte (n : Int)) := by
    rw [Int.toNat_ofNat]
    obtain ⟨m, rfl⟩ : ∃ m, n = m + 1 := ⟨n - 1, by omega⟩
    rw [List.replicate_succ', ← List.append_assoc, List.getLast?_concat]
  rw [Unpad_last _ _ _ hlast]
  have hends : EndsInPadding (x ++ List.replicate ((n : Int)).toNat (toByte (n : Int)))
      (toByte (n : Int)) := by
    rw [Int.toNat_ofNat]
    have hle : (toByte (n : Int)).val ≤ n := by omega
    refine ⟨by simp; omega, ?_⟩
    intro c hc
    have hsplit : (x ++ List.replicate n (toByte (n : Int))).length - (toByte (n : Int)).val
        = x.length + (n - (toByte (n : Int)).val) := by simp; omega
    rw [hsplit, List.drop_append, List.drop_replicate] at hc
    exact List.eq_of_mem_replicate hc
  rw [if_pos hends]

/-- A non-empty buffer of zero bytes is returned whole by `Unpad`. -/
theorem Unpad_replicate_zero (p : Pkcs7Padding) (n : Nat) :
    p.Unpad (List.replicate (n + 1) 0) = .ok (List.replicate (n + 1) 0) := by
  have hlast : (List.replicate (n + 1) (0 : Byte)).getLast? = some 0 := by
    rw [List.replicate_succ', List.getLast?_concat]
  rw [Unpad_last _ _ 0 hlast, if_pos ⟨Nat.zero_le _, fun c hc =>
    List.eq_of_mem_replicate (List.mem_of_mem_drop hc)⟩]
  show Except.ok (List.take ((List.replicate (n + 1) (0 : Byte)).length - 0) _) = _
  rw [Nat.sub_zero, List.take_length]

/-! ## Claims on the padding engine -/

/-- C1, as stated, fails: with block size 256 the empty input is padded with
256 bytes `byte(256) = 0`, and `Unpad` of that buffer reads a padding size of
0 and returns all 256 bytes, not the empty input. -/
theorem C1_counterexample_blockSize_256 :
    (1 : Int) ≤ 256 ∧
    (NewPkcs7Padding 256).Pad [] = .ok (List.replicate 256 0) ∧
    (NewPkcs7Padding 256).Unpad (List.replicate 256 0) = .ok (List.replicate 256 0) ∧
    ¬ ∃ y, (NewPkcs7Padding 256).Pad [] = .ok y ∧ (NewPkcs7Padding 256).Unpad y = .ok [] := by
  have hpad : (NewPkcs7Padding 256).Pad [] = .ok (List.replicate 256 0) := by
    rw [Pad_eq 256 [] (by decide)]
    rfl
  have hunpad : (NewPkcs7Padding 256).Unpad (List.replicate 256 0)
      = .ok (List.replicate 256 0) := by
    exact Unpad_replicate_zero _ 255
  refine ⟨by decide, hpad, hunpad, ?_⟩
  rintro ⟨y, hy, hu⟩
  rw [hpad] at hy
  cases hy
  rw [hunpad] at hu
  cases hu

/-- C1, amended: for every input `x` and block size `b ≥ 1`, `Pad` succeeds,
and `Unpad (Pad x)` succeeds and returns `x` exactly when the padding size
`b - len x mod b` is at most 255; this is so for every `b` from 1 to 255. -/
theorem C1_unpad_pad_roundtrip (b : Int) (x : Bytes) (hb : 1 ≤ b) :
    ((∃ y, (NewPkcs7Padding b).Pad x = .ok y ∧ (NewPkcs7Padding b).Unpad y = .ok x)
        ↔ b - (x.length : Int) % b ≤ 255) ∧
    (b ≤ 255 →
      ∃ y, (NewPkcs7Padding b).Pad x = .ok y ∧ (NewPkcs7Padding b).Unpad y = .ok x) := by
  obtain ⟨_, h2, h3⟩ := paddingSize_bounds b x.length hb
  obtain ⟨y, hpad, hunpad, hlen⟩ := Unpad_Pad b x hb
  have hval := toByte_val (b - (x.length : Int) % b)
  have hy : y = x ++ List.replicate (b - (x.length : Int) % b).toNat
      (toByte (b - (x.length : Int) % b)) := by
    have := Pad_eq b x hb
    rw [hpad] at this
    exact Except.ok.inj this
  have hiff : (∃ y, (NewPkcs7Padding b).Pad x = .ok y ∧ (NewPkcs7Padding b).Unpad y = .ok x)
      ↔ b - (x.length : Int) % b ≤ 255 := by
    constructor
    · rintro ⟨z, hz, hu⟩
      rw [hpad] at hz
      cases hz
      rw [hunpad] at hu
      have hx := congrArg List.length (Except.ok.inj hu)
      rw [List.length_take] at hx
      omega
    · intro hle
      refine ⟨y, hpad, ?_⟩
      rw [hunpad]
      have hcut : y.length - (toByte (b - (x.length : Int) % b)).val = x.length := by omega
      rw [hcut, hy, List.take_left']
      rfl
  exact ⟨hiff, fun hb255 => hiff.mpr (by omega)⟩

theorem C1_unpad_pad_roundtrip_witness :
    (1 : Int) ≤ 5 ∧
    (NewPkcs7Padding 5).Pad [1, 2, 3] = .ok [1, 2, 3, 2, 2] ∧
    (NewPkcs7Padding 5).Unpad [1, 2, 3, 2, 2] = .ok [1, 2, 3] ∧
    ∃ y, (NewPkcs7Padding 5).Pad [1, 2, 3] = .ok y ∧
      (NewPkcs7Padding 5).Unpad y = .ok [1, 2, 3] :=
  ⟨by decide, by decide, by decide,
    (C1_unpad_pad_roundtrip 5 [1, 2, 3] (by decide)).2 (by decide)⟩

/-- C2, as stated, fails: with block size 256 the empty input is followed by
`k = 256` padding bytes, and no byte has the value 256 (they are all 0). -/
theorem C2_counterexample_blockSize_256 :
    (1 : Int) ≤ 256 ∧
    (256 : Int) - (([] : Bytes).length : Int) % 256 = 256 ∧
    ¬ ∃ tail : Bytes, (NewPkcs7Padding 256).Pad [] = .ok ([] ++ tail) ∧
        (tail.length : Int) = 256 - (([] : Bytes).length : Int) % 256 ∧
        ∀ t ∈ tail, (t.val : Int) = 256 - (([] : Bytes).length : Int) % 256 := by
  refine ⟨by decide, by decide, ?_⟩
  rintro ⟨tail, _, hlen, hall⟩
  cases tail with
  | nil => simp at hlen
  | cons t tail =>
    have h1 := hall t (List.mem_cons_self t tail)
    have h2 := t.isLt
    simp at h1
    omega

/-- C2, amended: for every input `x` and block size `b ≥ 1`, with
`k = b - len x mod b`, `1 ≤ k ≤ b` and `Pad x` is `x` followed by `k` bytes
whose value is `k mod 256`, which is `k` whenever `b ≤ 255`. -/
theorem C2_pad_appends_padding (b : Int) (x : Bytes) (hb : 1 ≤ b) :
    1 ≤ b - (x.length : Int) % b ∧ b - (x.length : Int) % b ≤ b ∧
    ∃ t : Byte,
      (NewPkcs7Padding b).Pad x
        = .ok (x ++ List.replicate (b - (x.length : Int) % b).toNat t) ∧
      (t.val : Int) = (b - (x.length : Int) % b) % 256 ∧
      (b ≤ 255 → (t.val : Int) = b - (x.length : Int) % b) := by
  obtain ⟨_, h2, h3⟩ := paddingSize_bounds b x.length hb
  have hval := toByte_val (b - (x.length : Int) % b)
  exact ⟨h2, h3, _, Pad_eq b x hb, hval, fun h => by omega⟩

theorem C2_pad_appends_padding_witness :
    (1 : Int) ≤ 5 ∧
    ∃ t : Byte,
      (NewPkcs7Padding 5).Pad [1, 2, 3]
        = .ok ([1, 2, 3] ++ List.replicate
            ((5 : Int) - (([1, 2, 3] : Bytes).length : Int) % 5).toNat t) ∧
      (t.val : Int) = ((5 : Int) - (([1, 2, 3] : Bytes).length : Int) % 5) % 256 ∧
      ((5 : Int) ≤ 255 → (t.val : Int) = 5 - (([1, 2, 3] : Bytes).length : Int) % 5) :=
  ⟨by decide, (C2_pad_appends_padding 5 [1, 2, 3] (by decide)).2.2⟩

/-- C3: for every input `x` and block size `b ≥ 1`, `Pad x` has length
`len x + (b - len x mod b)`, a positive multiple of `b` strictly greater than
`len x`; when `len x` is a multiple of `b` it is exactly `len x + b`. -/
theorem C3_pad_length (b : Int) (x : Bytes) (hb : 1 ≤ b) :
    ∃ y, (NewPkcs7Padding b).Pad x = .ok y ∧
      (y.length : Int) = x.length + (b - (x.length : Int) % b) ∧
      (∃ m : Int, 1 ≤ m ∧ (y.length : Int) = m * b) ∧
      x.length < y.length ∧
      ((x.length : Int) % b = 0 → (y.length : Int) = x.length + b) ∧
      y.length ≠ x.length := by
  obtain ⟨_, h2, h3⟩ := paddingSize_bounds b x.length hb
  refine ⟨_, Pad_eq b x hb, ?_⟩
  have hlen : ((x ++ List.replicate (b - (x.length : Int) % b).toNat
      (toByte (b - (x.length : Int) % b))).length : Int)
      = x.length + (b - (x.length : Int) % b) := by
    simp only [List.length_append, List.length_replicate]
    omega
  have hdiv := Int.emod_add_ediv (x.length : Int) b
  have hq : 0 ≤ (x.length : Int) / b := Int.ediv_nonneg (by omega) (by omega)
  refine ⟨hlen, ⟨(x.length : Int) / b + 1, by omega, ?_⟩, ?_, ?_, ?_⟩
  · rw [hlen, add_mul, one_mul, mul_comm]
    omega
  · omega
  · intro h0
    rw [hlen, h0]
    omega
  · omega

theorem C3_pad_length_witness :
    (1 : Int) ≤ 5 ∧
    (NewPkcs7Padding 5).Pad [1, 2, 3, 4, 5] = .ok [1, 2, 3, 4, 5, 5, 5, 5, 5, 5] ∧
    ∃ y, (NewPkcs7Padding 5).Pad [1, 2, 3, 4, 5] = .ok y ∧
      (y.length : Int)
        = ([1, 2, 3, 4, 5] : Bytes).length
          + ((5 : Int) - (([1, 2, 3, 4, 5] : Bytes).length : Int) % 5) ∧
      (∃ m : Int, 1 ≤ m ∧ (y.length : Int) = m * 5) ∧
      ([1, 2, 3, 4, 5] : Bytes).length < y.length ∧
      ((([1, 2, 3, 4, 5] : Bytes).length : Int) % 5 = 0 →
        (y.length : Int) = ([1, 2, 3, 4, 5] : Bytes).length + 5) ∧
      y.length ≠ ([1, 2, 3, 4, 5] : Bytes).length :=
  ⟨by decide, by decide, C3_pad_length 5 [1, 2, 3, 4, 5] (by decide)⟩

/-- C4: `Unpad buf` fails with the padding error exactly when `buf` is empty,
or its last byte `v` exceeds `len buf`, or one of the last `v` bytes differs
from `v`; it ends in no other error and in no panic. -/
theorem C4_unpad_failure (p : Pkcs7Padding) (buf : Bytes) :
    (p.Unpad buf = .error (.err .errPaddingIsWrong) ↔
      buf = [] ∨ ∃ v : Byte, buf.getLast? = some v ∧
        (buf.length < v.val ∨ ∃ c ∈ buf.drop (buf.length - v.val), c ≠ v)) ∧
    (∀ f, p.Unpad buf = .error f → f = .err .errPaddingIsWrong) := by
  cases hlast : buf.getLast? with
  | none =>
    have hnil : buf = [] := List.getLast?_eq_none_iff.mp hlast
    subst hnil
    simp [Unpad_nil]
  | some v =>
    have hne : buf ≠ [] := by
      rintro rfl
      simp at hlast
    rw [Unpad_last p buf v hlast]
    by_cases h : EndsInPadding buf v
    · rw [if_pos h]
      refine ⟨⟨fun hc => (by cases hc), ?_⟩, fun f hf => (by cases hf)⟩
      rintro (h0 | ⟨w, hw, hbad⟩)
      · exact absurd h0 hne
      · cases hw
        rcases hbad with hlt | ⟨c, hc, hcne⟩
        · have := h.1
          omega
        · exact absurd (h.2 c hc) hcne
    · rw [if_neg h]
      refine ⟨⟨fun _ => Or.inr ⟨v, rfl, ?_⟩, fun _ => rfl⟩, fun f hf => ?_⟩
      · by_cases hlt : buf.length < v.val
        · exact Or.inl hlt
        · right
          by_contra hall
          apply h
          refine ⟨by omega, fun c hc => ?_⟩
          by_contra hcne
          exact hall ⟨c, hc, hcne⟩
      · exact (Except.error.inj hf).symm

/-- The rejections the spec lists for `Unpad`, evaluated. -/
theorem Unpad_rejects_spec_vectors :
    (NewPkcs7Padding 5).Unpad [] = .error (.err .errPaddingIsWrong) ∧
    (NewPkcs7Padding 5).Unpad [6] = .error (.err .errPaddingIsWrong) ∧
    (NewPkcs7Padding 5).Unpad [1, 2, 3, 2, 3] = .error (.err .errPaddingIsWrong) := by
  decide

/-- C5: when `Unpad buf` succeeds, with `v` the last byte of `buf`, the result
is the first `len buf - v` bytes of `buf`: `buf` is the result followed by its
own last `v` bytes. -/
theorem C5_unpad_result (p : Pkcs7Padding) (buf r : Bytes) (h : p.Unpad buf = .ok r) :
    ∃ v : Byte, buf.getLast? = some v ∧ v.val ≤ buf.length ∧
      r = buf.take (buf.length - v.val) ∧
      r.length = buf.length - v.val ∧
      buf = r ++ buf.drop (buf.length - v.val) := by
  cases hlast : buf.getLast? with
  | none =>
    have hnil : buf = [] := List.getLast?_eq_none_iff.mp hlast
    subst hnil
    rw [Unpad_nil] at h
    cases h
  | some v =>
    rw [Unpad_last p buf v hlast] at h
    by_cases he : EndsInPadding buf v
    · rw [if_pos he] at h
      have hr : r = buf.take (buf.length - v.val) := (Except.ok.inj h).symm
      refine ⟨v, rfl, he.1, hr, ?_, ?_⟩
      · rw [hr, List.length_take]
        omega
      · rw [hr, List.take_append_drop]
    · rw [if_neg he] at h
      cases h

theorem C5_unpad_result_witness :
    (NewPkcs7Padding 5).Unpad [1, 2, 3, 2, 2] = .ok [1, 2, 3] ∧
    ∃ v : Byte, ([1, 2, 3, 2, 2] : Bytes).getLast? = some v ∧
      v.val ≤ ([1, 2, 3, 2, 2] : Bytes).length ∧
      ([1, 2, 3] : Bytes)
        = ([1, 2, 3, 2, 2] : Bytes).take (([1, 2, 3, 2, 2] : Bytes).length - v.val) ∧
      ([1, 2, 3] : Bytes).length = ([1, 2, 3, 2, 2] : Bytes).length - v.val ∧
      ([1, 2, 3, 2, 2] : Bytes)
        = [1, 2, 3] ++ ([1, 2, 3, 2, 2] : Bytes).drop (([1, 2, 3, 2, 2] : Bytes).length - v.val) :=
  ⟨by decide, C5_unpad_result (NewPkcs7Padding 5) [1, 2, 3, 2, 2] [1, 2, 3] (by decide)⟩

/-! ## The bit length -/

theorem bitLenAux_eq_size : ∀ (fuel n : Nat), n ≤ fuel → bitLenAux fuel n = Nat.size n := by
  intro fuel
  induction fuel with
  | zero =>
    intro n hn
    have : n = 0 := by omega
    subst this
    simp [bitLenAux]
  | succ fuel ih =>
    intro n hn
    by_cases h0 : n = 0
    · subst h0
      simp [bitLenAux]
    · have hsize : Nat.size n = Nat.size (n / 2) + 1 := by
        have hbit : Nat.bit (Nat.bodd n) (Nat.div2 n) ≠ 0 := by
          rw [Nat.bit_decomp]; exact h0
        have := Nat.size_bit hbit
        rw [Nat.bit_decomp, Nat.div2_val] at this
        exact this
      simp only [bitLenAux, if_neg h0]
      rw [ih (n / 2) (by omega), hsize]

/-- The embedded `BitLen` is the binary size of the number. -/
theorem BitLen_eq_size (n : Nat) : BitLen n = Nat.size n :=
  bitLenAux_eq_size n n (le_refl n)

/-! ## Lemmas on the segmentation -/

theorem segments_count_step (len n : Nat) (hn : 1 ≤ n) (hlen : 1 ≤ len) :
    (len + n - 1) / n = (len - n + n - 1) / n + 1 := by
  by_cases h : n ≤ len
  · have h1 : len + n - 1 = (len - n + n - 1) + n := by omega
    rw [h1, Nat.add_div_right _ (by omega)]
  · have h1 : len - n + n - 1 = n - 1 := by omega
    have h2 : len + n - 1 = (len - 1) + n := by omega
    have h3 : (n - 1) / n = 0 := Nat.div_eq_of_lt (by omega)
    have h4 : (len - 1) / n = 0 := Nat.div_eq_of_lt (by omega)
    rw [h1, h3, h2, Nat.add_div_right _ (by omega), h4]

theorem segments_nil (n : Nat) : segments n [] = [] := by
  have h : (([] : Bytes).length + n - 1) / n = 0 := by
    rcases Nat.eq_zero_or_pos n with h0 | hpos
    · subst h0; simp
    · exact Nat.div_eq_of_lt (by simp; omega)
  simp only [segments, h, List.range_zero, List.map_nil]

theorem segments_cons (n : Nat) (d : Bytes) (hn : 1 ≤ n) (hd : d ≠ []) :
    segments n d = d.take n :: segments n (d.drop n) := by
  have hlen : 1 ≤ d.length := List.length_pos.mpr hd
  unfold segments
  rw [segments_count_step d.length n hn hlen, List.range_succ_eq_map, List.map_cons,
    List.map_map, List.length_drop]
  congr 1
  · simp
  · apply List.map_congr_left
    intro i _
    simp only [Function.comp, List.drop_drop]
    congr 2
    rw [Nat.succ_mul]
    omega

theorem segments_flatten (n : Nat) (hn : 1 ≤ n) :
    ∀ (m : Nat) (d : Bytes), d.length ≤ m → (segments n d).flatten = d := by
  intro m
  induction m with
  | zero =>
    intro d hd
    have : d = [] := List.length_eq_zero.mp (by omega)
    subst this
    rw [segments_nil]
    rfl
  | succ m ih =>
    intro d hd
    by_cases hnil : d = []
    · subst hnil
      rw [segments_nil]
      rfl
    · have hpos : 1 ≤ d.length := List.length_pos.mpr hnil
      rw [segments_cons n d hn hnil, List.flatten_cons,
        ih (d.drop n) (by rw [List.length_drop]; omega), List.take_append_drop]

theorem segments_length (n : Nat) (d : Bytes) :
    (segments n d).length = (d.length + n - 1) / n := by
  simp [segments]

theorem segments_getElem? (n : Nat) (d : Bytes) (i : Nat)
    (hi : i < (d.length + n - 1) / n) :
    (segments n d)[i]? = some ((d.drop (i * n)).take n) := by
  simp [segments, hi]

/-- Below the segment count, the offset of a segment lies inside the data. -/
theorem segment_offset_lt (len n i : Nat) (hn : 1 ≤ n) (hi : i < (len + n - 1) / n) :
    i * n < len := by
  have h1 : (i + 1) * n ≤ (len + n - 1) / n * n := Nat.mul_le_mul_right n hi
  have h2 : (len + n - 1) / n * n ≤ len + n - 1 := Nat.div_mul_le_self _ _
  rw [Nat.succ_mul] at h1
  omega

theorem segments_mem_length (n : Nat) (d seg : Bytes) (hn : 1 ≤ n)
    (hseg : seg ∈ segments n d) : 1 ≤ seg.length ∧ seg.length ≤ n := by
  unfold segments at hseg
  obtain ⟨i, hi, rfl⟩ := List.mem_map.mp hseg
  rw [List.mem_range] at hi
  have := segment_offset_lt d.length n i hn hi
  rw [List.length_take, List.length_drop]
  omega

/-! ## The loop of `rsa.go` is the block operation applied to the segments -/

theorem slice_drop_take (s : Bytes) (a t : Nat) (lo hi : Int) (hlo : lo = (a : Int))
    (hhi : hi = (a : Int) + (t : Int)) (h : a + t ≤ s.length) :
    slice s lo hi = .ok ((s.drop a).take t) := by
  subst hlo hhi
  have hb : (0 : Int) ≤ (a : Int) ∧ (a : Int) ≤ (a : Int) + (t : Int) ∧
      (a : Int) + (t : Int) ≤ (s.length : Int) := by omega
  have h1 : ((a : Int)).toNat = a := by omega
  have h2 : ((a : Int) + (t : Int) - (a : Int)).toNat = t := by omega
  unfold slice
  rw [if_pos hb, h1, h2]

theorem chunkLoop_eq {σ : Type} (block : σ → Bytes → Except Error Bytes × σ) (data : Bytes)
    (n : Nat) (hn : 1 ≤ n) :
    ∀ (fuel encSize : Nat) (outputs : List Bytes) (rand : σ),
      encSize ≤ data.length → data.length - encSize ≤ fuel →
      chunkLoop block data (n : Int) fuel (encSize : Int)
          ((data.length : Int) - (encSize : Int)) outputs rand
        = loopResult outputs (applyInOrder block (segments n (data.drop encSize)) rand) := by
  have hdone : ∀ (encSize : Nat) (outputs : List Bytes) (rand : σ),
      ¬ ((data.length : Int) - (encSize : Int) > 0) → encSize ≤ data.length →
      loopResult outputs (applyInOrder block (segments n (data.drop encSize)) rand)
        = (some (.ok outputs.flatten), rand) := by
    intro encSize outputs rand hleft hle
    have henc : encSize = data.length := by omega
    subst henc
    rw [List.drop_length, segments_nil]
    simp [applyInOrder, loopResult]
  intro fuel
  induction fuel with
  | zero =>
    intro encSize outputs rand hle hfuel
    have hleft : ¬ ((data.length : Int) - (encSize : Int) > 0) := by omega
    rw [hdone encSize outputs rand hleft hle]
    simp only [chunkLoop, if_neg hleft]
  | succ fuel ih =>
    intro encSize outputs rand hle hfuel
    by_cases hleft : (data.length : Int) - (encSize : Int) > 0
    · have hrest : data.drop encSize ≠ [] := by
        intro h
        have := congrArg List.length h
        rw [List.length_drop] at this
        simp at this
        omega
      obtain ⟨t, ht, htn, htpos⟩ : ∃ t : Nat,
          (if (data.length : Int) - (encSize : Int) > (n : Int) then (n : Int)
            else (data.length : Int) - (encSize : Int)) = (t : Int) ∧
          t = min n (data.length - encSize) ∧ 1 ≤ t := by
        refine ⟨min n (data.length - encSize), ?_, rfl, by omega⟩
        split <;> omega
      have htake : (data.drop encSize).take t = (data.drop encSize).take n := by
        by_cases hc : n ≤ data.length - encSize
        · have : t = n := by omega
          rw [this]
        · have hlen : (data.drop encSize).length = t := by
            rw [List.length_drop]; omega
          rw [List.take_of_length_le (by omega), List.take_of_length_le (by omega)]
      have hdrop : data.drop (encSize + t) = (data.drop encSize).drop n := by
        rw [List.drop_drop]
        by_cases hc : n ≤ data.length - encSize
        · have : t = n := by omega
          rw [this]
        · rw [List.drop_of_length_le (by omega), List.drop_of_length_le (by omega)]
      have hslice : slice data (encSize : Int) ((encSize : Int) + (t : Int))
          = .ok ((data.drop encSize).take n) := by
        rw [← htake]
        exact slice_drop_take data encSize t _ _ rfl rfl (by omega)
      rw [segments_cons n _ hn hrest]
      unfold chunkLoop
      rw [if_pos hleft]
      simp only [ht, hslice]
      cases hblock : block rand ((data.drop encSize).take n) with
      | mk res rand1 =>
        cases res with
        | error e => simp [applyInOrder, hblock, loopResult]
        | ok out =>
          have hcast : (encSize : Int) + (t : Int) = ((encSize + t : Nat) : Int) := by
            push_cast; rfl
          have hleft2 : (data.length : Int) - (encSize : Int) - (t : Int)
              = (data.length : Int) - ((encSize + t : Nat) : Int) := by
            push_cast; omega
          simp only [hcast, hleft2]
          rw [ih (encSize + t) (outputs ++ [out]) rand1 (by omega) (by omega), hdrop]
          simp only [applyInOrder, hblock]
          cases applyInOrder block (segments n ((data.drop encSize).drop n)) rand1 with
          | mk res2 rand2 =>
            cases res2 with
            | error e => simp [loopResult]
            | ok outs => simp [loopResult]
    · rw [hdone encSize outputs rand hleft hle]
      unfold chunkLoop
      rw [if_neg hleft]

/-- With a key that passes the size check, `publicEncryptPkcs1v15` ends and
is the block encryption applied in order to the segments of `data`. -/
theorem publicEncryptPkcs1v15_eq {σ : Type} (E : BlockPrimitive PublicKey σ)
    (pub : PublicKey) (data : Bytes) (rand : σ) (hkey : 12 ≤ BitLen pub.N / 8) :
    publicEncryptPkcs1v15 E pub data rand
      = loopResult [] (applyInOrder (fun r chunk => E r pub chunk)
          (segments (BitLen pub.N / 8 - 11) data) rand) := by
  have hsize : (BitLen pub.N : Int) / 8 - 11 = ((BitLen pub.N / 8 - 11 : Nat) : Int) := by
    omega
  have hpos : ¬ ((BitLen pub.N : Int) / 8 - 11 ≤ 0) := by omega
  have h := chunkLoop_eq (fun r chunk => E r pub chunk) data (BitLen pub.N / 8 - 11)
    (by omega) data.length 0 [] rand (by omega) (by omega)
  simp only [Nat.cast_zero, sub_zero, List.drop_zero] at h
  unfold publicEncryptPkcs1v15
  simp only [if_neg hpos]
  rw [hsize]
  exact h

/-- With a key that passes the size check, `privateDecryptPkcs1v15` ends and
is the block decryption applied in order to the segments of `data`. -/
theorem privateDecryptPkcs1v15_eq {σ : Type} (D : BlockPrimitive PrivateKey σ)
    (pri : PrivateKey) (data : Bytes) (rand : σ) (hkey : 1 ≤ BitLen pri.PublicKey.N / 8) :
    privateDecryptPkcs1v15 D pri data rand
      = loopResult [] (applyInOrder (fun r chunk => D r pri chunk)
          (segments (BitLen pri.PublicKey.N / 8) data) rand) := by
  have hsize : (BitLen pri.PublicKey.N : Int) / 8 = ((BitLen pri.PublicKey.N / 8 : Nat) : Int) := by
    omega
  have hpos : ¬ ((BitLen pri.PublicKey.N : Int) / 8 ≤ 0) := by omega
  have h := chunkLoop_eq (fun r chunk => D r pri chunk) data (BitLen pri.PublicKey.N / 8)
    (by omega) data.length 0 [] rand (by omega) (by omega)
  simp only [Nat.cast_zero, sub_zero, List.drop_zero] at h
  unfold privateDecryptPkcs1v15
  simp only [if_neg hpos]
  rw [hsize]
  exact h

/-! ## Lemmas on the observation of calls -/

/-- The recorded run agrees with the plain one, and records a prefix of the
segments: all of them when no block operation fails. -/
theorem applyInOrder_traced {σ : Type} (block : σ → Bytes → Except Error Bytes × σ) :
    ∀ (segs : List Bytes) (rand : σ) (tr : List Bytes),
      ∃ k, k ≤ segs.length ∧
        applyInOrder (fun (st : σ × List Bytes) chunk =>
            ((block st.1 chunk).1, ((block st.1 chunk).2, st.2 ++ [chunk]))) segs (rand, tr)
          = ((applyInOrder block segs rand).1,
              ((applyInOrder block segs rand).2, tr ++ segs.take k)) ∧
        (∀ outs, (applyInOrder block segs rand).1 = .ok outs → k = segs.length) ∧
        (segs ≠ [] → 1 ≤ k) := by
  intro segs
  induction segs with
  | nil =>
    intro rand tr
    exact ⟨0, le_refl _, by simp [applyInOrder], fun _ _ => rfl, fun h => absurd rfl h⟩
  | cons seg segs ih =>
    intro rand tr
    cases hblock : block rand seg with
    | mk res rand1 =>
      cases res with
      | error e =>
        refine ⟨1, by simp, by simp [applyInOrder, hblock], ?_, fun _ => le_refl _⟩
        intro outs h
        simp [applyInOrder, hblock] at h
      | ok out =>
        obtain ⟨k, hk, heq, hall, _⟩ := ih rand1 (tr ++ [seg])
        refine ⟨k + 1, by simp; omega, ?_, ?_, fun _ => by omega⟩
        · simp only [applyInOrder, hblock, heq]
          cases applyInOrder block segs rand1 with
          | mk res2 rand2 =>
            cases res2 <;> simp
        · intro outs h
          cases hrest : applyInOrder block segs rand1 with
          | mk res2 rand2 =>
            cases res2 with
            | error e => simp [applyInOrder, hblock, hrest] at h
            | ok outs2 =>
              have := hall outs2 (by rw [hrest])
              simp [this]

theorem publicEncryptPkcs1v15_traced {σ : Type} (E : BlockPrimitive PublicKey σ)
    (pub : PublicKey) (data : Bytes) (rand : σ) (tr : List Bytes)
    (hkey : 12 ≤ BitLen pub.N / 8) :
    ∃ k, k ≤ (segments (BitLen pub.N / 8 - 11) data).length ∧
      publicEncryptPkcs1v15 (traced E) pub data (rand, tr)
        = ((publicEncryptPkcs1v15 E pub data rand).1,
            ((publicEncryptPkcs1v15 E pub data rand).2,
              tr ++ (segments (BitLen pub.N / 8 - 11) data).take k)) ∧
      ((∃ out, (publicEncryptPkcs1v15 E pub data rand).1 = some (.ok out)) →
        k = (segments (BitLen pub.N / 8 - 11) data).length) ∧
      (data ≠ [] → 1 ≤ k) := by
  obtain ⟨k, hk, heq, hall, hone⟩ := applyInOrder_traced (fun r chunk => E r pub chunk)
    (segments (BitLen pub.N / 8 - 11) data) rand tr
  refine ⟨k, hk, ?_, ?_, ?_⟩
  · rw [publicEncryptPkcs1v15_eq (traced E) pub data (rand, tr) hkey,
      publicEncryptPkcs1v15_eq E pub data rand hkey]
    have hfun : (fun (r : σ × List Bytes) chunk => traced E r pub chunk)
        = (fun (st : σ × List Bytes) chunk =>
            ((E st.1 pub chunk).1, ((E st.1 pub chunk).2, st.2 ++ [chunk]))) := rfl
    rw [hfun, heq]
    cases applyInOrder (fun r chunk => E r pub chunk)
        (segments (BitLen pub.N / 8 - 11) data) rand with
    | mk res rand1 => cases res <;> rfl
  · rintro ⟨out, hout⟩
    rw [publicEncryptPkcs1v15_eq E pub data rand hkey] at hout
    cases hrun : applyInOrder (fun r chunk => E r pub chunk)
        (segments (BitLen pub.N / 8 - 11) data) rand with
    | mk res rand1 =>
      cases res with
      | error e => rw [hrun] at hout; simp [loopResult] at hout
      | ok outs => exact hall outs (by rw [hrun])
  · intro hdata
    apply hone
    rw [segments_cons _ _ (by omega) hdata]
    exact List.cons_ne_nil _ _

theorem segments_last_length (len n i : Nat) (hn : 1 ≤ n)
    (hi : i + 1 = (len + n - 1) / n) :
    min n (len - i * n) = if len % n = 0 then n else len % n := by
  have h1 : i * n < len := segment_offset_lt len n i hn (by omega)
  have h2 : len + n - 1 < (i + 1 + 1) * n := by
    rw [hi, Nat.mul_comm]
    exact Nat.lt_mul_div_succ _ (by omega)
  rw [Nat.succ_mul] at h2
  rw [Nat.succ_mul] at h2
  have hmod : len % n = (len - i * n) % n := by
    have : len = (len - i * n) + i * n := by omega
    conv_lhs => rw [this]
    exact Nat.add_mul_mod_self_right _ _ _
  by_cases hfull : len - i * n = n
  · rw [hmod, hfull, Nat.mod_self, if_pos rfl, Nat.min_self]
  · have hlt : len - i * n < n := by omega
    rw [hmod, Nat.mod_eq_of_lt hlt, if_neg (by omega)]
    omega

/-! ## Lemmas on a run in which every block operation succeeds -/

theorem applyInOrder_ok {σ : Type} (block : σ → Bytes → Except Error Bytes × σ)
    (P : Bytes → Bytes → Prop) :
    ∀ (segs : List Bytes) (rand : σ),
      (∀ seg ∈ segs, ∀ r, ∃ out, (block r seg).1 = .ok out ∧ P seg out) →
      ∃ outs rand1, applyInOrder block segs rand = (.ok outs, rand1) ∧
        List.Forall₂ P segs outs := by
  intro segs
  induction segs with
  | nil =>
    intro rand _
    exact ⟨[], rand, rfl, List.Forall₂.nil⟩
  | cons seg segs ih =>
    intro rand hall
    obtain ⟨out, hout, hP⟩ := hall seg (List.mem_cons_self seg segs) rand
    obtain ⟨outs, rand2, hrest, hF⟩ :=
      ih (block rand seg).2 (fun sg hsg => hall sg (List.mem_cons_of_mem seg hsg))
    refine ⟨out :: outs, rand2, ?_, List.Forall₂.cons hP hF⟩
    have hpair : block rand seg = (.ok out, (block rand seg).2) := by
      rw [← hout]
    simp only [applyInOrder]
    rw [hpair]
    simp only [hrest]

theorem flatten_length_of_blocks (k : Nat) :
    ∀ blocks : List Bytes, (∀ b ∈ blocks, b.length = k) →
      blocks.flatten.length = blocks.length * k := by
  intro blocks
  induction blocks with
  | nil => intro _; simp
  | cons b bs ih =>
    intro hall
    rw [List.flatten_cons, List.length_append, hall b (List.mem_cons_self b bs),
      ih (fun c hc => hall c (List.mem_cons_of_mem b hc)), List.length_cons, Nat.succ_mul]
    omega

theorem segments_of_blocks (k : Nat) (hk : 1 ≤ k) :
    ∀ blocks : List Bytes, (∀ b ∈ blocks, b.length = k) →
      segments k blocks.flatten = blocks := by
  intro blocks
  induction blocks with
  | nil => intro _; exact segments_nil k
  | cons b bs ih =>
    intro hall
    have hb : b.length = k := hall b (List.mem_cons_self b bs)
    have hne : (b :: bs).flatten ≠ [] := by
      intro h
      have := congrArg List.length h
      rw [List.flatten_cons, List.length_append, List.length_nil] at this
      omega
    rw [segments_cons k _ hk hne, List.flatten_cons, List.take_left' hb, List.drop_left' hb,
      ih (fun c hc => hall c (List.mem_cons_of_mem b hc))]

theorem applyInOrder_inverse {σ : Type} (block : σ → Bytes → Except Error Bytes × σ) :
    ∀ (segs cts : List Bytes),
      List.Forall₂ (fun seg ct => ∀ t, (block t ct).1 = .ok seg) segs cts →
      ∀ t, ∃ t1, applyInOrder block cts t = (.ok segs, t1) := by
  intro segs cts h
  induction h with
  | nil => intro t; exact ⟨t, rfl⟩
  | @cons seg ct segs1 cts1 hhead _ ih =>
    intro t
    obtain ⟨t2, hrest⟩ := ih (block t ct).2
    refine ⟨t2, ?_⟩
    have hpair : block t ct = (.ok seg, (block t ct).2) := by
      rw [← hhead t]
    simp only [applyInOrder]
    rw [hpair]
    simp only [hrest]

theorem forall₂_right {α β : Type} (Q : β → Prop) :
    ∀ (xs : List α) (ys : List β), List.Forall₂ (fun _ y => Q y) xs ys → ∀ y ∈ ys, Q y := by
  intro xs ys h
  induction h with
  | nil => intro y hy; cases hy
  | cons hhead _ ih =>
    intro y hy
    rcases List.mem_cons.mp hy with rfl | hy
    · exact hhead
    · exact ih y hy

theorem toyDecrypt_toyEncrypt (k : Nat) (hk : k ≤ 256) (pub : PublicKey) (pri : PrivateKey)
    (r t : Unit) (m : Bytes) (hm : m.length + 1 ≤ k) :
    ∃ c, (toyEncrypt k r pub m).1 = .ok c ∧ c.length = k ∧ (toyDecrypt t pri c).1 = .ok m := by
  have hcond : m.length + 1 ≤ k ∧ m.length < 256 := ⟨hm, by omega⟩
  refine ⟨Fin.ofNat m.length :: m ++ List.replicate (k - 1 - m.length) 0, ?_, ?_, ?_⟩
  · simp only [toyEncrypt, if_pos hcond]
  · simp only [List.cons_append, List.length_cons, List.length_append, List.length_replicate]
    omega
  · have hval : (Fin.ofNat m.length : Fin 256).val = m.length := by
      show m.length % 256 = m.length
      exact Nat.mod_eq_of_lt (by omega)
    have hle : (Fin.ofNat m.length : Fin 256).val
        ≤ (m ++ List.replicate (k - 1 - m.length) (0 : Byte)).length := by
      rw [hval, List.length_append]
      omega
    rw [hval] at hle
    simp only [toyDecrypt, List.cons_append, hval, if_pos hle, List.take_left']

/-! ## Claims on the chunked RSA codec -/

/-- C6: for a key whose modulus bit length is a multiple of 8 with
`keySizeBytes = bitLen / 8 ≥ 12`, if the block encryption turns every message
of at most `keySizeBytes - 11` bytes into a block of `keySizeBytes` bytes that
the block decryption turns back into the message, then for every plaintext `x`
`publicEncryptPkcs1v15` succeeds and `privateDecryptPkcs1v15` of its result
succeeds and returns `x`. -/
theorem C6_rsa_chunked_roundtrip {σ : Type} (E : BlockPrimitive PublicKey σ)
    (D : BlockPrimitive PrivateKey σ) (pri : PrivateKey) (x : Bytes) (rand : σ)
    (h8 : BitLen pri.PublicKey.N % 8 = 0)
    (hkey : 12 ≤ BitLen pri.PublicKey.N / 8)
    (hprim : ∀ (r : σ) (m : Bytes), m.length ≤ BitLen pri.PublicKey.N / 8 - 11 →
      ∃ c, (E r pri.PublicKey m).1 = .ok c ∧ c.length = BitLen pri.PublicKey.N / 8 ∧
        ∀ t, (D t pri c).1 = .ok m) :
    pri.PublicKey.Size = ((BitLen pri.PublicKey.N / 8 : Nat) : Int) ∧
    ∃ ct, (publicEncryptPkcs1v15 E pri.PublicKey x rand).1 = some (.ok ct) ∧
      ∀ t, (privateDecryptPkcs1v15 D pri ct t).1 = some (.ok x) := by
  refine ⟨by unfold PublicKey.Size; omega, ?_⟩
  obtain ⟨cts, rand1, hrun, hF⟩ := applyInOrder_ok (fun r chunk => E r pri.PublicKey chunk)
    (fun seg c => c.length = BitLen pri.PublicKey.N / 8 ∧ ∀ t, (D t pri c).1 = .ok seg)
    (segments (BitLen pri.PublicKey.N / 8 - 11) x) rand
    (fun seg hseg r =>
      hprim r seg (segments_mem_length _ x seg (by omega) hseg).2)
  have hlen : ∀ c ∈ cts, c.length = BitLen pri.PublicKey.N / 8 :=
    forall₂_right (fun c => c.length = BitLen pri.PublicKey.N / 8) _ _
      (hF.imp (fun _ _ h => h.1))
  refine ⟨cts.flatten, ?_, ?_⟩
  · rw [publicEncryptPkcs1v15_eq E pri.PublicKey x rand hkey, hrun]
    simp [loopResult]
  · intro t
    obtain ⟨t1, hdec⟩ := applyInOrder_inverse (fun r chunk => D r pri chunk) _ _
      (hF.imp (fun _ _ h => h.2)) t
    rw [privateDecryptPkcs1v15_eq D pri cts.flatten t (by omega),
      segments_of_blocks _ (by omega) cts hlen, hdec]
    simp only [loopResult, List.nil_append]
    rw [segments_flatten _ (by omega) x.length x (le_refl _)]

theorem BitLen_toyKey1024 : BitLen toyKey1024.PublicKey.N = 1024 := by
  rw [BitLen_eq_size]
  exact Nat.size_pow

theorem C6_rsa_chunked_roundtrip_witness :
    BitLen toyKey1024.PublicKey.N % 8 = 0 ∧ 12 ≤ BitLen toyKey1024.PublicKey.N / 8 ∧
    toyKey1024.PublicKey.Size = ((BitLen toyKey1024.PublicKey.N / 8 : Nat) : Int) ∧
    ∃ ct, (publicEncryptPkcs1v15 (toyEncrypt 128) toyKey1024.PublicKey
        (List.replicate 1000 0) ()).1 = some (.ok ct) ∧
      ∀ t, (privateDecryptPkcs1v15 toyDecrypt toyKey1024 ct t).1
        = some (.ok (List.replicate 1000 0)) :=
  ⟨by rw [BitLen_toyKey1024], by rw [BitLen_toyKey1024]; decide,
    C6_rsa_chunked_roundtrip (toyEncrypt 128) toyDecrypt toyKey1024 (List.replicate 1000 0) ()
      (by rw [BitLen_toyKey1024]) (by rw [BitLen_toyKey1024]; decide)
      (fun r m hm => by
        rw [BitLen_toyKey1024] at hm ⊢
        obtain ⟨c, h1, h2, h3⟩ := toyDecrypt_toyEncrypt 128 (by decide)
          toyKey1024.PublicKey toyKey1024 r () m (by omega)
        exact ⟨c, h1, h2, fun _ => h3⟩)⟩

/-- For empty data `publicEncryptPkcs1v15` returns an empty buffer without
calling the block encryption, whatever the block encryption is. -/
theorem publicEncryptPkcs1v15_empty {σ : Type} (E : BlockPrimitive PublicKey σ)
    (pub : PublicKey) (rand : σ) (hkey : 1 ≤ BitLen pub.N / 8 - 11) :
    publicEncryptPkcs1v15 E pub [] rand = (some (.ok []), rand) := by
  rw [publicEncryptPkcs1v15_eq E pub [] rand (by omega), segments_nil]
  rfl

/-- C8: with `eachSize = keySizeBytes - 11 ≥ 1`, when the block encryption
succeeds on every chunk of 1 to `eachSize` bytes and returns `keySizeBytes`
bytes, `publicEncryptPkcs1v15` returns the blocks of the segments, joined in
segment order, `ceil (len data / eachSize) * keySizeBytes` bytes in all; for
empty data it returns the empty buffer and calls no block encryption. -/
theorem C8_encrypt_concatenates_blocks {σ : Type} (E : BlockPrimitive PublicKey σ)
    (pub : PublicKey) (data : Bytes) (rand : σ)
    (hkey : 1 ≤ BitLen pub.N / 8 - 11)
    (hblocks : ∀ (r : σ) (chunk : Bytes), 1 ≤ chunk.length →
      chunk.length ≤ BitLen pub.N / 8 - 11 →
      ∃ out, (E r pub chunk).1 = .ok out ∧ out.length = BitLen pub.N / 8) :
    (∃ (blocks : List Bytes) (rand1 : σ),
      applyInOrder (fun r chunk => E r pub chunk)
          (segments (BitLen pub.N / 8 - 11) data) rand = (.ok blocks, rand1) ∧
      publicEncryptPkcs1v15 E pub data rand = (some (.ok blocks.flatten), rand1) ∧
      blocks.length
        = (data.length + (BitLen pub.N / 8 - 11) - 1) / (BitLen pub.N / 8 - 11) ∧
      (∀ b ∈ blocks, b.length = BitLen pub.N / 8) ∧
      blocks.flatten.length
        = (data.length + (BitLen pub.N / 8 - 11) - 1) / (BitLen pub.N / 8 - 11)
          * (BitLen pub.N / 8)) ∧
    (∀ (E1 : BlockPrimitive PublicKey σ) (tr : List Bytes),
      publicEncryptPkcs1v15 (traced E1) pub [] (rand, tr) = (some (.ok []), (rand, tr))) := by
  refine ⟨?_, fun E1 tr => publicEncryptPkcs1v15_empty (traced E1) pub (rand, tr) hkey⟩
  obtain ⟨blocks, rand1, hrun, hF⟩ := applyInOrder_ok (fun r chunk => E r pub chunk)
    (fun (_ : Bytes) (out : Bytes) => out.length = BitLen pub.N / 8)
    (segments (BitLen pub.N / 8 - 11) data) rand
    (fun seg hseg r =>
      hblocks r seg (segments_mem_length _ data seg hkey hseg).1
        (segments_mem_length _ data seg hkey hseg).2)
  have hlen : ∀ b ∈ blocks, b.length = BitLen pub.N / 8 :=
    forall₂_right (fun (out : Bytes) => out.length = BitLen pub.N / 8) _ _ hF
  have hcount : blocks.length
      = (data.length + (BitLen pub.N / 8 - 11) - 1) / (BitLen pub.N / 8 - 11) := by
    rw [← hF.length_eq, segments_length]
  refine ⟨blocks, rand1, hrun, ?_, hcount, hlen, ?_⟩
  · rw [publicEncryptPkcs1v15_eq E pub data rand (by omega), hrun]
    simp [loopResult]
  · rw [flatten_length_of_blocks _ blocks hlen, hcount]

theorem C8_encrypt_concatenates_blocks_witness :
    (publicEncryptPkcs1v15 (toyEncrypt 12) toyKey96 [7, 8] ()).1
      = some (.ok [1, 7, 0, 0, 0, 0, 0, 0, 0, 0, 0, 0, 1, 8, 0, 0, 0, 0, 0, 0, 0, 0, 0, 0]) ∧
    ((∃ (blocks : List Bytes) (rand1 : Unit),
      applyInOrder (fun r chunk => toyEncrypt 12 r toyKey96 chunk)
          (segments (BitLen toyKey96.N / 8 - 11) [7, 8]) () = (.ok blocks, rand1) ∧
      publicEncryptPkcs1v15 (toyEncrypt 12) toyKey96 [7, 8] ()
        = (some (.ok blocks.flatten), rand1) ∧
      blocks.length
        = (([7, 8] : Bytes).length + (BitLen toyKey96.N / 8 - 11) - 1)
          / (BitLen toyKey96.N / 8 - 11) ∧
      (∀ b ∈ blocks, b.length = BitLen toyKey96.N / 8) ∧
      blocks.flatten.length
        = (([7, 8] : Bytes).length + (BitLen toyKey96.N / 8 - 11) - 1)
          / (BitLen toyKey96.N / 8 - 11) * (BitLen toyKey96.N / 8)) ∧
    (∀ (E1 : BlockPrimitive PublicKey Unit) (tr : List Bytes),
      publicEncryptPkcs1v15 (traced E1) toyKey96 [] ((), tr) = (some (.ok []), ((), tr)))) :=
  ⟨by decide,
    C8_encrypt_concatenates_blocks (toyEncrypt 12) toyKey96 [7, 8] () (by decide)
      (fun r chunk h1 h2 => by
        have hbits : BitLen toyKey96.N / 8 = 12 := by decide
        rw [hbits] at h2 ⊢
        obtain ⟨c, hc, hlen, _⟩ := toyDecrypt_toyEncrypt 12 (by decide) toyKey96
          toyKey1024 r () chunk (by omega)
        exact ⟨c, hc, hlen⟩)⟩

/-- C9: for a key that passes the key-size check, every chunk that
`publicEncryptPkcs1v15` hands to the block encryption has between 1 and
`Size - 11` bytes, `Size` being the byte length of the modulus, and the call
ends without a panic: no slice of `data` is out of range. -/
theorem C9_chunks_within_bounds {σ : Type} (E : BlockPrimitive PublicKey σ)
    (pub : PublicKey) (data : Bytes) (rand : σ)
    (hkey : ¬ ((BitLen pub.N : Int) / 8 - 11 ≤ 0)) :
    (∀ c ∈ (publicEncryptPkcs1v15 (traced E) pub data (rand, [])).2.2,
      1 ≤ c.length ∧ (c.length : Int) ≤ (BitLen pub.N : Int) / 8 - 11 ∧
        (c.length : Int) ≤ pub.Size - 11) ∧
    (publicEncryptPkcs1v15 (traced E) pub data (rand, [])).1
      = (publicEncryptPkcs1v15 E pub data rand).1 ∧
    (publicEncryptPkcs1v15 E pub data rand).1 ≠ none ∧
    (∀ p, (publicEncryptPkcs1v15 E pub data rand).1 ≠ some (.error (.panic p))) ∧
    (∀ (key : RsaPublic) (p : GoPanic), (key.PublicEncryptPkcs1v15 E data rand).1
      ≠ some (.error (.panic p))) := by
  have hk12 : 12 ≤ BitLen pub.N / 8 := by omega
  obtain ⟨k, _, heq, _, _⟩ := publicEncryptPkcs1v15_traced E pub data rand [] hk12
  have hnopanic : ∀ (pk : PublicKey) (p : GoPanic),
      (publicEncryptPkcs1v15 E pk data rand).1 ≠ some (.error (.panic p)) := by
    intro pk p
    by_cases hbad : (BitLen pk.N : Int) / 8 - 11 ≤ 0
    · simp [publicEncryptPkcs1v15, hbad]
    · rw [publicEncryptPkcs1v15_eq E pk data rand (by omega)]
      cases applyInOrder (fun r chunk => E r pk chunk)
          (segments (BitLen pk.N / 8 - 11) data) rand with
      | mk res rand1 => cases res <;> simp [loopResult]
  refine ⟨?_, by rw [heq], ?_, hnopanic pub, fun key p => hnopanic key.pubKey p⟩
  · intro c hc
    rw [heq] at hc
    have hmem : c ∈ segments (BitLen pub.N / 8 - 11) data :=
      List.mem_of_mem_take (by simpa using hc)
    have := segments_mem_length _ data c (by omega) hmem
    unfold PublicKey.Size
    omega
  · rw [publicEncryptPkcs1v15_eq E pub data rand hk12]
    cases applyInOrder (fun r chunk => E r pub chunk)
        (segments (BitLen pub.N / 8 - 11) data) rand with
    | mk res rand1 => cases res <;> simp [loopResult]

theorem C9_chunks_within_bounds_witness :
    ¬ ((BitLen toyKey96.N : Int) / 8 - 11 ≤ 0) ∧ toyKey96.Size - 11 = 1 ∧
    (∀ c ∈ (publicEncryptPkcs1v15 (traced (toyEncrypt 12)) toyKey96 [7, 8, 9] ((), [])).2.2,
      1 ≤ c.length ∧ (c.length : Int) ≤ (BitLen toyKey96.N : Int) / 8 - 11 ∧
        (c.length : Int) ≤ toyKey96.Size - 11) ∧
    (publicEncryptPkcs1v15 (traced (toyEncrypt 12)) toyKey96 [7, 8, 9] ((), [])).1
      = (publicEncryptPkcs1v15 (toyEncrypt 12) toyKey96 [7, 8, 9] ()).1 ∧
    (publicEncryptPkcs1v15 (toyEncrypt 12) toyKey96 [7, 8, 9] ()).1 ≠ none ∧
    (∀ p, (publicEncryptPkcs1v15 (toyEncrypt 12) toyKey96 [7, 8, 9] ()).1
      ≠ some (.error (.panic p))) ∧
    (∀ (key : RsaPublic) (p : GoPanic),
      (key.PublicEncryptPkcs1v15 (toyEncrypt 12) [7, 8, 9] ()).1
        ≠ some (.error (.panic p))) :=
  ⟨by decide, by decide,
    C9_chunks_within_bounds (toyEncrypt 12) toyKey96 [7, 8, 9] () (by decide)⟩

/-- C10: whenever `eachSize = keySizeBytes - 11 ≤ 0`, with `keySizeBytes` read
as `bitLen / 8` or as the byte length of the modulus, `publicEncryptPkcs1v15`
returns the key-size error for every data without calling the block
encryption; whenever `keySizeBytes ≤ 0`, `privateDecryptPkcs1v15` does the
same without calling the block decryption. -/
theorem C10_key_size_error {σ : Type} (E : BlockPrimitive PublicKey σ)
    (D : BlockPrimitive PrivateKey σ) (pub : PublicKey) (pri : PrivateKey) (data : Bytes)
    (rand : σ) (tr : List Bytes) :
    ((BitLen pub.N : Int) / 8 - 11 ≤ 0 ∨ pub.Size - 11 ≤ 0 →
      publicEncryptPkcs1v15 (traced E) pub data (rand, tr)
        = (some (.error (.err .errRsaPublicKeySize)), (rand, tr))) ∧
    ((BitLen pri.PublicKey.N : Int) / 8 ≤ 0 ∨ pri.PublicKey.Size ≤ 0 →
      privateDecryptPkcs1v15 (traced D) pri data (rand, tr)
        = (some (.error (.err .errRsaPublicKeySize)), (rand, tr))) := by
  constructor
  · intro h
    have hbad : (BitLen pub.N : Int) / 8 - 11 ≤ 0 := by
      rcases h with h | h
      · exact h
      · unfold PublicKey.Size at h
        omega
    simp only [publicEncryptPkcs1v15, if_pos hbad]
  · intro h
    have hbad : (BitLen pri.PublicKey.N : Int) / 8 ≤ 0 := by
      rcases h with h | h
      · exact h
      · unfold PublicKey.Size at h
        omega
    simp only [privateDecryptPkcs1v15, if_pos hbad]

theorem C10_key_size_error_witness :
    ((BitLen toyKey88.N : Int) / 8 - 11 ≤ 0) ∧ ((BitLen toyKey0.PublicKey.N : Int) / 8 ≤ 0) ∧
    publicEncryptPkcs1v15 (traced (toyEncrypt 11)) toyKey88 [7, 8] ((), [])
      = (some (.error (.err .errRsaPublicKeySize)), ((), [])) ∧
    privateDecryptPkcs1v15 (traced toyDecrypt) toyKey0 [7, 8] ((), [])
      = (some (.error (.err .errRsaPublicKeySize)), ((), [])) :=
  ⟨by decide, by decide,
    (C10_key_size_error (toyEncrypt 11) toyDecrypt toyKey88 toyKey0 [7, 8] () []).1
      (Or.inl (by decide)),
    (C10_key_size_error (toyEncrypt 11) toyDecrypt toyKey88 toyKey0 [7, 8] () []).2
      (Or.inl (by decide))⟩

/-! ## Lemmas on a run in which a block operation fails -/

/-- When the block operation succeeds on the first `j` segments and fails on
the next one, the run ends with that error, in the state that call left. -/
theorem applyInOrder_first_failure {σ : Type} (block : σ → Bytes → Except Error Bytes × σ) :
    ∀ (segs : List Bytes) (j : Nat) (rand rj : σ) (outs : List Bytes) (seg : Bytes) (e : Error),
      applyInOrder block (segs.take j) rand = (.ok outs, rj) →
      segs[j]? = some seg → (block rj seg).1 = .error e →
      applyInOrder block segs rand = (.error e, (block rj seg).2) := by
  intro segs
  induction segs with
  | nil =>
    intro j rand rj outs seg e _ hseg _
    simp at hseg
  | cons seg0 rest ih =>
    intro j rand rj outs seg e hrun hseg hfail
    cases j with
    | zero =>
      simp only [List.take_zero, applyInOrder, Prod.mk.injEq] at hrun
      simp only [List.getElem?_cons_zero, Option.some.injEq] at hseg
      obtain ⟨_, hr⟩ := hrun
      subst hr hseg
      have hpair : block rand seg0 = (.error e, (block rand seg0).2) := by
        rw [← hfail]
      simp only [applyInOrder]
      rw [hpair]
    | succ j =>
      simp only [List.take_succ_cons, applyInOrder] at hrun
      simp only [List.getElem?_cons_succ] at hseg
      cases hblock : block rand seg0 with
      | mk res rand1 =>
        rw [hblock] at hrun
        cases res with
        | error e0 => simp at hrun
        | ok out0 =>
          simp only at hrun
          cases hrest : applyInOrder block (rest.take j) rand1 with
          | mk res2 rand2 =>
            rw [hrest] at hrun
            cases res2 with
            | error e1 => simp at hrun
            | ok outs2 =>
              simp only [Prod.mk.injEq] at hrun
              obtain ⟨_, hr⟩ := hrun
              subst hr
              have := ih j rand1 rand2 outs2 seg e hrest hseg hfail
              simp only [applyInOrder, hblock, this]

/-- The recorded run that fails on segment `j` has recorded the segments up
to and including that one, and no later one. -/
theorem applyInOrder_traced_first_failure {σ : Type}
    (block : σ → Bytes → Except Error Bytes × σ)
    (segs : List Bytes) (j : Nat) (rand rj : σ) (tr outs : List Bytes) (seg : Bytes)
    (e : Error)
    (hrun : applyInOrder block (segs.take j) rand = (.ok outs, rj))
    (hseg : segs[j]? = some seg) (hfail : (block rj seg).1 = .error e) :
    applyInOrder (fun (st : σ × List Bytes) chunk =>
        ((block st.1 chunk).1, ((block st.1 chunk).2, st.2 ++ [chunk]))) segs (rand, tr)
      = (.error e, ((block rj seg).2, tr ++ segs.take (j + 1))) := by
  obtain ⟨k, _, heq, hall, _⟩ := applyInOrder_traced block (segs.take j) rand tr
  have hk := hall outs (by rw [hrun])
  rw [hrun, hk, List.take_length] at heq
  have h := applyInOrder_first_failure
    (fun (st : σ × List Bytes) chunk =>
      ((block st.1 chunk).1, ((block st.1 chunk).2, st.2 ++ [chunk])))
    segs j (rand, tr) (rj, tr ++ segs.take j) outs seg e heq hseg hfail
  rw [h]
  have htake : segs.take (j + 1) = segs.take j ++ [seg] := by
    rw [List.take_succ, hseg]
    rfl
  simp only [htake, List.append_assoc]

theorem privateDecryptPkcs1v15_traced {σ : Type} (D : BlockPrimitive PrivateKey σ)
    (pri : PrivateKey) (data : Bytes) (rand : σ) (tr : List Bytes)
    (hkey : 1 ≤ BitLen pri.PublicKey.N / 8) :
    ∃ k, k ≤ (segments (BitLen pri.PublicKey.N / 8) data).length ∧
      privateDecryptPkcs1v15 (traced D) pri data (rand, tr)
        = ((privateDecryptPkcs1v15 D pri data rand).1,
            ((privateDecryptPkcs1v15 D pri data rand).2,
              tr ++ (segments (BitLen pri.PublicKey.N / 8) data).take k)) ∧
      ((∃ out, (privateDecryptPkcs1v15 D pri data rand).1 = some (.ok out)) →
        k = (segments (BitLen pri.PublicKey.N / 8) data).length) ∧
      (data ≠ [] → 1 ≤ k) := by
  obtain ⟨k, hk, heq, hall, hone⟩ := applyInOrder_traced (fun r chunk => D r pri chunk)
    (segments (BitLen pri.PublicKey.N / 8) data) rand tr
  refine ⟨k, hk, ?_, ?_, ?_⟩
  · rw [privateDecryptPkcs1v15_eq (traced D) pri data (rand, tr) hkey,
      privateDecryptPkcs1v15_eq D pri data rand hkey]
    have hfun : (fun (r : σ × List Bytes) chunk => traced D r pri chunk)
        = (fun (st : σ × List Bytes) chunk =>
            ((D st.1 pri chunk).1, ((D st.1 pri chunk).2, st.2 ++ [chunk]))) := rfl
    rw [hfun, heq]
    cases applyInOrder (fun r chunk => D r pri chunk)
        (segments (BitLen pri.PublicKey.N / 8) data) rand with
    | mk res rand1 => cases res <;> rfl
  · rintro ⟨out, hout⟩
    rw [privateDecryptPkcs1v15_eq D pri data rand hkey] at hout
    cases hrun : applyInOrder (fun r chunk => D r pri chunk)
        (segments (BitLen pri.PublicKey.N / 8) data) rand with
    | mk res rand1 =>
      cases res with
      | error e => rw [hrun] at hout; simp [loopResult] at hout
      | ok outs => exact hall outs (by rw [hrun])
  · intro hdata
    apply hone
    rw [segments_cons _ _ hkey hdata]
    exact List.cons_ne_nil _ _

/-- For empty data `privateDecryptPkcs1v15` returns an empty buffer without
calling the block decryption, whatever the block decryption is. -/
theorem privateDecryptPkcs1v15_empty {σ : Type} (D : BlockPrimitive PrivateKey σ)
    (pri : PrivateKey) (rand : σ) (hkey : 1 ≤ BitLen pri.PublicKey.N / 8) :
    privateDecryptPkcs1v15 D pri [] rand = (some (.ok []), rand) := by
  rw [privateDecryptPkcs1v15_eq D pri [] rand hkey, segments_nil]
  rfl

/-- C11: with a key that passes the size check, when the block operation
succeeds on the first `j` segments and fails with `e` on the next one,
`publicEncryptPkcs1v15` (and `privateDecryptPkcs1v15` likewise) returns the
error `e` itself and no buffer, and the block operation has been given the
segments up to that one and no later segment. -/
theorem C11_first_failure_is_returned {σ : Type} (E : BlockPrimitive PublicKey σ)
    (D : BlockPrimitive PrivateKey σ) (pub : PublicKey) (pri : PrivateKey) (data : Bytes)
    (rand : σ) (j : Nat) (outs : List Bytes) (rj : σ) (seg : Bytes) (e : Error) :
    (12 ≤ BitLen pub.N / 8 →
      applyInOrder (fun r chunk => E r pub chunk)
        ((segments (BitLen pub.N / 8 - 11) data).take j) rand = (.ok outs, rj) →
      (segments (BitLen pub.N / 8 - 11) data)[j]? = some seg →
      (E rj pub seg).1 = .error e →
      publicEncryptPkcs1v15 E pub data rand = (some (.error (.err e)), (E rj pub seg).2) ∧
      publicEncryptPkcs1v15 (traced E) pub data (rand, [])
        = (some (.error (.err e)),
            ((E rj pub seg).2, (segments (BitLen pub.N / 8 - 11) data).take (j + 1)))) ∧
    (1 ≤ BitLen pri.PublicKey.N / 8 →
      applyInOrder (fun r chunk => D r pri chunk)
        ((segments (BitLen pri.PublicKey.N / 8) data).take j) rand = (.ok outs, rj) →
      (segments (BitLen pri.PublicKey.N / 8) data)[j]? = some seg →
      (D rj pri seg).1 = .error e →
      privateDecryptPkcs1v15 D pri data rand = (some (.error (.err e)), (D rj pri seg).2) ∧
      privateDecryptPkcs1v15 (traced D) pri data (rand, [])
        = (some (.error (.err e)),
            ((D rj pri seg).2, (segments (BitLen pri.PublicKey.N / 8) data).take (j + 1)))) := by
  constructor
  · intro hkey hrun hseg hfail
    constructor
    · rw [publicEncryptPkcs1v15_eq E pub data rand hkey,
        applyInOrder_first_failure (fun r chunk => E r pub chunk) _ j rand rj outs seg e
          hrun hseg hfail]
      rfl
    · rw [publicEncryptPkcs1v15_eq (traced E) pub data (rand, []) hkey]
      have hfun : (fun (r : σ × List Bytes) chunk => traced E r pub chunk)
          = (fun (st : σ × List Bytes) chunk =>
              ((E st.1 pub chunk).1, ((E st.1 pub chunk).2, st.2 ++ [chunk]))) := rfl
      rw [hfun, applyInOrder_traced_first_failure (fun r chunk => E r pub chunk) _ j rand rj
        [] outs seg e hrun hseg hfail]
      rfl
  · intro hkey hrun hseg hfail
    constructor
    · rw [privateDecryptPkcs1v15_eq D pri data rand hkey,
        applyInOrder_first_failure (fun r chunk => D r pri chunk) _ j rand rj outs seg e
          hrun hseg hfail]
      rfl
    · rw [privateDecryptPkcs1v15_eq (traced D) pri data (rand, []) hkey]
      have hfun : (fun (r : σ × List Bytes) chunk => traced D r pri chunk)
          = (fun (st : σ × List Bytes) chunk =>
              ((D st.1 pri chunk).1, ((D st.1 pri chunk).2, st.2 ++ [chunk]))) := rfl
      rw [hfun, applyInOrder_traced_first_failure (fun r chunk => D r pri chunk) _ j rand rj
        [] outs seg e hrun hseg hfail]
      rfl

theorem C11_first_failure_is_returned_witness :
    (publicEncryptPkcs1v15 (toyFailOn 8) toyKey96 [7, 8, 9] ()
        = (some (.error (.err (.library 3))), ()) ∧
      publicEncryptPkcs1v15 (traced (toyFailOn 8)) toyKey96 [7, 8, 9] ((), [])
        = (some (.error (.err (.library 3))),
            ((), (segments (BitLen toyKey96.N / 8 - 11) [7, 8, 9]).take (1 + 1)))) ∧
    (privateDecryptPkcs1v15 (toyFailOn 8) toyKey8 [7, 8, 9] ()
        = (some (.error (.err (.library 3))), ()) ∧
      privateDecryptPkcs1v15 (traced (toyFailOn 8)) toyKey8 [7, 8, 9] ((), [])
        = (some (.error (.err (.library 3))),
            ((), (segments (BitLen toyKey8.PublicKey.N / 8) [7, 8, 9]).take (1 + 1)))) ∧
    (segments (BitLen toyKey96.N / 8 - 11) [7, 8, 9]).take (1 + 1) = [[7], [8]] :=
  ⟨(C11_first_failure_is_returned (toyFailOn 8) (toyFailOn 8) toyKey96 toyKey8 [7, 8, 9] ()
      1 [[7]] () [8] (.library 3)).1 (by decide) (by decide) (by decide) (by decide),
    (C11_first_failure_is_returned (toyFailOn 8) (toyFailOn 8) toyKey96 toyKey8 [7, 8, 9] ()
      1 [[7]] () [8] (.library 3)).2 (by decide) (by decide) (by decide) (by decide),
    by decide⟩

/-- A run without failure returns one block for each segment. -/
theorem applyInOrder_length {σ : Type} (block : σ → Bytes → Except Error Bytes × σ) :
    ∀ (segs : List Bytes) (rand : σ) (outs : List Bytes) (rand1 : σ),
      applyInOrder block segs rand = (.ok outs, rand1) → outs.length = segs.length := by
  intro segs
  induction segs with
  | nil =>
    intro rand outs rand1 h
    simp only [applyInOrder, Prod.mk.injEq, Except.ok.injEq] at h
    rw [← h.1]
  | cons seg rest ih =>
    intro rand outs rand1 h
    simp only [applyInOrder] at h
    cases hblock : block rand seg with
    | mk res r1 =>
      rw [hblock] at h
      cases res with
      | error e => simp at h
      | ok out =>
        simp only at h
        cases hrest : applyInOrder block rest r1 with
        | mk res2 r2 =>
          rw [hrest] at h
          cases res2 with
          | error e => simp at h
          | ok outs2 =>
            simp only [Prod.mk.injEq, Except.ok.injEq] at h
            rw [← h.1, List.length_cons, List.length_cons, ih r1 outs2 r2 hrest]

/-- The shape of the `i`-th segment: full but for the last one. -/
theorem segments_shape (n : Nat) (data : Bytes) (hn : 1 ≤ n) (i : Nat) (seg : Bytes)
    (hseg : (segments n data)[i]? = some seg) :
    seg = (data.drop (i * n)).take n ∧
    (i + 1 < (segments n data).length → seg.length = n) ∧
    (i + 1 = (segments n data).length →
      seg.length = if data.length % n = 0 then n else data.length % n) := by
  have hcount := segments_length n data
  have hi : i < (data.length + n - 1) / n := by
    rw [← hcount]
    by_contra hcon
    rw [List.getElem?_eq_none (by omega)] at hseg
    exact Option.noConfusion hseg
  rw [segments_getElem? n data i hi] at hseg
  have hsegeq : seg = (data.drop (i * n)).take n := (Option.some.inj hseg).symm
  have hoff := segment_offset_lt data.length n i hn hi
  have hseglen : seg.length = min n (data.length - i * n) := by
    rw [hsegeq, List.length_take, List.length_drop]
  refine ⟨hsegeq, ?_, ?_⟩
  · intro hlt
    rw [hcount] at hlt
    have := segment_offset_lt data.length n (i + 1) hn hlt
    rw [Nat.succ_mul] at this
    omega
  · intro hlast
    rw [hcount] at hlast
    rw [hseglen]
    exact segments_last_length data.length n i hn hlast

/-- A run of `publicEncryptPkcs1v15` in which the block encryption succeeds on
every segment returns the join of the blocks and has handed over every
segment. -/
theorem publicEncryptPkcs1v15_success {σ : Type} (E : BlockPrimitive PublicKey σ)
    (pub : PublicKey) (data : Bytes) (rand rand1 : σ) (tr outs : List Bytes)
    (hkey : 12 ≤ BitLen pub.N / 8)
    (happ : applyInOrder (fun r chunk => E r pub chunk)
      (segments (BitLen pub.N / 8 - 11) data) rand = (.ok outs, rand1)) :
    publicEncryptPkcs1v15 E pub data rand = (some (.ok outs.flatten), rand1) ∧
    publicEncryptPkcs1v15 (traced E) pub data (rand, tr)
      = (some (.ok outs.flatten), (rand1, tr ++ segments (BitLen pub.N / 8 - 11) data)) := by
  have hplain : publicEncryptPkcs1v15 E pub data rand = (some (.ok outs.flatten), rand1) := by
    rw [publicEncryptPkcs1v15_eq E pub data rand hkey, happ]
    rfl
  obtain ⟨k, _, heq, hall, _⟩ := publicEncryptPkcs1v15_traced E pub data rand tr hkey
  have hk := hall ⟨outs.flatten, by rw [hplain]⟩
  rw [hk, List.take_length, hplain] at heq
  exact ⟨hplain, heq⟩

/-- A run of `privateDecryptPkcs1v15` in which the block decryption succeeds on
every segment returns the join of the plaintexts and has handed over every
segment. -/
theorem privateDecryptPkcs1v15_success {σ : Type} (D : BlockPrimitive PrivateKey σ)
    (pri : PrivateKey) (data : Bytes) (rand rand1 : σ) (tr outs : List Bytes)
    (hkey : 1 ≤ BitLen pri.PublicKey.N / 8)
    (happ : applyInOrder (fun r chunk => D r pri chunk)
      (segments (BitLen pri.PublicKey.N / 8) data) rand = (.ok outs, rand1)) :
    privateDecryptPkcs1v15 D pri data rand = (some (.ok outs.flatten), rand1) ∧
    privateDecryptPkcs1v15 (traced D) pri data (rand, tr)
      = (some (.ok outs.flatten),
          (rand1, tr ++ segments (BitLen pri.PublicKey.N / 8) data)) := by
  have hplain : privateDecryptPkcs1v15 D pri data rand = (some (.ok outs.flatten), rand1) := by
    rw [privateDecryptPkcs1v15_eq D pri data rand hkey, happ]
    rfl
  obtain ⟨k, _, heq, hall, _⟩ := privateDecryptPkcs1v15_traced D pri data rand tr hkey
  have hk := hall ⟨outs.flatten, by rw [hplain]⟩
  rw [hk, List.take_length, hplain] at heq
  exact ⟨hplain, heq⟩

/-- A block operation that succeeds on every chunk of 1 to `n` bytes, in
every state, succeeds on the segments of `data` in order. -/
theorem applyInOrder_segments_ok {σ : Type} (block : σ → Bytes → Except Error Bytes × σ)
    (n : Nat) (hn : 1 ≤ n) (data : Bytes) (rand : σ)
    (hall : ∀ (r : σ) (chunk : Bytes), 1 ≤ chunk.length → chunk.length ≤ n →
      ∃ out, (block r chunk).1 = .ok out) :
    ∃ (outs : List Bytes) (rand1 : σ),
      applyInOrder block (segments n data) rand = (.ok outs, rand1) := by
  obtain ⟨outs, rand1, hrun, _⟩ := applyInOrder_ok block (fun _ _ => True) (segments n data) rand
    (fun seg hseg r => by
      obtain ⟨out, hout⟩ := hall r seg (segments_mem_length n data seg hn hseg).1
        (segments_mem_length n data seg hn hseg).2
      exact ⟨out, hout, trivial⟩)
  exact ⟨outs, rand1, hrun⟩

/-- C12: with `keySizeBytes = bitLen / 8 ≥ 1`, `privateDecryptPkcs1v15` ends,
and the chunks it hands to the block decryption are, in order, the first
segments of `data` of `keySizeBytes` bytes; when the block decryption succeeds
on all the segments, it returns the join of their plaintexts in that order and
has handed over every segment: they concatenate to `data`, each has
`keySizeBytes` bytes and the last one `len data mod keySizeBytes` bytes when
that is not zero; for empty data the result is the empty buffer and the block
decryption is not called. -/
theorem C12_decrypt_segments_in_order {σ : Type} (D : BlockPrimitive PrivateKey σ)
    (pri : PrivateKey) (data : Bytes) (rand : σ)
    (hkey : 1 ≤ BitLen pri.PublicKey.N / 8) :
    (∃ (tr : List Bytes) (k : Nat),
      (privateDecryptPkcs1v15 (traced D) pri data (rand, [])).2.2 = tr ∧
      (privateDecryptPkcs1v15 (traced D) pri data (rand, [])).1
        = (privateDecryptPkcs1v15 D pri data rand).1 ∧
      (privateDecryptPkcs1v15 D pri data rand).1 ≠ none ∧
      tr = (segments (BitLen pri.PublicKey.N / 8) data).take k ∧
      (data ≠ [] → 1 ≤ k) ∧
      (∀ (outs : List Bytes) (rand1 : σ),
        applyInOrder (fun r chunk => D r pri chunk)
          (segments (BitLen pri.PublicKey.N / 8) data) rand = (.ok outs, rand1) →
        privateDecryptPkcs1v15 D pri data rand = (some (.ok outs.flatten), rand1) ∧
        outs.length = tr.length ∧
        tr.flatten = data ∧
        tr.length = (data.length + BitLen pri.PublicKey.N / 8 - 1)
          / (BitLen pri.PublicKey.N / 8) ∧
        ∀ (i : Nat) (seg : Bytes), tr[i]? = some seg →
          seg = (data.drop (i * (BitLen pri.PublicKey.N / 8))).take
            (BitLen pri.PublicKey.N / 8) ∧
          (i + 1 < tr.length → seg.length = BitLen pri.PublicKey.N / 8) ∧
          (i + 1 = tr.length → seg.length =
            if data.length % (BitLen pri.PublicKey.N / 8) = 0
            then BitLen pri.PublicKey.N / 8
            else data.length % (BitLen pri.PublicKey.N / 8)))) ∧
    ((∀ (r : σ) (chunk : Bytes), 1 ≤ chunk.length →
        chunk.length ≤ BitLen pri.PublicKey.N / 8 → ∃ out, (D r pri chunk).1 = .ok out) →
      ∃ (outs : List Bytes) (rand1 : σ),
        applyInOrder (fun r chunk => D r pri chunk)
          (segments (BitLen pri.PublicKey.N / 8) data) rand = (.ok outs, rand1)) ∧
    (∀ (D1 : BlockPrimitive PrivateKey σ) (tr : List Bytes),
      privateDecryptPkcs1v15 (traced D1) pri [] (rand, tr) = (some (.ok []), (rand, tr))) := by
  refine ⟨?_, fun hall => applyInOrder_segments_ok (fun r chunk => D r pri chunk) _ hkey data
      rand hall,
    fun D1 tr => privateDecryptPkcs1v15_empty (traced D1) pri (rand, tr) hkey⟩
  obtain ⟨k, hk, heq, hall, hone⟩ := privateDecryptPkcs1v15_traced D pri data rand [] hkey
  have hends : (privateDecryptPkcs1v15 D pri data rand).1 ≠ none := by
    rw [privateDecryptPkcs1v15_eq D pri data rand hkey]
    cases applyInOrder (fun r chunk => D r pri chunk)
        (segments (BitLen pri.PublicKey.N / 8) data) rand with
    | mk res rand1 => cases res <;> simp [loopResult]
  refine ⟨(segments (BitLen pri.PublicKey.N / 8) data).take k, k, by rw [heq]; rfl,
    by rw [heq], hends, rfl, hone, ?_⟩
  intro outs rand1 happ
  obtain ⟨hplain, _⟩ := privateDecryptPkcs1v15_success D pri data rand rand1 [] outs hkey happ
  have hk2 := hall ⟨outs.flatten, by rw [hplain]⟩
  rw [hk2, List.take_length]
  exact ⟨hplain, applyInOrder_length _ _ rand outs rand1 happ,
    segments_flatten _ hkey data.length data (le_refl _), segments_length _ data,
    fun i seg hseg => segments_shape _ data hkey i seg hseg⟩

theorem C12_decrypt_segments_in_order_witness :
    privateDecryptPkcs1v15 (traced (toyFailOn 0)) toyKey16 [7, 8, 9] ((), [])
      = (some (.ok [7, 8, 9]), ((), [[7, 8], [9]])) ∧
    ∃ (tr : List Bytes),
      (privateDecryptPkcs1v15 (traced (toyFailOn 0)) toyKey16 [7, 8, 9] ((), [])).2.2 = tr ∧
      privateDecryptPkcs1v15 (toyFailOn 0) toyKey16 [7, 8, 9] ()
        = (some (.ok ([[7, 8], [9]] : List Bytes).flatten), ()) ∧
      ([[7, 8], [9]] : List Bytes).length = tr.length ∧
      tr.flatten = [7, 8, 9] ∧
      tr.length = (([7, 8, 9] : Bytes).length + BitLen toyKey16.PublicKey.N / 8 - 1)
        / (BitLen toyKey16.PublicKey.N / 8) := by
  refine ⟨by decide, ?_⟩
  obtain ⟨⟨tr, k, htr, _, _, _, _, hsucc⟩, _, _⟩ :=
    C12_decrypt_segments_in_order (toyFailOn 0) toyKey16 [7, 8, 9] () (by decide)
  obtain ⟨h1, h2, h3, h4, _⟩ := hsucc [[7, 8], [9]] () (by decide)
  exact ⟨tr, htr, h1, h2, h3, h4⟩

/-- C7, as stated, fails: when the block encryption fails on the second of
three segments, only the first two are handed to it; they do not concatenate
to `data` and they are fewer than `ceil (len data / eachSize)`. -/
theorem C7_counterexample_failing_primitive :
    1 ≤ BitLen toyKey96.N / 8 - 11 ∧ ([7, 8, 9] : Bytes) ≠ [] ∧
    (publicEncryptPkcs1v15 (traced (toyFailOn 8)) toyKey96 [7, 8, 9] ((), [])).2.2
      = [[7], [8]] ∧
    ¬ ((publicEncryptPkcs1v15 (traced (toyFailOn 8)) toyKey96 [7, 8, 9] ((), [])).2.2.flatten
        = [7, 8, 9]) ∧
    ¬ ((publicEncryptPkcs1v15 (traced (toyFailOn 8)) toyKey96 [7, 8, 9] ((), [])).2.2.length
        = (([7, 8, 9] : Bytes).length + (BitLen toyKey96.N / 8 - 11) - 1)
          / (BitLen toyKey96.N / 8 - 11)) := by
  decide

/-- C7, amended: for non-empty `data` and `eachSize = keySizeBytes - 11 ≥ 1`,
`publicEncryptPkcs1v15` ends, and the chunks it hands to the block encryption
are, in order, the first segments of `data`, at least one; when the block
encryption succeeds on all the segments, it returns the join of their blocks
and has handed over every segment: they concatenate to `data`, there are
`ceil (len data / eachSize)` of them, the `i`-th is `data[i*eachSize : ...]`,
each but the last has `eachSize` bytes and the last has `len data mod
eachSize` bytes, or `eachSize` when that remainder is zero. -/
theorem C7_segments_handed_in_order {σ : Type} (E : BlockPrimitive PublicKey σ)
    (pub : PublicKey) (data : Bytes) (rand : σ)
    (hkey : 1 ≤ BitLen pub.N / 8 - 11) (hdata : data ≠ []) :
    (∃ (tr : List Bytes) (k : Nat),
      (publicEncryptPkcs1v15 (traced E) pub data (rand, [])).2.2 = tr ∧
      (publicEncryptPkcs1v15 (traced E) pub data (rand, [])).1
        = (publicEncryptPkcs1v15 E pub data rand).1 ∧
      (publicEncryptPkcs1v15 E pub data rand).1 ≠ none ∧
      1 ≤ k ∧ tr = (segments (BitLen pub.N / 8 - 11) data).take k ∧
      (∀ (outs : List Bytes) (rand1 : σ),
        applyInOrder (fun r chunk => E r pub chunk)
          (segments (BitLen pub.N / 8 - 11) data) rand = (.ok outs, rand1) →
        publicEncryptPkcs1v15 E pub data rand = (some (.ok outs.flatten), rand1) ∧
        outs.length = tr.length ∧
        tr.flatten = data ∧
        tr.length = (data.length + (BitLen pub.N / 8 - 11) - 1) / (BitLen pub.N / 8 - 11) ∧
        ∀ (i : Nat) (seg : Bytes), tr[i]? = some seg →
          seg = (data.drop (i * (BitLen pub.N / 8 - 11))).take (BitLen pub.N / 8 - 11) ∧
          (i + 1 < tr.length → seg.length = BitLen pub.N / 8 - 11) ∧
          (i + 1 = tr.length → seg.length =
            if data.length % (BitLen pub.N / 8 - 11) = 0 then BitLen pub.N / 8 - 11
            else data.length % (BitLen pub.N / 8 - 11)))) ∧
    ((∀ (r : σ) (chunk : Bytes), 1 ≤ chunk.length →
        chunk.length ≤ BitLen pub.N / 8 - 11 → ∃ out, (E r pub chunk).1 = .ok out) →
      ∃ (outs : List Bytes) (rand1 : σ),
        applyInOrder (fun r chunk => E r pub chunk)
          (segments (BitLen pub.N / 8 - 11) data) rand = (.ok outs, rand1)) := by
  have hk12 : 12 ≤ BitLen pub.N / 8 := by omega
  refine ⟨?_, fun hall => applyInOrder_segments_ok (fun r chunk => E r pub chunk) _ hkey data
      rand hall⟩
  obtain ⟨k, hk, heq, hall, hone⟩ := publicEncryptPkcs1v15_traced E pub data rand [] hk12
  have hends : (publicEncryptPkcs1v15 E pub data rand).1 ≠ none := by
    rw [publicEncryptPkcs1v15_eq E pub data rand hk12]
    cases applyInOrder (fun r chunk => E r pub chunk)
        (segments (BitLen pub.N / 8 - 11) data) rand with
    | mk res rand1 => cases res <;> simp [loopResult]
  refine ⟨(segments (BitLen pub.N / 8 - 11) data).take k, k, by rw [heq]; rfl,
    by rw [heq], hends, hone hdata, rfl, ?_⟩
  intro outs rand1 happ
  obtain ⟨hplain, _⟩ := publicEncryptPkcs1v15_success E pub data rand rand1 [] outs hk12 happ
  have hk2 := hall ⟨outs.flatten, by rw [hplain]⟩
  rw [hk2, List.take_length]
  exact ⟨hplain, applyInOrder_length _ _ rand outs rand1 happ,
    segments_flatten _ hkey data.length data (le_refl _), segments_length _ data,
    fun i seg hseg => segments_shape _ data hkey i seg hseg⟩

theorem C7_segments_handed_in_order_witness :
    publicEncryptPkcs1v15 (traced (toyFailOn 0)) toyKey96 [7, 8, 9] ((), [])
      = (some (.ok [7, 8, 9]), ((), [[7], [8], [9]])) ∧
    ∃ (tr : List Bytes),
      (publicEncryptPkcs1v15 (traced (toyFailOn 0)) toyKey96 [7, 8, 9] ((), [])).2.2 = tr ∧
      publicEncryptPkcs1v15 (toyFailOn 0) toyKey96 [7, 8, 9] ()
        = (some (.ok ([[7], [8], [9]] : List Bytes).flatten), ()) ∧
      ([[7], [8], [9]] : List Bytes).length = tr.length ∧
      tr.flatten = [7, 8, 9] ∧
      tr.length = (([7, 8, 9] : Bytes).length + (BitLen toyKey96.N / 8 - 11) - 1)
        / (BitLen toyKey96.N / 8 - 11) := by
  refine ⟨by decide, ?_⟩
  obtain ⟨⟨tr, k, htr, _, _, _, _, hsucc⟩, _⟩ :=
    C7_segments_handed_in_order (toyFailOn 0) toyKey96 [7, 8, 9] () (by decide) (by decide)
  obtain ⟨h1, h2, h3, h4, _⟩ := hsucc [[7], [8], [9]] () (by decide)
  exact ⟨tr, htr, h1, h2, h3, h4⟩

/-! ## Further claims on the padding engine -/

/-- C16: `Pkcs5Padding.Pad` is `Pkcs7Padding.Pad` with block size 8, and
`Pkcs5Padding.Unpad` returns what `Pkcs7Padding.Unpad` with block size 8
returns, result or error. -/
theorem C16_pkcs5_is_pkcs7_with_block_8 (x : Bytes) :
    NewPkcs5Padding.Pad x = (NewPkcs7Padding 8).Pad x ∧
    NewPkcs5Padding.Unpad x = (NewPkcs7Padding 8).Unpad x ∧
    NewPkcs5Padding.pkcs7.blockSize = 8 :=
  ⟨rfl, rfl, rfl⟩

theorem toByte_of_val (v : Byte) : toByte (v.val : Int) = v := by
  apply Fin.ext
  have h : (toByte (v.val : Int)).val = ((v.val : Int) % 256).toNat % 256 := rfl
  have hlt := v.isLt
  rw [h]
  omega

/-- C20: for every block size `b ≥ 1` and every buffer `y` whose length is a
positive multiple of `b`, whose last byte `v` satisfies `1 ≤ v ≤ b` and whose
last `v` bytes all equal `v`, `Unpad y` succeeds with some `x` and
`Pad x = y`. -/
theorem C20_pad_unpad_inverse (b : Int) (y : Bytes) (v : Byte) (hb : 1 ≤ b)
    (hmul : ∃ m : Int, 1 ≤ m ∧ (y.length : Int) = m * b)
    (hlast : y.getLast? = some v) (hv1 : 1 ≤ v.val) (hvb : (v.val : Int) ≤ b)
    (hall : ∀ c ∈ y.drop (y.length - v.val), c = v) :
    ∃ x, (NewPkcs7Padding b).Unpad y = .ok x ∧ (NewPkcs7Padding b).Pad x = .ok y := by
  obtain ⟨m, hm1, hlen⟩ := hmul
  have hmb : b ≤ m * b := by nlinarith
  have hvlen : v.val ≤ y.length := by omega
  have hends : EndsInPadding y v := ⟨hvlen, hall⟩
  refine ⟨y.take (y.length - v.val), ?_, ?_⟩
  · rw [Unpad_last _ y v hlast, if_pos hends]
  · rw [Pad_eq b _ hb]
    have hxlen : (y.take (y.length - v.val)).length = y.length - v.val := by
      rw [List.length_take]; omega
    have hxint : ((y.length - v.val : Nat) : Int) = (b - (v.val : Int)) + (m - 1) * b := by
      have : ((y.length - v.val : Nat) : Int) = (y.length : Int) - (v.val : Int) := by omega
      rw [this, hlen]
      ring
    have hmod : ((y.length - v.val : Nat) : Int) % b = (b - (v.val : Int)) % b := by
      rw [hxint, Int.add_mul_emod_self]
    have hpad : b - ((y.take (y.length - v.val)).length : Int) % b = (v.val : Int) := by
      rw [hxlen, hmod]
      by_cases hfull : (v.val : Int) = b
      · rw [hfull, sub_self, Int.zero_emod, sub_zero]
      · rw [Int.emod_eq_of_lt (by omega) (by omega)]
        omega
    rw [hpad, toByte_of_val, Int.toNat_ofNat]
    have hdrop : y.drop (y.length - v.val) = List.replicate v.val v := by
      rw [List.eq_replicate_iff]
      refine ⟨by rw [List.length_drop]; omega, hall⟩
    rw [← hdrop, List.take_append_drop]

theorem C20_pad_unpad_inverse_witness :
    (NewPkcs7Padding 5).Unpad [1, 2, 3, 2, 2] = .ok [1, 2, 3] ∧
    (NewPkcs7Padding 5).Pad [1, 2, 3] = .ok [1, 2, 3, 2, 2] ∧
    ∃ x, (NewPkcs7Padding 5).Unpad [1, 2, 3, 2, 2] = .ok x ∧
      (NewPkcs7Padding 5).Pad x = .ok [1, 2, 3, 2, 2] :=
  ⟨by decide, by decide,
    C20_pad_unpad_inverse 5 [1, 2, 3, 2, 2] 2 (by decide) ⟨1, by decide, by decide⟩
      (by decide) (by decide) (by decide) (by decide)⟩

/-! ## Lemmas on key generation -/

/-- A key that the retry loop accepts has a modulus of exactly `bits` bits and
the public exponent `e`. -/
theorem nextSetOfPrimes_ok {σ : Type} (Prime : PrimeSource σ) (GCD : GCDFunction)
    (nprimes bits e : Int) :
    ∀ (fuel : Nat) (rand rand1 : σ) (key : PrivateKey),
      nextSetOfPrimes Prime GCD nprimes bits e fuel rand = (some (.ok key), rand1) →
      (BitLen key.PublicKey.N : Int) = bits ∧ key.PublicKey.E = e := by
  intro fuel
  induction fuel with
  | zero =>
    intro rand rand1 key h
    simp [nextSetOfPrimes] at h
  | succ fuel ih =>
    intro rand rand1 key h
    unfold nextSetOfPrimes at h
    simp only at h
    split at h
    · simp at h
    · split at h
      · exact ih _ _ _ h
      · split at h
        · exact ih _ _ _ h
        · rename_i hbits
          split at h
          · simp only [Prod.mk.injEq, Option.some.injEq, Except.ok.injEq] at h
            obtain ⟨hkey, _⟩ := h
            subst hkey
            exact ⟨by simpa using hbits, rfl⟩
          · exact ih _ _ _ h

theorem size_div_256 (n : Nat) : Nat.size (n / 256) = Nat.size n - 8 := by
  apply le_antisymm
  · rw [Nat.size_le]
    by_cases h8 : 8 ≤ Nat.size n
    · have hlt : n < 2 ^ Nat.size n := Nat.lt_size_self n
      have hpow : 2 ^ Nat.size n = 2 ^ (Nat.size n - 8) * 256 := by
        rw [show (256 : Nat) = 2 ^ 8 from rfl, ← pow_add]
        congr 1
        omega
      rw [hpow] at hlt
      exact Nat.div_lt_of_lt_mul (by rw [Nat.mul_comm]; exact hlt)
    · have hlt : n < 2 ^ 8 := Nat.size_le.mp (by omega)
      have : n / 256 = 0 := Nat.div_eq_of_lt hlt
      rw [this]
      exact Nat.pos_pow_of_pos _ (by decide)
  · by_cases h8 : Nat.size n ≤ 8
    · omega
    · have hlt : Nat.size n - 1 < Nat.size n := by omega
      have hle : 2 ^ (Nat.size n - 1) ≤ n := Nat.lt_size.mp hlt
      have hpow : 2 ^ (Nat.size n - 1) = 2 ^ (Nat.size n - 9) * 256 := by
        rw [show (256 : Nat) = 2 ^ 8 from rfl, ← pow_add]
        congr 1
        omega
      rw [hpow] at hle
      have hdiv : 2 ^ (Nat.size n - 9) ≤ n / 256 :=
        (Nat.le_div_iff_mul_le (by decide)).mpr hle
      have := Nat.lt_size.mpr hdiv
      omega

theorem bigIntBytesAux_length :
    ∀ (fuel n : Nat) (acc : Bytes), n ≤ fuel →
      (bigIntBytesAux fuel n acc).length = acc.length + (Nat.size n + 7) / 8 := by
  intro fuel
  induction fuel with
  | zero =>
    intro n acc hn
    have : n = 0 := by omega
    subst this
    simp [bigIntBytesAux]
  | succ fuel ih =>
    intro n acc hn
    by_cases h0 : n = 0
    · subst h0
      simp [bigIntBytesAux]
    · have hsize := size_div_256 n
      have hpos : 1 ≤ Nat.size n := Nat.size_pos.mpr (by omega)
      simp only [bigIntBytesAux, if_neg h0]
      rw [ih (n / 256) _ (by omega), List.length_cons, hsize]
      omega

/-- The byte length of a number is its bit length rounded up to bytes. -/
theorem bigIntBytes_length (n : Nat) : (bigIntBytes n).length = (BitLen n + 7) / 8 := by
  rw [BitLen_eq_size]
  unfold bigIntBytes
  rw [bigIntBytesAux_length n n [] (le_refl n)]
  simp

/-- An instance that `NewRsaPrivate` returns without error holds a key whose
modulus has exactly `bits` bits. -/
theorem NewRsaPrivate_ok {σ : Type} (Prime : PrimeSource σ) (GCD : GCDFunction)
    (bits e : Int) (fuel : Nat) (rand rand1 : σ) (inst : RsaPrivate)
    (hret : NewRsaPrivate Prime GCD bits e fuel rand = (some inst, rand1))
    (herr : inst.err = none) :
    ∃ key, inst.priKey = some key ∧ (BitLen key.PublicKey.N : Int) = bits ∧
      key.PublicKey.E = e := by
  unfold NewRsaPrivate at hret
  split at hret
  · simp only [Prod.mk.injEq, Option.some.injEq] at hret
    rw [← hret.1] at herr
    simp at herr
  · split at hret
    · simp at hret
    · simp only [Prod.mk.injEq, Option.some.injEq] at hret
      rw [← hret.1] at herr
      simp at herr
    · rename_i key rand2 hgen
      simp only [Prod.mk.injEq, Option.some.injEq] at hret
      unfold generateMultiPrimeKey at hgen
      rw [if_neg (by decide)] at hgen
      refine ⟨key, by rw [← hret.1], nextSetOfPrimes_ok Prime GCD 2 bits e fuel _ _ key hgen⟩

/-! ## Claims on construction -/

/-- C15: for every `bits` that is a multiple of 8, positive or not, and every `e`, an
instance that `NewRsaPrivate bits e` returns without error holds a modulus of
exactly `bits` bits, and `GetNBytes` returns exactly `bits / 8` bytes; the
encryption segment size is `bits / 8 - 11` and the decryption one `bits / 8`. -/
theorem C15_generated_modulus_size {σ : Type} (Prime : PrimeSource σ) (GCD : GCDFunction)
    (bits e : Int) (fuel : Nat) (rand rand1 : σ) (inst : RsaPrivate)
    (h8 : bits % 8 = 0)
    (hret : NewRsaPrivate Prime GCD bits e fuel rand = (some inst, rand1))
    (herr : inst.err = none) :
    ∃ key, inst.priKey = some key ∧ (BitLen key.PublicKey.N : Int) = bits ∧
      (∃ nb, inst.GetNBytes = .ok (some nb) ∧ (nb.length : Int) = bits / 8) ∧
      (BitLen key.PublicKey.N : Int) / 8 - 11 = bits / 8 - 11 ∧
      (BitLen key.PublicKey.N : Int) / 8 = bits / 8 ∧
      key.PublicKey.Size = bits / 8 := by
  obtain ⟨key, hkey, hbits, _⟩ := NewRsaPrivate_ok Prime GCD bits e fuel rand rand1 inst hret herr
  refine ⟨key, hkey, hbits, ⟨bigIntBytes key.PublicKey.N, ?_, ?_⟩, by rw [hbits], by rw [hbits],
    ?_⟩
  · simp only [RsaPrivate.GetNBytes, herr, hkey]
  · rw [bigIntBytes_length]
    omega
  · unfold PublicKey.Size
    omega

theorem C15_generated_modulus_size_witness :
    NewRsaPrivate toyPrimes euclidGCD 16 65537 3 [251, 241]
      = (some { priKey := some { PublicKey := { N := 60491, E := 65537 }, D := 33473,
                                 Primes := [251, 241] },
                err := none }, []) ∧
    (RsaPrivate.mk (some (PrivateKey.mk (PublicKey.mk 60491 65537) 33473 [251, 241]))
        none).GetNBytes = .ok (some [236, 75]) ∧
    ∃ key, (RsaPrivate.mk (some (PrivateKey.mk (PublicKey.mk 60491 65537) 33473 [251, 241]))
        none).priKey = some key ∧
      (BitLen key.PublicKey.N : Int) = 16 ∧
      (∃ nb, (RsaPrivate.mk (some (PrivateKey.mk (PublicKey.mk 60491 65537) 33473 [251, 241]))
          none).GetNBytes = .ok (some nb) ∧ (nb.length : Int) = 16 / 8) ∧
      (BitLen key.PublicKey.N : Int) / 8 - 11 = 16 / 8 - 11 ∧
      (BitLen key.PublicKey.N : Int) / 8 = 16 / 8 ∧
      key.PublicKey.Size = 16 / 8 :=
  ⟨by decide, by decide,
    C15_generated_modulus_size toyPrimes euclidGCD 16 65537 3 [251, 241] []
      (RsaPrivate.mk (some (PrivateKey.mk (PublicKey.mk 60491 65537) 33473 [251, 241])) none)
      (by decide) (by decide) rfl⟩

/-- C14, as stated, fails: `NewRsaPublic` has no error result at all and
returns an instance for the 1-byte modulus 1, and `NewRsaPrivate 16 65537`,
given the 8-bit primes 251 and 241, returns an instance whose `HasError` is
`(nil, false)` although its modulus has 2 bytes, 11 or fewer. -/
theorem C14_counterexample_small_modulus :
    NewRsaPublic [1] 3 = { pubKey := { N := 1, E := 3 } } ∧
    (BitLen (NewRsaPublic [1] 3).pubKey.N : Int) / 8 - 11 ≤ 0 ∧
    (NewRsaPublic [1] 3).pubKey.Size - 11 ≤ 0 ∧
    (∃ inst key, NewRsaPrivate toyPrimes euclidGCD 16 65537 3 [251, 241] = (some inst, []) ∧
      inst.HasError = (none, false) ∧ inst.priKey = some key ∧
      (BitLen key.PublicKey.N : Int) / 8 - 11 ≤ 0 ∧ key.PublicKey.Size - 11 ≤ 0) := by
  refine ⟨by decide, by decide, by decide,
    RsaPrivate.mk (some (PrivateKey.mk (PublicKey.mk 60491 65537) 33473 [251, 241])) none,
    PrivateKey.mk (PublicKey.mk 60491 65537) 33473 [251, 241], by decide, by decide, rfl,
    by decide, by decide⟩

/-- C14, amended: a modulus with `keySizeBytes - 11 ≤ 0` does not make
construction fail; instead every `PublicEncryptPkcs1v15` on an instance with
such a modulus, built by `NewRsaPublic` or held by an `RsaPrivate` without
error, returns the key-size error for every data and calls no block
encryption, so no instance encrypts with `keySizeBytes - 11 ≤ 0`. -/
theorem C14_small_modulus_fails_at_use {σ : Type} (E : BlockPrimitive PublicKey σ)
    (n : Bytes) (e : Int) (p : RsaPrivate) (key : PrivateKey) (data : Bytes) (rand : σ)
    (tr : List Bytes) :
    ((BitLen (SetBytes n) : Int) / 8 - 11 ≤ 0 ∨ (NewRsaPublic n e).pubKey.Size - 11 ≤ 0 →
      (NewRsaPublic n e).PublicEncryptPkcs1v15 (traced E) data (rand, tr)
        = (some (.error (.err .errRsaPublicKeySize)), (rand, tr))) ∧
    (p.err = none → p.priKey = some key →
      ((BitLen key.PublicKey.N : Int) / 8 - 11 ≤ 0 ∨ key.PublicKey.Size - 11 ≤ 0) →
      p.PublicEncryptPkcs1v15 (traced E) data (rand, tr)
        = (some (.error (.err .errRsaPublicKeySize)), (rand, tr))) := by
  have hsmall : ∀ pub : PublicKey,
      ((BitLen pub.N : Int) / 8 - 11 ≤ 0 ∨ pub.Size - 11 ≤ 0) →
      publicEncryptPkcs1v15 (traced E) pub data (rand, tr)
        = (some (.error (.err .errRsaPublicKeySize)), (rand, tr)) := by
    intro pub h
    have hbad : (BitLen pub.N : Int) / 8 - 11 ≤ 0 := by
      rcases h with h | h
      · exact h
      · unfold PublicKey.Size at h
        omega
    simp only [publicEncryptPkcs1v15, if_pos hbad]
  constructor
  · intro h
    exact hsmall (NewRsaPublic n e).pubKey h
  · intro herr hkey h
    simp only [RsaPrivate.PublicEncryptPkcs1v15, herr, hkey]
    exact hsmall key.PublicKey h

theorem C14_small_modulus_fails_at_use_witness :
    (NewRsaPublic [1] 3).PublicEncryptPkcs1v15 (traced (toyEncrypt 12)) [7, 8] ((), [])
      = (some (.error (.err .errRsaPublicKeySize)), ((), [])) ∧
    (RsaPrivate.mk (some (PrivateKey.mk (PublicKey.mk 60491 65537) 33473 [251, 241]))
        none).PublicEncryptPkcs1v15 (traced (toyEncrypt 12)) [7, 8] ((), [])
      = (some (.error (.err .errRsaPublicKeySize)), ((), [])) :=
  ⟨(C14_small_modulus_fails_at_use (toyEncrypt 12) [1] 3
      (RsaPrivate.mk (some (PrivateKey.mk (PublicKey.mk 60491 65537) 33473 [251, 241])) none)
      (PrivateKey.mk (PublicKey.mk 60491 65537) 33473 [251, 241]) [7, 8] () []).1
      (Or.inl (by decide)),
    (C14_small_modulus_fails_at_use (toyEncrypt 12) [1] 3
      (RsaPrivate.mk (some (PrivateKey.mk (PublicKey.mk 60491 65537) 33473 [251, 241])) none)
      (PrivateKey.mk (PublicKey.mk 60491 65537) 33473 [251, 241]) [7, 8] () []).2
      rfl rfl (Or.inl (by decide))⟩

/-! ## Lemmas on the block-mode wrappers -/

theorem copyBytes_same_length (dst src : Bytes) (h : dst.length = src.length) :
    copyBytes dst src = src := by
  unfold copyBytes
  rw [h, List.take_length, ← h, List.drop_length, List.append_nil]

/-- With a block size from 1 to 255, `Unpad` undoes `Pad`. -/
theorem Unpad_Pad_small (b : Int) (x : Bytes) (hb : 1 ≤ b) (hb255 : b ≤ 255) :
    ∃ y, (NewPkcs7Padding b).Pad x = .ok y ∧ (NewPkcs7Padding b).Unpad y = .ok x ∧
      (y.length : Int) = x.length + (b - (x.length : Int) % b) := by
  obtain ⟨_, h2, h3⟩ := paddingSize_bounds b x.length hb
  obtain ⟨y, hpad, hunpad, hlen⟩ := Unpad_Pad b x hb
  have hval := toByte_val (b - (x.length : Int) % b)
  have hy : y = x ++ List.replicate (b - (x.length : Int) % b).toNat
      (toByte (b - (x.length : Int) % b)) := by
    have := Pad_eq b x hb
    rw [hpad] at this
    exact Except.ok.inj this
  refine ⟨y, hpad, ?_, by omega⟩
  rw [hunpad]
  have hcut : y.length - (toByte (b - (x.length : Int) % b)).val = x.length := by omega
  rw [hcut, hy, List.take_left']
  rfl

theorem CryptBlocks_full {μ : Type} (m : BlockMode μ) (dst src : Bytes)
    (hsize : m.blockSize = 16) (hsrc : (src.length : Int) % 16 = 0)
    (hdst : dst.length = src.length)
    (hout : (m.crypt m.state src).1.length = src.length) :
    m.CryptBlocks dst src
      = .ok ((m.crypt m.state src).1, { m with state := (m.crypt m.state src).2 }) := by
  have hmod : Int.tmod (src.length : Int) 16 = 0 := by
    rw [Int.tmod_eq_emod (by omega) (by decide)]
    exact hsrc
  have h1 : ¬ (m.blockSize = 0 ∨ Int.tmod (src.length : Int) m.blockSize ≠ 0) := by
    rw [hsize]
    simp [hmod]
  have h2 : ¬ (dst.length < src.length) := by omega
  unfold BlockMode.CryptBlocks
  rw [if_neg h1, if_neg h2, copyBytes_same_length dst _ (by rw [hdst, hout])]

/-- C18: a decrypter without error whose block mode has block size 16 returns
the block-alignment error, and no buffer, for every `src` whose length is not
a multiple of 16; the instance is returned as it was (the state of the block
mode has not moved), whatever its block transformation and its padding are,
even a nil padding: neither is run.  This covers the decrypter that
`NewAesCbcDecrypter` builds from a key the library accepts and a 16-byte IV. -/
theorem C18_decrypt_block_alignment {β μ ς : Type} (d : AesBlockModeDecrypter μ)
    (m : BlockMode μ) (lib : CipherLibrary β μ ς) (key iv : Bytes) (padding : Padding)
    (block : β) (src : Bytes) (hlen : (src.length : Int) % 16 ≠ 0) :
    (d.err = none → d.blockMode = some m → m.BlockSize = 16 →
      d.Decrypt src = (.error (.err .errAesSrcSizeMustBeMultipleOfBlockSize), d)) ∧
    (iv.length = 16 → lib.NewCipher key = .ok block →
      (lib.NewCBCDecrypter block iv).BlockSize = 16 →
      (NewAesCbcDecrypter lib key iv padding).HasError = (none, false) ∧
      (NewAesCbcDecrypter lib key iv padding).Decrypt src
        = (.error (.err .errAesSrcSizeMustBeMultipleOfBlockSize),
            NewAesCbcDecrypter lib key iv padding)) := by
  have hgen : ∀ (d : AesBlockModeDecrypter μ) (m : BlockMode μ), d.err = none →
      d.blockMode = some m → m.BlockSize = 16 →
      d.Decrypt src = (.error (.err .errAesSrcSizeMustBeMultipleOfBlockSize), d) := by
    intro d m herr hmode hsize
    have hmod : Int.tmod (src.length : Int) 16 ≠ 0 := by
      rw [Int.tmod_eq_emod (by omega) (by decide)]
      exact hlen
    simp only [AesBlockModeDecrypter.Decrypt, herr, hmode, hsize, goMod]
    rw [if_neg (by decide)]
    simp only [if_pos hmod]
  refine ⟨hgen d m, ?_⟩
  intro hiv hkey hsize
  have hcheck : checkKeyIv lib key iv = .ok block := by
    unfold checkKeyIv AesIvSize
    rw [if_neg (by omega), hkey]
  have hd : NewAesCbcDecrypter lib key iv padding
      = newAesBlockModeDecrypter (some (lib.NewCBCDecrypter block iv)) (some padding) none := by
    unfold NewAesCbcDecrypter
    rw [hcheck]
  rw [hd]
  exact ⟨rfl, hgen _ (lib.NewCBCDecrypter block iv) rfl rfl hsize⟩

theorem C18_decrypt_block_alignment_witness :
    (NewAesCbcDecrypter toyCipherLibrary (List.replicate 32 1) (List.replicate 16 2)
        (NewPkcs7Padding 16).toPadding).HasError = (none, false) ∧
    (NewAesCbcDecrypter toyCipherLibrary (List.replicate 32 1) (List.replicate 16 2)
        (NewPkcs7Padding 16).toPadding).Decrypt [1, 2, 3]
      = (.error (.err .errAesSrcSizeMustBeMultipleOfBlockSize),
          NewAesCbcDecrypter toyCipherLibrary (List.replicate 32 1) (List.replicate 16 2)
            (NewPkcs7Padding 16).toPadding) :=
  (C18_decrypt_block_alignment
    (NewAesCbcDecrypter toyCipherLibrary (List.replicate 32 1) (List.replicate 16 2)
      (NewPkcs7Padding 16).toPadding)
    (toyCipherLibrary.NewCBCDecrypter () (List.replicate 16 2))
    toyCipherLibrary (List.replicate 32 1) (List.replicate 16 2) (NewPkcs7Padding 16).toPadding
    () [1, 2, 3] (by decide)).2 (by decide) (by decide) rfl

/-- C19: with a key the library accepts, a 16-byte IV and PKCS#7 padding of
block size 16, when both CBC modes have block size 16 and the fresh
decrypting mode turns back every full-block buffer that the fresh encrypting
mode produces, of the same length as its input, then for every plaintext `x`
`Encrypt x` succeeds with `len x + 16 - len x mod 16` bytes, a multiple of 16,
and `Decrypt` of it succeeds and returns `x`: no call panics, so the cipher is
only given full blocks. -/
theorem C19_cbc_roundtrip {β μ ς : Type} (lib : CipherLibrary β μ ς) (key iv : Bytes)
    (block : β) (x : Bytes)
    (hiv : iv.length = 16) (hkey : lib.NewCipher key = .ok block)
    (hencSize : (lib.NewCBCEncrypter block iv).BlockSize = 16)
    (hdecSize : (lib.NewCBCDecrypter block iv).BlockSize = 16)
    (hinv : ∀ buf : Bytes, (buf.length : Int) % 16 = 0 →
      (((lib.NewCBCEncrypter block iv).crypt (lib.NewCBCEncrypter block iv).state buf).1).length
        = buf.length ∧
      ((lib.NewCBCDecrypter block iv).crypt (lib.NewCBCDecrypter block iv).state
        ((lib.NewCBCEncrypter block iv).crypt (lib.NewCBCEncrypter block iv).state buf).1).1
        = buf) :
    ∃ ct : Bytes,
      ((NewAesCbcEncrypter lib key iv (NewPkcs7Padding 16).toPadding).Encrypt x).1 = .ok ct ∧
      (ct.length : Int) = x.length + 16 - (x.length : Int) % 16 ∧
      (ct.length : Int) % 16 = 0 ∧
      ((NewAesCbcDecrypter lib key iv (NewPkcs7Padding 16).toPadding).Decrypt ct).1 = .ok x := by
  have hcheck : checkKeyIv lib key iv = .ok block := by
    unfold checkKeyIv AesIvSize
    rw [if_neg (by omega), hkey]
  obtain ⟨buf, hpad, hunpad, hbuflen⟩ := Unpad_Pad_small 16 x (by decide) (by decide)
  have hfull : (buf.length : Int) % 16 = 0 := by omega
  obtain ⟨hclen, hback⟩ := hinv buf hfull
  generalize hme : lib.NewCBCEncrypter block iv = me at *
  generalize hmd : lib.NewCBCDecrypter block iv = md at *
  have hct : ((me.crypt me.state buf).1.length : Int) % 16 = 0 := by rw [hclen]; exact hfull
  have henc := CryptBlocks_full me buf buf hencSize hfull rfl hclen
  have hdec := CryptBlocks_full md (List.replicate (me.crypt me.state buf).1.length 0)
    (me.crypt me.state buf).1 hdecSize hct (by simp) (by rw [hback, hclen])
  have hmod : Int.tmod ((me.crypt me.state buf).1.length : Int) 16 = 0 := by
    rw [Int.tmod_eq_emod (by omega) (by decide)]
    exact hct
  refine ⟨(me.crypt me.state buf).1, ?_, by rw [hclen]; omega, hct, ?_⟩
  · simp only [NewAesCbcEncrypter, hcheck, hme, newAesBlockModeEncrypter,
      AesBlockModeEncrypter.Encrypt, Pkcs7Padding.toPadding, hpad, henc]
  · have hmake : makeBytes ((me.crypt me.state buf).1.length : Int)
        = .ok (List.replicate (me.crypt me.state buf).1.length 0) := by
      unfold makeBytes
      rw [if_neg (by omega), Int.toNat_ofNat]
    have hsize : md.BlockSize = 16 := hdecSize
    simp only [NewAesCbcDecrypter, hcheck, hmd, newAesBlockModeDecrypter,
      AesBlockModeDecrypter.Decrypt, Pkcs7Padding.toPadding, goMod, hsize, hmod]
    rw [if_neg (by decide)]
    simp only [ne_eq, not_true_eq_false, if_false, hmake, hdec, hback, hunpad]

theorem toyCipherLibrary_inverse (iv buf : Bytes) :
    (((toyCipherLibrary.NewCBCEncrypter () iv).crypt
        (toyCipherLibrary.NewCBCEncrypter () iv).state buf).1).length = buf.length ∧
    ((toyCipherLibrary.NewCBCDecrypter () iv).crypt (toyCipherLibrary.NewCBCDecrypter () iv).state
      ((toyCipherLibrary.NewCBCEncrypter () iv).crypt
        (toyCipherLibrary.NewCBCEncrypter () iv).state buf).1).1 = buf := by
  simp only [toyCipherLibrary, List.length_map, List.map_map, true_and]
  have hfun : ((fun x : Byte => x - 1) ∘ fun x : Byte => x + 1) = id := by
    funext x
    simp
  rw [hfun, List.map_id]

theorem C19_cbc_roundtrip_witness :
    toyPlaintext.length = 27 ∧
    ((NewAesCbcEncrypter toyCipherLibrary (List.replicate 32 49) (List.replicate 16 50)
        (NewPkcs7Padding 16).toPadding).Encrypt toyPlaintext).1.map List.length = .ok 32 ∧
    ∃ ct : Bytes,
      ((NewAesCbcEncrypter toyCipherLibrary (List.replicate 32 49) (List.replicate 16 50)
        (NewPkcs7Padding 16).toPadding).Encrypt toyPlaintext).1 = .ok ct ∧
      (ct.length : Int) = toyPlaintext.length + 16 - (toyPlaintext.length : Int) % 16 ∧
      (ct.length : Int) % 16 = 0 ∧
      ((NewAesCbcDecrypter toyCipherLibrary (List.replicate 32 49) (List.replicate 16 50)
        (NewPkcs7Padding 16).toPadding).Decrypt ct).1 = .ok toyPlaintext :=
  ⟨by decide, by decide,
    C19_cbc_roundtrip toyCipherLibrary (List.replicate 32 49) (List.replicate 16 50) ()
      toyPlaintext (by decide) (by decide) rfl rfl
      (fun buf _ => toyCipherLibrary_inverse (List.replicate 16 50) buf)⟩

/-- A wrong IV length makes `checkKeyIv` return the IV-length error, whatever
the key: `aes.NewCipher` is not called. -/
theorem checkKeyIv_bad_iv {β μ ς : Type} (lib : CipherLibrary β μ ς) (key iv : Bytes)
    (hiv : iv.length ≠ 16) :
    checkKeyIv lib key iv = .error .errAesIvLenMustBeBlockSize := by
  unfold checkKeyIv AesIvSize
  rw [if_pos (by omega)]

/-- C13: `NewRsaPrivate` with `bits` not a multiple of 8 stores the key-size
error and generates no key, and each of the six AES constructors given an IV
whose length is not 16 stores the IV-length error and no cipher or padding,
whatever the key; on every instance with a stored error `HasError` returns
that error and `true`, every operation returns that error and no buffer for
every input, leaves the instance and the random source as they were and
records no call of a block primitive, and `GetNBytes` returns nil. -/
theorem C13_stored_error_is_replayed {ρ σ β μ ς : Type} (Prime : PrimeSource ρ)
    (GCD : GCDFunction) (E : BlockPrimitive PublicKey σ) (D : BlockPrimitive PrivateKey σ)
    (lib : CipherLibrary β μ ς) :
    (∀ (bits e : Int) (fuel : Nat) (rand : ρ), Int.tmod bits 8 ≠ 0 →
      NewRsaPrivate Prime GCD bits e fuel rand
        = (some { priKey := none, err := some .errRsaPublicKeySize }, rand)) ∧
    (∀ (key iv : Bytes) (padding : Padding), iv.length ≠ 16 →
      NewAesCbcEncrypter lib key iv padding
        = { blockMode := none, padding := none, err := some .errAesIvLenMustBeBlockSize } ∧
      NewAesCbcDecrypter lib key iv padding
        = { blockMode := none, padding := none, err := some .errAesIvLenMustBeBlockSize } ∧
      NewAesCfbEncrypter lib key iv
        = { stream := none, err := some .errAesIvLenMustBeBlockSize } ∧
      NewAesCfbDecrypter lib key iv
        = { stream := none, err := some .errAesIvLenMustBeBlockSize } ∧
      NewAesOfb lib key iv = { stream := none, err := some .errAesIvLenMustBeBlockSize } ∧
      NewAesCtr lib key iv = { stream := none, err := some .errAesIvLenMustBeBlockSize }) ∧
    (∀ (p : RsaPrivate) (err : Error), p.err = some err →
      p.HasError = (some err, true) ∧
      (∀ (data : Bytes) (rand : σ) (tr : List Bytes),
        p.PublicEncryptPkcs1v15 (traced E) data (rand, tr)
          = (some (.error (.err err)), (rand, tr))) ∧
      (∀ (data : Bytes) (rand : σ) (tr : List Bytes),
        p.PrivateDecryptPkcs1v15 (traced D) data (rand, tr)
          = (some (.error (.err err)), (rand, tr))) ∧
      p.GetNBytes = .ok none) ∧
    (∀ (e : AesBlockModeEncrypter μ) (err : Error), e.err = some err →
      e.HasError = (some err, true) ∧ ∀ src, e.Encrypt src = (.error (.err err), e)) ∧
    (∀ (d : AesBlockModeDecrypter μ) (err : Error), d.err = some err →
      d.HasError = (some err, true) ∧ ∀ src, d.Decrypt src = (.error (.err err), d)) ∧
    (∀ (s : AesStream ς) (err : Error), s.err = some err →
      s.HasError = (some err, true) ∧ ∀ src, s.Crypt src = (.error (.err err), s)) := by
  refine ⟨?_, ?_, ?_, ?_, ?_, ?_⟩
  · intro bits e fuel rand hbits
    unfold NewRsaPrivate
    rw [if_pos hbits]
  · intro key iv padding hiv
    have h := checkKeyIv_bad_iv lib key iv hiv
    refine ⟨?_, ?_, ?_, ?_, ?_, ?_⟩
    · simp only [NewAesCbcEncrypter, h, newAesBlockModeEncrypter]
    · simp only [NewAesCbcDecrypter, h, newAesBlockModeDecrypter]
    · simp only [NewAesCfbEncrypter, h, newAesStream]
    · simp only [NewAesCfbDecrypter, h, newAesStream]
    · simp only [NewAesOfb, h, newAesStream]
    · simp only [NewAesCtr, h, newAesStream]
  · intro p err herr
    refine ⟨?_, ?_, ?_, ?_⟩
    · simp [RsaPrivate.HasError, herr]
    · intro data rand tr
      simp only [RsaPrivate.PublicEncryptPkcs1v15, herr]
    · intro data rand tr
      simp only [RsaPrivate.PrivateDecryptPkcs1v15, herr]
    · simp only [RsaPrivate.GetNBytes, herr]
  · intro e err herr
    refine ⟨by simp [AesBlockModeEncrypter.HasError, herr], fun src => ?_⟩
    simp only [AesBlockModeEncrypter.Encrypt, herr]
  · intro d err herr
    refine ⟨by simp [AesBlockModeDecrypter.HasError, herr], fun src => ?_⟩
    simp only [AesBlockModeDecrypter.Decrypt, herr]
  · intro s err herr
    refine ⟨by simp [AesStream.HasError, herr], fun src => ?_⟩
    simp only [AesStream.Crypt, herr]

theorem C13_stored_error_is_replayed_witness :
    NewRsaPrivate toyPrimes euclidGCD 1023 65537 3 [251, 241]
      = (some { priKey := none, err := some .errRsaPublicKeySize }, [251, 241]) ∧
    (RsaPrivate.mk none (some .errRsaPublicKeySize)).HasError
      = (some .errRsaPublicKeySize, true) ∧
    (RsaPrivate.mk none (some .errRsaPublicKeySize)).PublicEncryptPkcs1v15
        (traced (toyEncrypt 128)) [7, 8] ((), [])
      = (some (.error (.err .errRsaPublicKeySize)), ((), [])) ∧
    (RsaPrivate.mk none (some .errRsaPublicKeySize)).GetNBytes = .ok none ∧
    (NewAesCbcEncrypter toyCipherLibrary (List.replicate 32 49) [1, 2, 3]
        (NewPkcs7Padding 16).toPadding).HasError = (some .errAesIvLenMustBeBlockSize, true) ∧
    ((NewAesCbcEncrypter toyCipherLibrary (List.replicate 32 49) [1, 2, 3]
        (NewPkcs7Padding 16).toPadding).Encrypt [7, 8]).1
      = .error (.err .errAesIvLenMustBeBlockSize) ∧
    ((NewAesCtr toyCipherLibrary (List.replicate 32 49) [1, 2, 3]).Crypt [7, 8]).1
      = .error (.err .errAesIvLenMustBeBlockSize) :=
  ⟨(C13_stored_error_is_replayed toyPrimes euclidGCD (toyEncrypt 128) toyDecrypt
      toyCipherLibrary).1 1023 65537 3 [251, 241] (by decide),
    ((C13_stored_error_is_replayed toyPrimes euclidGCD (toyEncrypt 128) toyDecrypt
      toyCipherLibrary).2.2.1 (RsaPrivate.mk none (some .errRsaPublicKeySize))
        .errRsaPublicKeySize rfl).1,
    ((C13_stored_error_is_replayed toyPrimes euclidGCD (toyEncrypt 128) toyDecrypt
      toyCipherLibrary).2.2.1 (RsaPrivate.mk none (some .errRsaPublicKeySize))
        .errRsaPublicKeySize rfl).2.1 [7, 8] () [],
    ((C13_stored_error_is_replayed toyPrimes euclidGCD (toyEncrypt 128) toyDecrypt
      toyCipherLibrary).2.2.1 (RsaPrivate.mk none (some .errRsaPublicKeySize))
        .errRsaPublicKeySize rfl).2.2.2,
    by decide, by decide, by decide⟩

/-! ## Lemmas on the storage of slices -/

theorem heap_array_append_left (h : Heap) (arr : List Byte) (a : Nat) (ha : a < h.length) :
    Heap.array (h ++ [arr]) a = Heap.array h a := by
  simp [Heap.array, List.getD_eq_getElem?_getD, List.getElem?_append_left ha]

theorem heap_array_append_right (h : Heap) (arr : List Byte) :
    Heap.array (h ++ [arr]) h.length = arr := by
  simp [Heap.array, List.getD_eq_getElem?_getD]

theorem heap_set_last (h : Heap) (arr arr1 : List Byte) :
    (h ++ [arr]).set h.length arr1 = h ++ [arr1] := by
  simp

/-- An assignment through a slice that covers the whole last array of the
heap is the assignment on that array; the other arrays stay. -/
theorem heap_setIndex_last (h : Heap) (arr : List Byte) (result : Slice) (i : Int) (v : Byte)
    (harr : result.array = h.length) (hoff : result.off = 0) (hlen : result.len = arr.length) :
    Heap.setIndex (h ++ [arr]) result i v
      = match Crypt.setIndex arr i v with
        | .ok arr1 => .ok (h ++ [arr1])
        | .error f => .error f := by
  unfold Heap.setIndex Crypt.setIndex
  rw [harr, hoff, hlen, heap_array_append_right, heap_set_last, Nat.zero_add]
  by_cases hc : 0 ≤ i ∧ i < (arr.length : Int)
  · rw [if_pos hc, if_pos hc]
  · rw [if_neg hc, if_neg hc]

theorem padLoopHeap_last (h : Heap) (result : Slice) (lenBuf paddingSize : Int)
    (harr : result.array = h.length) (hoff : result.off = 0) :
    ∀ (is : List Nat) (arr : List Byte), result.len = arr.length →
      padLoopHeap result lenBuf paddingSize is (h ++ [arr])
        = match padLoop lenBuf paddingSize is arr with
          | .ok arr1 => .ok (h ++ [arr1])
          | .error f => .error f := by
  intro is
  induction is with
  | nil => intro arr _; rfl
  | cons i is ih =>
    intro arr hlen
    unfold padLoopHeap padLoop
    rw [heap_setIndex_last h arr result _ _ harr hoff hlen]
    by_cases hc : 0 ≤ (lenBuf + (i : Int)) ∧ (lenBuf + (i : Int)) < (arr.length : Int)
    · have hset : Crypt.setIndex arr (lenBuf + (i : Int)) (toByte paddingSize)
          = .ok (arr.set (lenBuf + (i : Int)).toNat (toByte paddingSize)) := by
        unfold Crypt.setIndex
        rw [if_pos hc]
      rw [hset]
      exact ih _ (by rw [List.length_set]; exact hlen)
    · have hset : Crypt.setIndex arr (lenBuf + (i : Int)) (toByte paddingSize)
          = .error (.panic .indexOutOfRange) := by
        unfold Crypt.setIndex
        rw [if_neg hc]
      rw [hset]

/-- On a slice that lies within an array of the heap, `Pad` on the heap
returns a slice over a new array, appended to the heap, that holds what `Pad`
returns on the bytes of the slice. -/
theorem PadHeap_eq (b : Int) (h : Heap) (buf : Slice) (hb : 1 ≤ b)
    (harr : buf.array < h.length)
    (hin : buf.off + buf.len ≤ (h.array buf.array).length) :
    ∃ y, (NewPkcs7Padding b).Pad (h.read buf) = .ok y ∧
      (NewPkcs7Padding b).PadHeap h buf
        = .ok ({ array := h.length, off := 0, len := y.length, cap := y.length }, h ++ [y]) := by
  have hrd : (h.read buf).length = buf.len := by
    unfold Heap.read
    rw [List.length_take, List.length_drop]
    omega
  obtain ⟨h1, h2, h3⟩ := paddingSize_bounds b buf.len hb
  have hpad := Pad_eq b (h.read buf) hb
  rw [hrd] at hpad
  refine ⟨_, hpad, ?_⟩
  have hb0 : b ≠ 0 := by omega
  have hneg : ¬ ((buf.len : Int) + (b - (buf.len : Int) % b) < 0) := by omega
  have htoNat : ((buf.len : Int) + (b - (buf.len : Int) % b)).toNat
      = buf.len + (b - (buf.len : Int) % b).toNat := by omega
  have hcopy : Heap.copy (h ++ [List.replicate (buf.len + (b - (buf.len : Int) % b).toNat) 0])
      { array := h.length, off := 0, len := buf.len + (b - (buf.len : Int) % b).toNat,
        cap := buf.len + (b - (buf.len : Int) % b).toNat } buf
      = h ++ [h.read buf ++ List.replicate (b - (buf.len : Int) % b).toNat 0] := by
    have hread : Heap.read (h ++ [List.replicate (buf.len + (b - (buf.len : Int) % b).toNat) 0])
        buf = h.read buf := by
      unfold Heap.read
      rw [heap_array_append_left h _ _ harr]
    unfold Heap.copy Heap.write
    simp only [hread, heap_array_append_right, heap_set_last, List.take_zero, List.nil_append,
      Nat.zero_add]
    rw [List.take_of_length_le (by omega), hrd, List.drop_replicate]
    simp
  have hloop := padLoop_range (buf.len : Nat) (b - (buf.len : Int) % b)
    (b - (buf.len : Int) % b).toNat 0 (h.read buf)
    (List.replicate (b - (buf.len : Int) % b).toNat 0) (by rw [hrd]; rfl) (by simp)
  have hloopHeap := padLoopHeap_last h
    { array := h.length, off := 0, len := buf.len + (b - (buf.len : Int) % b).toNat,
      cap := buf.len + (b - (buf.len : Int) % b).toNat }
    (buf.len : Int) (b - (buf.len : Int) % b) rfl rfl
    (List.range' 0 (b - (buf.len : Int) % b).toNat)
    (h.read buf ++ List.replicate (b - (buf.len : Int) % b).toNat 0)
    (by simp [hrd])
  rw [hloop] at hloopHeap
  simp only [Pkcs7Padding.PadHeap, NewPkcs7Padding, goMod, hb0, if_false, h1, Heap.make, hneg,
    htoNat, hcopy, List.range_eq_range', hloopHeap]
  simp [hrd]

/-- C17: for every block size `b ≥ 1` and every input slice that lies within
an array of the heap, `Pad` leaves every array that existed before the call
as it was, so every byte of the input slice and every byte of its backing
array beyond its length; the returned slice is over an array allocated by the
call, not the input's one, and holds what `Pad` returns on the input bytes. -/
theorem C17_pad_leaves_input_storage (b : Int) (h : Heap) (buf : Slice) (hb : 1 ≤ b)
    (harr : buf.array < h.length)
    (hin : buf.off + buf.len ≤ (h.array buf.array).length) :
    ∃ (result : Slice) (h1 : Heap),
      (NewPkcs7Padding b).PadHeap h buf = .ok (result, h1) ∧
      (∀ a, a < h.length → h1.array a = h.array a) ∧
      h1.array buf.array = h.array buf.array ∧
      h1.read buf = h.read buf ∧
      result.array ≠ buf.array ∧ h.length ≤ result.array ∧ result.array < h1.length ∧
      (NewPkcs7Padding b).Pad (h.read buf) = .ok (h1.read result) := by
  obtain ⟨y, hpad, hheap⟩ := PadHeap_eq b h buf hb harr hin
  refine ⟨_, _, hheap, fun a ha => heap_array_append_left h y a ha,
    heap_array_append_left h y _ harr, ?_, ?_, le_refl _, by simp, ?_⟩
  · unfold Heap.read
    rw [heap_array_append_left h y _ harr]
  · show h.length ≠ buf.array
    omega
  · rw [hpad]
    unfold Heap.read
    simp only [heap_array_append_right, List.drop_zero, List.take_length]

theorem C17_pad_leaves_input_storage_witness :
    (NewPkcs7Padding 5).PadHeap [[1, 2, 3, 0, 0, 0]] ⟨0, 0, 3, 6⟩
      = .ok (⟨1, 0, 5, 5⟩, [[1, 2, 3, 0, 0, 0], [1, 2, 3, 2, 2]]) ∧
    ∃ (result : Slice) (h1 : Heap),
      (NewPkcs7Padding 5).PadHeap [[1, 2, 3, 0, 0, 0]] ⟨0, 0, 3, 6⟩ = .ok (result, h1) ∧
      (∀ a, a < ([[1, 2, 3, 0, 0, 0]] : Heap).length →
        h1.array a = Heap.array [[1, 2, 3, 0, 0, 0]] a) ∧
      h1.array (Slice.mk 0 0 3 6).array
        = Heap.array [[1, 2, 3, 0, 0, 0]] (Slice.mk 0 0 3 6).array ∧
      h1.read ⟨0, 0, 3, 6⟩ = Heap.read [[1, 2, 3, 0, 0, 0]] ⟨0, 0, 3, 6⟩ ∧
      result.array ≠ (Slice.mk 0 0 3 6).array ∧
      ([[1, 2, 3, 0, 0, 0]] : Heap).length ≤ result.array ∧ result.array < h1.length ∧
      (NewPkcs7Padding 5).Pad (Heap.read [[1, 2, 3, 0, 0, 0]] ⟨0, 0, 3, 6⟩)
        = .ok (h1.read result) :=
  ⟨by decide,
    C17_pad_leaves_input_storage 5 [[1, 2, 3, 0, 0, 0]] ⟨0, 0, 3, 6⟩ (by decide) (by decide)
      (by decide)⟩

/-! ## A padding size of zero -/

/-- The last byte of what `Pad` returns, for a positive block size, is
`byte(paddingSize)`. -/
theorem Pad_getLast (b : Int) (x y : Bytes) (hb : 1 ≤ b)
    (hpad : (NewPkcs7Padding b).Pad x = .ok y) :
    y.getLast? = some (toByte (b - (x.length : Int) % b)) := by
  obtain ⟨_, h2, _⟩ := paddingSize_bounds b x.length hb
  rw [Pad_eq b x hb] at hpad
  rw [← Except.ok.inj hpad]
  obtain ⟨m, hm⟩ : ∃ m, (b - (x.length : Int) % b).toNat = m + 1 :=
    ⟨(b - (x.length : Int) % b).toNat - 1, by omega⟩
  rw [hm, List.replicate_succ', ← List.append_assoc, List.getLast?_concat]

/-- C21: `Unpad` returns, whole and without error, every buffer whose last
byte is 0, whatever the block size; yet for a block size from 1 to 255 the
last byte of what `Pad` returns is the padding size, which is at least 1, so
it is never 0. -/
theorem C21_unpad_accepts_zero_padding (p : Pkcs7Padding) (buf : Bytes) (b : Int)
    (x y : Bytes) :
    (buf.getLast? = some 0 → p.Unpad buf = .ok buf) ∧
    (1 ≤ b → b ≤ 255 → (NewPkcs7Padding b).Pad x = .ok y →
      y.getLast? ≠ some 0 ∧
      ∃ v : Byte, y.getLast? = some v ∧ (v.val : Int) = b - (x.length : Int) % b ∧
        1 ≤ v.val) := by
  constructor
  · intro hlast
    have hends : EndsInPadding buf 0 := by
      refine ⟨Nat.zero_le _, ?_⟩
      intro c hc
      have hzero : ((0 : Byte).val) = 0 := rfl
      rw [hzero, Nat.sub_zero, List.drop_length] at hc
      cases hc
    rw [Unpad_last p buf 0 hlast, if_pos hends]
    have hzero : ((0 : Byte).val) = 0 := rfl
    rw [hzero, Nat.sub_zero, List.take_length]
  · intro hb hb255 hpad
    obtain ⟨_, h2, h3⟩ := paddingSize_bounds b x.length hb
    have hlast := Pad_getLast b x y hb hpad
    have hval := toByte_val (b - (x.length : Int) % b)
    have hv : ((toByte (b - (x.length : Int) % b)).val : Int) = b - (x.length : Int) % b := by
      omega
    refine ⟨?_, _, hlast, hv, by omega⟩
    rw [hlast]
    intro h
    have h0 := congrArg (fun v : Byte => (v.val : Int)) (Option.some.inj h)
    simp only at h0
    rw [hv] at h0
    have hzero : (((0 : Byte).val : Nat) : Int) = 0 := rfl
    omega

theorem C21_unpad_accepts_zero_padding_witness :
    (NewPkcs7Padding 5).Unpad [1, 2, 0] = .ok [1, 2, 0] ∧
    (NewPkcs7Padding 5).Pad [1, 2, 3] = .ok [1, 2, 3, 2, 2] ∧
    (([1, 2, 3, 2, 2] : Bytes).getLast? ≠ some 0 ∧
      ∃ v : Byte, ([1, 2, 3, 2, 2] : Bytes).getLast? = some v ∧
        (v.val : Int) = 5 - (([1, 2, 3] : Bytes).length : Int) % 5 ∧ 1 ≤ v.val) :=
  ⟨(C21_unpad_accepts_zero_padding (NewPkcs7Padding 5) [1, 2, 0] 5 [1, 2, 3]
      [1, 2, 3, 2, 2]).1 (by decide),
    by decide,
    (C21_unpad_accepts_zero_padding (NewPkcs7Padding 5) [1, 2, 0] 5 [1, 2, 3]
      [1, 2, 3, 2, 2]).2 (by decide) (by decide) (by decide)⟩

/-! ## Lemmas on an even public exponent -/

/-- Every common divisor of the two operands divides what `euclidAux` returns,
whatever the fuel. -/
theorem euclidAux_dvd (d : Int) :
    ∀ (fuel : Nat) (r0 r1 s0 s1 t0 t1 : Int), d ∣ r0 → d ∣ r1 →
      d ∣ (euclidAux fuel r0 r1 s0 s1 t0 t1).1 := by
  intro fuel
  induction fuel with
  | zero =>
    intro r0 r1 s0 s1 t0 t1 h0 _
    exact h0
  | succ fuel ih =>
    intro r0 r1 s0 s1 t0 t1 h0 h1
    unfold euclidAux
    by_cases hz : r1 = 0
    · rw [if_pos hz]
      exact h0
    · rw [if_neg hz]
      exact ih _ _ _ _ _ _ h1 (Dvd.dvd.sub h0 (Dvd.dvd.mul_left h1 _))

/-- When `euclidGCD` returns 1 the operands are coprime. -/
theorem euclidGCD_one (a b : Int) (h : (euclidGCD a b).1 = 1) : Int.gcd a b = 1 := by
  have hdvd : ((Int.gcd a b : Nat) : Int) ∣ (euclidGCD a b).1 :=
    euclidAux_dvd _ _ a b 1 0 0 1 Int.gcd_dvd_left Int.gcd_dvd_right
  rw [h] at hdvd
  have hnat : Int.gcd a b ∣ 1 := Int.natCast_dvd_natCast.mp (by simpa using hdvd)
  exact Nat.dvd_one.mp hnat

theorem totient_even_int :
    ∀ (ps : List Int) (t : Int),
      ((2 : Int) ∣ t ∨ ∃ q ∈ ps, q % 2 = 1) →
      (2 : Int) ∣ ps.foldl (fun t q => t * (q - 1)) t := by
  intro ps
  induction ps with
  | nil =>
    intro t h
    rcases h with h | ⟨_, hmem, _⟩
    · exact h
    · cases hmem
  | cons q rest ih =>
    intro t h
    rw [List.foldl_cons]
    apply ih
    rcases h with h | ⟨r, hmem, hr⟩
    · exact Or.inl (Dvd.dvd.mul_right h _)
    · rcases List.mem_cons.mp hmem with rfl | hmem
      · left
        apply Dvd.dvd.mul_left
        omega
      · exact Or.inr ⟨r, hmem, hr⟩

/-- A list of naturals read as a list of integers is the list of the casts. -/
theorem natList_cast_eq_map (l : List Nat) :
    (do let a ← l; pure (a : Int) : List Int) = List.map (fun a : Nat => (a : Int)) l := by
  induction l with
  | nil => rfl
  | cons a rest ih =>
    have hstep : (do let a ← a :: rest; pure (a : Int) : List Int)
        = (a : Int) :: (do let a ← rest; pure (a : Int) : List Int) := rfl
    rw [hstep, ih]
    rfl

/-- The totient that `generateMultiPrimeKey` computes is even as soon as one
of the primes is odd. -/
theorem totient_even (primes : List Nat) (h : ∃ prime ∈ primes, prime % 2 = 1) :
    (2 : Int) ∣ primes.foldl (fun t prime => t * ((prime : Int) - 1)) 1 := by
  have hmap := natList_cast_eq_map primes
  show (2 : Int) ∣ List.foldl (fun t q => t * (q - 1)) 1
    (do let a ← primes; pure (a : Int) : List Int)
  rw [hmap]
  apply totient_even_int
  right
  obtain ⟨q, hq, hodd⟩ := h
  have hmem : (fun a : Nat => (a : Int)) q ∈ primes.map (fun a : Nat => (a : Int)) :=
    List.mem_map_of_mem _ hq
  exact ⟨(q : Int), hmem, by omega⟩

/-- What the loop that draws the primes returns: on success, numbers that the
source handed out, one for each value of `i`; on failure, an error of the
source. -/
theorem drawPrimes_spec {σ : Type} (Prime : PrimeSource σ) (nprimes : Int) (P : Nat → Prop)
    (hP : ∀ (r : σ) (n : Int) (prime : Nat) (r1 : σ), Prime r n = (.ok prime, r1) → P prime) :
    ∀ (is : List Nat) (todo : Int) (primes : List Nat) (rand : σ),
      (∀ prime ∈ primes, P prime) →
      (∀ out rand1, drawPrimes Prime nprimes is todo primes rand = (.ok out, rand1) →
        (∀ prime ∈ out, P prime) ∧ out.length = primes.length + is.length) ∧
      (∀ err rand1, drawPrimes Prime nprimes is todo primes rand = (.error err, rand1) →
        ∃ (r : σ) (n : Int), Prime r n = (.error err, rand1)) := by
  intro is
  induction is with
  | nil =>
    intro todo primes rand hall
    constructor
    · intro out rand1 h
      simp only [drawPrimes, Prod.mk.injEq, Except.ok.injEq] at h
      rw [← h.1]
      exact ⟨hall, rfl⟩
    · intro err rand1 h
      simp [drawPrimes] at h
  | cons i is ih =>
    intro todo primes rand hall
    cases hdraw : Prime rand (Int.tdiv todo (nprimes - (i : Int))) with
    | mk res rand2 =>
      cases res with
      | error e =>
        constructor
        · intro out rand1 h
          simp [drawPrimes, hdraw] at h
        · intro err rand1 h
          simp only [drawPrimes, hdraw, Prod.mk.injEq, Except.error.injEq] at h
          rw [← h.1, ← h.2]
          exact ⟨rand, _, hdraw⟩
      | ok prime =>
        have hall2 : ∀ q ∈ primes ++ [prime], P q := by
          intro q hq
          rcases List.mem_append.mp hq with hq | hq
          · exact hall q hq
          · rw [List.mem_singleton] at hq
            rw [hq]
            exact hP _ _ _ _ hdraw
        obtain ⟨hok, herr⟩ := ih (todo - (BitLen prime : Int)) (primes ++ [prime]) rand2 hall2
        constructor
        · intro out rand1 h
          simp only [drawPrimes, hdraw] at h
          obtain ⟨h1, h2⟩ := hok out rand1 h
          refine ⟨h1, ?_⟩
          rw [h2]
          simp only [List.length_append, List.length_cons, List.length_nil]
          omega
        · intro err rand1 h
          simp only [drawPrimes, hdraw] at h
          exact herr err rand1 h

/-- With an even exponent, a GCD function that returns 1 on coprime operands
only and a source of odd numbers, the retry loop accepts no set of primes: it
is still running when the fuel is spent, or it has ended on an error of the
source. -/
theorem nextSetOfPrimes_even {σ : Type} (Prime : PrimeSource σ) (GCD : GCDFunction)
    (nprimes bits e : Int) (hn : 1 ≤ nprimes) (heven : e % 2 = 0)
    (hgcd : ∀ a b : Int, (GCD a b).1 = 1 → Int.gcd a b = 1)
    (hodd : ∀ (r : σ) (n : Int) (prime : Nat) (r1 : σ),
      Prime r n = (.ok prime, r1) → prime % 2 = 1) :
    ∀ (fuel : Nat) (rand : σ),
      (nextSetOfPrimes Prime GCD nprimes bits e fuel rand).1 = none ∨
      ∃ (err : Error) (r : σ) (n : Int) (r1 : σ),
        nextSetOfPrimes Prime GCD nprimes bits e fuel rand = (some (.error err), r1) ∧
        Prime r n = (.error err, r1) := by
  intro fuel
  induction fuel with
  | zero =>
    intro rand
    left
    rfl
  | succ fuel ih =>
    intro rand
    obtain ⟨hok, herr⟩ := drawPrimes_spec Prime nprimes (fun q => q % 2 = 1) hodd
      (List.range nprimes.toNat)
      (if nprimes ≥ 7 then bits + Int.tdiv (nprimes - 2) 5 else bits) [] rand
      (fun q hq => by cases hq)
    cases hdraw : drawPrimes Prime nprimes (List.range nprimes.toNat)
        (if nprimes ≥ 7 then bits + Int.tdiv (nprimes - 2) 5 else bits) [] rand with
    | mk res rand1 =>
      cases res with
      | error err =>
        right
        obtain ⟨r, n, hr⟩ := herr err rand1 hdraw
        refine ⟨err, r, n, rand1, ?_, hr⟩
        simp only [nextSetOfPrimes, hdraw]
      | ok primes =>
        obtain ⟨hall, hlen⟩ := hok primes rand1 hdraw
        have hne : primes ≠ [] := by
          intro h
          rw [h] at hlen
          simp only [List.length_nil, List.length_range] at hlen
          omega
        obtain ⟨q, rest, hq⟩ := List.exists_cons_of_ne_nil hne
        have htot := totient_even primes
          ⟨q, by rw [hq]; exact List.mem_cons_self q rest,
            hall q (by rw [hq]; exact List.mem_cons_self q rest)⟩
        have he : (2 : Int) ∣ e := Int.dvd_of_emod_eq_zero heven
        simp only [nextSetOfPrimes, hdraw]
        by_cases hnd : ¬ primes.Nodup
        · rw [if_pos hnd]
          exact ih rand1
        · rw [if_neg hnd]
          by_cases hbits : (BitLen (primes.foldl (fun n prime => n * prime) 1) : Int) ≠ bits
          · rw [if_pos hbits]
            exact ih rand1
          · rw [if_neg hbits]
            by_cases hg : (GCD e (primes.foldl (fun t prime => t * ((prime : Int) - 1)) 1)).1 = 1
            · exfalso
              have hone := hgcd _ _ hg
              have hdvd : (2 : Int) ∣ ((1 : Nat) : Int) := by
                rw [← hone]
                exact Int.dvd_gcd he htot
              omega
            · rw [if_neg hg]
              exact ih rand1

theorem toyOddPrimes_odd (r : Nat) (n : Int) (prime : Nat) (r1 : Nat)
    (h : toyOddPrimes r n = (.ok prime, r1)) : prime % 2 = 1 := by
  simp only [toyOddPrimes, Prod.mk.injEq, Except.ok.injEq] at h
  rw [← h.1]
  split <;> rfl

/-! ## Claims on an even public exponent -/

/-- C22: for every even `e`, when the GCD function returns 1 on coprime
operands only and the prime source hands out odd numbers, as the library's
do: `gcd(e, (p-1)(q-1))` is not 1 for odd `p` and `q`, so
`generateMultiPrimeKey` with two primes never returns a key, whatever the
fuel: it is still in its retry loop or it has ended on an error of the prime
source; and every instance that `NewRsaPrivate bits e` returns holds no key
but an error. -/
theorem C22_even_exponent_never_accepted {σ : Type} (Prime : PrimeSource σ)
    (GCD : GCDFunction) (bits e : Int) (fuel : Nat) (rand : σ)
    (heven : e % 2 = 0)
    (hgcd : ∀ a b : Int, (GCD a b).1 = 1 → Int.gcd a b = 1)
    (hodd : ∀ (r : σ) (n : Int) (prime : Nat) (r1 : σ),
      Prime r n = (.ok prime, r1) → prime % 2 = 1) :
    (∀ p q : Nat, p % 2 = 1 → q % 2 = 1 →
      Int.gcd e (((p : Int) - 1) * ((q : Int) - 1)) ≠ 1 ∧
      (GCD e (((p : Int) - 1) * ((q : Int) - 1))).1 ≠ 1) ∧
    (∀ (key : PrivateKey) (rand1 : σ),
      generateMultiPrimeKey Prime GCD 2 bits e fuel rand ≠ (some (.ok key), rand1)) ∧
    ((generateMultiPrimeKey Prime GCD 2 bits e fuel rand).1 = none ∨
      ∃ (err : Error) (r : σ) (n : Int) (r1 : σ),
        generateMultiPrimeKey Prime GCD 2 bits e fuel rand = (some (.error err), r1) ∧
        Prime r n = (.error err, r1)) ∧
    (∀ (inst : RsaPrivate) (rand1 : σ),
      NewRsaPrivate Prime GCD bits e fuel rand = (some inst, rand1) →
      inst.priKey = none ∧ ∃ err, inst.err = some err) := by
  have he : (2 : Int) ∣ e := Int.dvd_of_emod_eq_zero heven
  have hloop := nextSetOfPrimes_even Prime GCD 2 bits e (by decide) heven hgcd hodd fuel rand
  have hgen : generateMultiPrimeKey Prime GCD 2 bits e fuel rand
      = nextSetOfPrimes Prime GCD 2 bits e fuel rand := by
    unfold generateMultiPrimeKey
    rw [if_neg (by decide)]
  have hnokey : ∀ (key : PrivateKey) (rand1 : σ),
      generateMultiPrimeKey Prime GCD 2 bits e fuel rand ≠ (some (.ok key), rand1) := by
    intro key rand1 h
    rw [hgen] at h
    rcases hloop with hnone | ⟨err, r, n, r1, hres, _⟩
    · rw [h] at hnone
      cases hnone
    · rw [h] at hres
      simp at hres
  refine ⟨?_, hnokey, by rw [hgen]; exact hloop, ?_⟩
  · intro p q hp hq
    have htot : (2 : Int) ∣ ((p : Int) - 1) * ((q : Int) - 1) :=
      Dvd.dvd.mul_right (by omega) _
    have hne : Int.gcd e (((p : Int) - 1) * ((q : Int) - 1)) ≠ 1 := by
      intro hone
      have hdvd : (2 : Int) ∣ ((1 : Nat) : Int) := by
        rw [← hone]
        exact Int.dvd_gcd he htot
      omega
    exact ⟨hne, fun hg => hne (hgcd _ _ hg)⟩
  · intro inst rand1 hret
    unfold NewRsaPrivate at hret
    split at hret
    · simp only [Prod.mk.injEq, Option.some.injEq] at hret
      rw [← hret.1]
      exact ⟨rfl, _, rfl⟩
    · split at hret
      · simp at hret
      · simp only [Prod.mk.injEq, Option.some.injEq] at hret
        rw [← hret.1]
        exact ⟨rfl, _, rfl⟩
      · rename_i key rand2 hkey
        exact absurd hkey (hnokey key rand2)

theorem C22_even_exponent_never_accepted_witness :
    NewRsaPrivate toyOddPrimes euclidGCD 16 2 3 0 = (none, 6) ∧
    NewRsaPrivate toyOddPrimes euclidGCD 16 65537 3 0
      = (some { priKey := some { PublicKey := { N := 60491, E := 65537 }, D := 33473,
                                 Primes := [251, 241] },
                err := none }, 2) ∧
    ((∀ p q : Nat, p % 2 = 1 → q % 2 = 1 →
      Int.gcd 2 (((p : Int) - 1) * ((q : Int) - 1)) ≠ 1 ∧
      (euclidGCD 2 (((p : Int) - 1) * ((q : Int) - 1))).1 ≠ 1) ∧
    (∀ (key : PrivateKey) (rand1 : Nat),
      generateMultiPrimeKey toyOddPrimes euclidGCD 2 16 2 3 0 ≠ (some (.ok key), rand1)) ∧
    ((generateMultiPrimeKey toyOddPrimes euclidGCD 2 16 2 3 0).1 = none ∨
      ∃ (err : Error) (r : Nat) (n : Int) (r1 : Nat),
        generateMultiPrimeKey toyOddPrimes euclidGCD 2 16 2 3 0 = (some (.error err), r1) ∧
        toyOddPrimes r n = (.error err, r1)) ∧
    (∀ (inst : RsaPrivate) (rand1 : Nat),
      NewRsaPrivate toyOddPrimes euclidGCD 16 2 3 0 = (some inst, rand1) →
      inst.priKey = none ∧ ∃ err, inst.err = some err)) :=
  ⟨by decide, by decide,
    C22_even_exponent_never_accepted toyOddPrimes euclidGCD 16 2 3 0 (by decide)
      euclidGCD_one toyOddPrimes_odd⟩

end Crypt
